import Mathlib

/-!
# zendb: copy-on-write B-tree pages (`storage/btree.go`)

A shallow embedding of the node codec, the node builder and the splitter of
`storage/btree.go`, followed by theorems about them.

Modelling conventions.

* A Go `[]byte` buffer is a `Buf`: its length and the byte at each index.  The
  capacity of a slice equals its length (as for a buffer obtained from `make`).
  Keys and values that are passed in or read out are `List Byte`.
* Go mutates buffers in place.  Here every writer returns the updated buffer.
  The builder functions are always called with pairwise distinct buffers.
* `uint16` arithmetic is arithmetic on `Nat` reduced modulo `2^16` after every
  operation (`u16`, `sub16`); `uint64` values are reduced modulo `2^64`.
* A run has three outcomes (`Res`): a value, a run-time panic (index or slice
  bound out of range), or a loop that never exits.
-/

namespace Zendb

/-! ## Outcomes -/

/-- Outcome of running a piece of the program. -/
inductive Res (α : Type) where
  | ok (a : α)
  | panic
  | hang
deriving DecidableEq

namespace Res

/-- Sequencing: the first abnormal outcome wins. -/
def bind {α β : Type} (x : Res α) (f : α → Res β) : Res β :=
  match x with
  | ok a => f a
  | panic => panic
  | hang => hang

instance : Monad Res where
  pure := Res.ok
  bind := Res.bind

/-- The outcome alone, with the value dropped. -/
def void {α : Type} (x : Res α) : Res Unit :=
  match x with
  | ok _ => ok ()
  | panic => panic
  | hang => hang

end Res

/-! ## Bytes and machine integers -/

/-- One byte. -/
abbrev Byte := Fin 256

/-- Conversion `byte(v)`: the low eight bits. -/
def byteOf (v : Nat) : Byte := ⟨v % 256, Nat.mod_lt v (by decide)⟩

/-- Wrap to `uint16`. -/
def u16 (n : Nat) : Nat := n % 65536

/-- Subtraction `a - b` on `uint16`. -/
def sub16 (a b : Nat) : Nat := (a % 65536 + 65536 - b % 65536) % 65536

/-- A byte slice: its length and the byte stored at each index.  Only indices
below `size` are ever read or written by the program. -/
structure Buf where
  size : Nat
  byte : Nat → Byte

namespace Buf

/-- The slice holding the bytes of a list. -/
def ofList (l : List Byte) : Buf := ⟨l.length, fun i => l.getD i 0⟩

/-- The bytes of a slice, in order. -/
def toList (b : Buf) : List Byte := (List.range b.size).map b.byte

/-- A zeroed buffer, `make([]byte, n)`. -/
def make (n : Nat) : Buf := ⟨n, fun _ => 0⟩

/-- The view `b[lo : lo+n]`. -/
def slice (b : Buf) (lo n : Nat) : Buf := ⟨n, fun i => b.byte (lo + i)⟩

/-- The store `b[i] = v`. -/
def set (b : Buf) (i : Nat) (v : Byte) : Buf :=
  ⟨b.size, fun j => if j = i then v else b.byte j⟩

/-- The buffer `b` with the first `k` bytes of `src` stored from `pos` on. -/
def blit (b : Buf) (pos : Nat) (src : Buf) (k : Nat) : Buf :=
  ⟨b.size, fun j => if pos ≤ j ∧ j < pos + k then src.byte (j - pos) else b.byte j⟩

/-- Little-endian value of the `w` bytes from `pos` on. -/
def leRead (b : Buf) : Nat → Nat → Nat
  | _, 0 => 0
  | pos, w + 1 => (b.byte pos).val + 256 * leRead b (pos + 1) w

/-- Little-endian store of `v` on the `w` bytes from `pos` on. -/
def leWrite (b : Buf) : Nat → Nat → Nat → Buf
  | _, 0, _ => b
  | pos, w + 1, v => leWrite (b.set pos (byteOf v)) (pos + 1) w (v / 256)

end Buf

/-- Model of `binary.LittleEndian.Uint16(d[pos:])`. -/
def leUint16 (d : Buf) (pos : Nat) : Res Nat :=
  if pos + 2 ≤ d.size then .ok (d.leRead pos 2) else .panic

/-- Model of `binary.LittleEndian.PutUint16(d[pos:], v)`. -/
def lePutUint16 (d : Buf) (pos v : Nat) : Res Buf :=
  if pos + 2 ≤ d.size then .ok (d.leWrite pos 2 v) else .panic

/-- Model of `binary.LittleEndian.Uint64(d[pos:])`. -/
def leUint64 (d : Buf) (pos : Nat) : Res Nat :=
  if pos + 8 ≤ d.size then .ok (d.leRead pos 8) else .panic

/-- Model of `binary.LittleEndian.PutUint64(d[pos:], v)`. -/
def lePutUint64 (d : Buf) (pos v : Nat) : Res Buf :=
  if pos + 8 ≤ d.size then .ok (d.leWrite pos 8 v) else .panic

/-- Model of `copy(d[pos:], src)`: stores as many bytes of `src` as fit. -/
def copyAt (d : Buf) (pos : Nat) (src : Buf) : Res Buf :=
  if pos ≤ d.size then .ok (d.blit pos src (min (d.size - pos) src.size)) else .panic

/-- Model of the slice expression `d[lo:hi]`. -/
def sliceRange (d : Buf) (lo hi : Nat) : Res Buf :=
  if lo ≤ hi ∧ hi ≤ d.size then .ok (d.slice lo (hi - lo)) else .panic

/-- Model of the slice expression `d[lo:][:n]`. -/
def sliceLen (d : Buf) (lo n : Nat) : Res Buf :=
  if lo ≤ d.size ∧ n ≤ d.size - lo then .ok (d.slice lo n) else .panic

/-- Model of `bytes.Compare`. -/
def bytesCompare : List Byte → List Byte → Ordering
  | [], [] => .eq
  | [], _ :: _ => .lt
  | _ :: _, [] => .gt
  | a :: as, b :: bs =>
    if a < b then .lt else if b < a then .gt else bytesCompare as bs

/-! ## Constants -/

def BNODE_NODE : Nat := 1
def BNODE_LEAF : Nat := 2

def HEADER : Nat := 4
def POINTER_SIZE : Nat := 8
def OFFSET_SIZE : Nat := 8
def HEADER_KV : Nat := 4
def BTREE_PAGE_SIZE : Nat := 4096
def BTREE_MAX_KEY_SIZE : Nat := 1000
def BTREE_MAX_VAL_SIZE : Nat := 3000

/-! ## Node codec -/

/-- A node is a byte buffer. -/
structure BNode where
  data : Buf

namespace BNode

def btype (node : BNode) : Res Nat := leUint16 node.data 0

/-- The slice `node.data[2:4]` needs four bytes. -/
def nkeys (node : BNode) : Res Nat := do
  let b ← sliceRange node.data 2 4
  leUint16 b 0

/-- Both slices `data[0:2]` and `data[2:4]` are taken by bounds, so a buffer of
fewer than two bytes panics before anything is stored. -/
def setHeader (node : BNode) (btype nkeys : Nat) : Res BNode := do
  let _ ← sliceRange node.data 0 2
  let d1 ← lePutUint16 node.data 0 btype
  let _ ← sliceRange d1 2 4
  let d2 ← lePutUint16 d1 2 nkeys
  pure ⟨d2⟩

end BNode

def getPtrPos (idx : Nat) : Nat := u16 (HEADER + u16 (POINTER_SIZE * idx))

def offsetPos (node : BNode) (idx : Nat) : Res Nat := do
  let n ← node.nkeys
  pure (u16 (u16 (HEADER + u16 (POINTER_SIZE * n)) + u16 (OFFSET_SIZE * sub16 idx 1)))

namespace BNode

def getPtr (node : BNode) (idx : Nat) : Res Nat :=
  leUint64 node.data (getPtrPos idx)

def setPtr (node : BNode) (idx val : Nat) : Res BNode := do
  let d ← lePutUint64 node.data (getPtrPos idx) val
  pure ⟨d⟩

def getOffset (node : BNode) (idx : Nat) : Res Nat :=
  if idx = 0 then pure 0
  else do
    let pos ← offsetPos node idx
    leUint16 node.data pos

def setOffset (node : BNode) (idx offset : Nat) : Res BNode := do
  let pos ← offsetPos node idx
  let d ← lePutUint16 node.data pos offset
  pure ⟨d⟩

def kvPos (node : BNode) (idx : Nat) : Res Nat := do
  let n ← node.nkeys
  let n2 ← node.nkeys
  let off ← node.getOffset idx
  pure (u16 (u16 (u16 (HEADER + u16 (POINTER_SIZE * n)) + u16 (OFFSET_SIZE * n2)) + off))

def getKey (node : BNode) (idx : Nat) : Res (List Byte) := do
  let pos ← node.kvPos idx
  let klen ← leUint16 node.data pos
  let k ← sliceLen node.data (u16 (pos + HEADER_KV)) klen
  pure k.toList

def getVal (node : BNode) (idx : Nat) : Res (List Byte) := do
  let pos ← node.kvPos idx
  let klen ← leUint16 node.data (u16 (pos + 0))
  let vlen ← leUint16 node.data (u16 (pos + 2))
  let v ← sliceLen node.data (u16 (u16 (pos + HEADER_KV) + klen)) vlen
  pure v.toList

def nbytes (node : BNode) : Res Nat := do
  let n ← node.nkeys
  node.kvPos n

end BNode

/-! ## Lookup -/

/-- The loop of `nodeLookupLE`: `rem` iterations remain, `i` is the loop counter.
The counter stays below `nkeys`, so `i++` never wraps. -/
def nodeLookupLE.loop (node : BNode) (key : List Byte) : Nat → Nat → Nat → Res Nat
  | 0, _, found => pure found
  | rem + 1, i, found => do
    let k ← node.getKey i
    let cmp := bytesCompare k key
    let found := if cmp ≠ .gt then i else found
    if cmp ≠ .lt then pure found
    else nodeLookupLE.loop node key rem (i + 1) found

def nodeLookupLE (node : BNode) (key : List Byte) : Res Nat := do
  let nkeys ← node.nkeys
  nodeLookupLE.loop node key (nkeys - 1) 1 0

/-! ## Node builder -/

/-- First loop of `nodeAppendRange` (`for i := 0; i < n; i++`): pointers. -/
def nodeAppendRange.ptrs (old : BNode) (dstNew srcOld : Nat) : Nat → Nat → BNode → Res BNode
  | 0, _, new => pure new
  | rem + 1, i, new => do
    let p ← old.getPtr (u16 (srcOld + i))
    let new ← new.setPtr (u16 (dstNew + i)) p
    nodeAppendRange.ptrs old dstNew srcOld rem (i + 1) new

/-- Second loop of `nodeAppendRange` (`for i := 1; i <= n; i++`): offsets.  With
`n = 65535` the condition `i <= n` holds for every `uint16`, so the counter wraps
and the loop does not exit; `fuel` bounds the number of condition checks. -/
def nodeAppendRange.offsets (old : BNode) (dstNew srcOld n dstBegin srcBegin : Nat) :
    Nat → Nat → BNode → Res BNode
  | 0, _, _ => .hang
  | fuel + 1, i, new =>
    if i ≤ n then do
      let o ← old.getOffset (u16 (srcOld + 1))
      let offset := sub16 (u16 (dstBegin + o)) srcBegin
      let new ← new.setOffset (u16 (dstNew + i)) offset
      nodeAppendRange.offsets old dstNew srcOld n dstBegin srcBegin fuel (u16 (i + 1)) new
    else pure new

/-- Copy of `n` entries of `old`, from `srcOld` on, to position `dstNew` of `new`.
The offsets loop is given `2 * 65536` condition checks: an exit needs at most
`65535`, and a run that is still going after a full cycle of the counter repeats
the same stores for ever. -/
def nodeAppendRange (new old : BNode) (dstNew srcOld n : Nat) : Res BNode :=
  if n = 0 then pure new
  else do
    let new ← nodeAppendRange.ptrs old dstNew srcOld n 0 new
    let dstBegin ← new.getOffset dstNew
    let srcBegin ← old.getOffset srcOld
    let new ← nodeAppendRange.offsets old dstNew srcOld n dstBegin srcBegin (2 * 65536) 1 new
    let kvBegin ← old.kvPos srcOld
    let kvEnd ← old.kvPos (u16 (srcOld + n))
    let pos ← new.kvPos dstNew
    let src ← sliceRange old.data kvBegin kvEnd
    let d ← copyAt new.data pos src
    pure ⟨d⟩

def nodeAppendKV (new : BNode) (idx ptr : Nat) (key val : List Byte) : Res BNode := do
  let new ← new.setPtr idx ptr
  let pos ← new.kvPos idx
  let d ← lePutUint16 new.data (u16 (pos + 0)) (u16 key.length)
  let d ← lePutUint16 d (u16 (pos + 2)) (u16 val.length)
  let d ← copyAt d (u16 (pos + 4)) (Buf.ofList key)
  let d ← copyAt d (u16 (u16 (pos + 4) + u16 key.length)) (Buf.ofList val)
  let new : BNode := ⟨d⟩
  let o ← new.getOffset idx
  new.setOffset (u16 (idx + 1)) (u16 (u16 (o + HEADER_KV) + u16 (key.length + val.length)))

def leafInsert (new old : BNode) (key val : List Byte) (idx : Nat) : Res BNode := do
  let n ← old.nkeys
  let new ← new.setHeader BNODE_LEAF (u16 (n + 1))
  let new ← nodeAppendRange new old 0 0 idx
  let new ← nodeAppendKV new idx 0 key val
  let n ← old.nkeys
  nodeAppendRange new old (u16 (idx + 1)) idx (sub16 n idx)

/-! ## Tree handle -/

/-- The tree handle: a root page id and the three page-store callbacks.  The page
store is an explicit state `σ` threaded through the callbacks. -/
structure BTree (σ : Type) where
  root : Nat
  get : σ → Nat → σ × BNode
  new : σ → BNode → σ × Nat
  del : σ → Nat → σ

/-- Body of `treeInsert`; the result is the scratch buffer `new` as the function
leaves it.  The update branch and the internal-node branch are empty in the
source. -/
def treeInsert {σ : Type} (_tree : BTree σ) (node : BNode) (key val : List Byte) : Res BNode := do
  let new : BNode := ⟨Buf.make (2 * BTREE_PAGE_SIZE)⟩
  let idx ← nodeLookupLE node key
  let t ← node.btype
  if t = BNODE_LEAF then do
    let k ← node.getKey idx
    if key = k then pure new
    else leafInsert new node key val (u16 (idx + 1))
  else if t = BNODE_NODE then pure new
  else pure new

/-! ## Splitter -/

/-- The closure `leftBytes` of `nodeSplit2`, at the current value of `nleft`. -/
def nodeSplit2.leftBytes (old : BNode) (nleft : Nat) : Res Nat := do
  let o ← old.getOffset nleft
  pure (u16 (u16 (u16 (HEADER + u16 (POINTER_SIZE * nleft)) + u16 (2 * nleft)) + o))

/-- The closure `rightBytes` of `nodeSplit2`, at the current value of `nleft`. -/
def nodeSplit2.rightBytes (old : BNode) (nleft : Nat) : Res Nat := do
  let nb ← old.nbytes
  let lb ← nodeSplit2.leftBytes old nleft
  pure (u16 (sub16 nb lb + HEADER))

/-- The loop `for leftBytes() > BTREE_PAGE_SIZE { nleft-- }`. -/
def nodeSplit2.fitLeft (old : BNode) : Nat → Nat → Res Nat
  | 0, _ => .hang
  | fuel + 1, nleft => do
    let lb ← nodeSplit2.leftBytes old nleft
    if lb > BTREE_PAGE_SIZE then nodeSplit2.fitLeft old fuel (sub16 nleft 1)
    else pure nleft

/-- The loop `for rightBytes() > BTREE_PAGE_SIZE { nleft++ }`. -/
def nodeSplit2.fitRight (old : BNode) : Nat → Nat → Res Nat
  | 0, _ => .hang
  | fuel + 1, nleft => do
    let rb ← nodeSplit2.rightBytes old nleft
    if rb > BTREE_PAGE_SIZE then nodeSplit2.fitRight old fuel (u16 (nleft + 1))
    else pure nleft

/-- Number of condition checks given to each loop of `nodeSplit2`.  The loop
state is the single `uint16` counter `nleft` (the node `old` is only read), so a
run of more than `65536` checks has met a counter value twice and never exits. -/
def splitFuel : Nat := 65537

/-- The split index `nleft` that `nodeSplit2` reaches after both loops. -/
def nodeSplit2.index (old : BNode) : Res Nat := do
  let n ← old.nkeys
  let nleft ← nodeSplit2.fitLeft old splitFuel (n / 2)
  nodeSplit2.fitRight old splitFuel nleft

def nodeSplit2 (left right old : BNode) : Res (BNode × BNode) := do
  let nleft ← nodeSplit2.index old
  let n ← old.nkeys
  let nright := sub16 n nleft
  let t ← old.btype
  let left ← left.setHeader t nleft
  let t ← old.btype
  let right ← right.setHeader t nright
  let left ← nodeAppendRange left old 0 0 nleft
  let right ← nodeAppendRange right old 0 nleft nright
  pure (left, right)

/-- The zero value of `BNode` (a nil slice), which fills the unused slots of the
array that `nodeSplit3` returns. -/
def BNode.zero : BNode := ⟨Buf.make 0⟩

/-- The result is the count and the three slots of the returned array. -/
def nodeSplit3 (old : BNode) : Res (Nat × List BNode) := do
  let nb ← old.nbytes
  if nb ≤ BTREE_PAGE_SIZE then do
    let d ← sliceRange old.data 0 BTREE_PAGE_SIZE
    pure (1, [⟨d⟩, BNode.zero, BNode.zero])
  else do
    let left : BNode := ⟨Buf.make (2 * BTREE_PAGE_SIZE)⟩
    let right : BNode := ⟨Buf.make BTREE_PAGE_SIZE⟩
    let (left, right) ← nodeSplit2 left right old
    let nb ← left.nbytes
    if nb ≤ BTREE_PAGE_SIZE then do
      let d ← sliceRange left.data 0 BTREE_PAGE_SIZE
      pure (2, [⟨d⟩, right, BNode.zero])
    else do
      let leftleft : BNode := ⟨Buf.make BTREE_PAGE_SIZE⟩
      let middle : BNode := ⟨Buf.make BTREE_PAGE_SIZE⟩
      let (leftleft, middle) ← nodeSplit2 leftleft middle left
      pure (3, [leftleft, middle, right])

/-! ## Replacing a child link -/

/-- The loop `for i, node := range kids` of `nodeReplaceKidN`. -/
def nodeReplaceKidN.kids {σ : Type} (tree : BTree σ) (idx : Nat) :
    List BNode → Nat → σ → BNode → Res (σ × BNode)
  | [], _, s, new => pure (s, new)
  | node :: rest, i, s, new => do
    let (s, id) := tree.new s node
    let k ← node.getKey 0
    let new ← nodeAppendKV new (u16 (idx + u16 i)) id k []
    nodeReplaceKidN.kids tree idx rest (i + 1) s new

def nodeReplaceKidN {σ : Type} (tree : BTree σ) (s : σ) (new old : BNode) (idx : Nat)
    (kids : List BNode) : Res (σ × BNode) := do
  let inc := u16 kids.length
  let n ← old.nkeys
  let new ← new.setHeader BNODE_NODE (sub16 (u16 (n + inc)) 1)
  let new ← nodeAppendRange new old 0 0 idx
  let (s, new) ← nodeReplaceKidN.kids tree idx kids 0 s new
  let n ← old.nkeys
  let new ← nodeAppendRange new old (u16 (idx + inc)) (u16 (idx + 1)) (sub16 n (u16 (idx + 1)))
  pure (s, new)

/-! ## One step at an internal node -/

def nodeInsert {σ : Type} (tree : BTree σ) (s : σ) (new node : BNode) (_key _val : List Byte)
    (idx : Nat) : Res (σ × BNode) := do
  let kptr ← node.getPtr idx
  let (s, knode) := tree.get s kptr
  let s := tree.del s kptr
  let (nsplit, splited) ← nodeSplit3 knode
  nodeReplaceKidN tree s new node idx (splited.take nsplit)

/-! ## Specification vocabulary -/

/-- Check of entry `i`: its offsets and its `klen`/`vlen` agree, that is
`offset(i+1) = offset(i) + 4 + klen + vlen`. -/
def BNode.entryOk (node : BNode) (i : Nat) : Bool :=
  match node.getOffset i, node.kvPos i, node.getOffset (i + 1) with
  | .ok o, .ok pos, .ok o' =>
    match leUint16 node.data pos, leUint16 node.data (pos + 2) with
    | .ok kl, .ok vl => decide (o' = o + 4 + kl + vl)
    | _, _ => false
  | _, _, _ => false

/-- A well-formed node: the header is readable, every entry is consistent with
the offsets, and the encoded size `nbytes()` is computed without wrap-around and
lies within the buffer. -/
def BNode.wellFormed (node : BNode) : Bool :=
  match node.nkeys, node.nbytes with
  | .ok n, .ok nb =>
    decide (4 + 16 * n ≤ nb) && decide (nb ≤ node.data.size) && (List.range n).all node.entryOk
  | _, _ => false

/-- Check of the size caps on entry `i`: key at most `BTREE_MAX_KEY_SIZE` bytes
and value at most `BTREE_MAX_VAL_SIZE` bytes. -/
def BNode.entryCapOk (node : BNode) (i : Nat) : Bool :=
  match node.kvPos i with
  | .ok pos =>
    match leUint16 node.data pos, leUint16 node.data (pos + 2) with
    | .ok kl, .ok vl => decide (kl ≤ BTREE_MAX_KEY_SIZE) && decide (vl ≤ BTREE_MAX_VAL_SIZE)
    | _, _ => false
  | _ => false

/-- Every entry of the node is within the key and value size caps. -/
def BNode.withinCaps (node : BNode) : Bool :=
  match node.nkeys with
  | .ok n => (List.range n).all node.entryCapOk
  | _ => false

/-- The offset of entry `i` as stored in a buffer whose header says `n` keys
(`0` for `i = 0`), read without any bound check. -/
def rawOff (d : Buf) (n i : Nat) : Nat :=
  if i = 0 then 0 else d.leRead (4 + 8 * n + 8 * (i - 1)) 2

/-- The `klen` field of entry `i`, read without any bound check. -/
def rawKlen (d : Buf) (n i : Nat) : Nat := d.leRead (4 + 16 * n + rawOff d n i) 2

/-- The `vlen` field of entry `i`, read without any bound check. -/
def rawVlen (d : Buf) (n i : Nat) : Nat := d.leRead (4 + 16 * n + rawOff d n i + 2) 2

/-- Layout facts that the splitter relies on: the node has `n` keys, its offset
slots hold `off 1 .. off n`, the offsets do not decrease, and the encoded size
`4 + 16*n + off n` lies within the buffer and within `uint16`. -/
structure Layout (node : BNode) (n : Nat) (off : Nat → Nat) : Prop where
  size_ge : 4 ≤ node.data.size
  nkeys_eq : node.data.leRead 2 2 = n
  off_zero : off 0 = 0
  off_eq : ∀ i, 1 ≤ i → i ≤ n → node.data.leRead (4 + 8 * n + 8 * (i - 1)) 2 = off i
  mono : ∀ i, i < n → off i ≤ off (i + 1)
  fits : 4 + 16 * n + off n ≤ node.data.size
  small : 4 + 16 * n + off n < 65536

/-- The bytes from `P` on hold one encoded entry: `klen`, `vlen`, the key bytes and
the value bytes. -/
def EntryAt (d : Buf) (P : Nat) (key val : List Byte) : Prop :=
  d.leRead P 2 = key.length ∧ d.leRead (P + 2) 2 = val.length ∧
  (∀ t, t < key.length → d.byte (P + 4 + t) = key.getD t 0) ∧
  (∀ t, t < val.length → d.byte (P + 4 + key.length + t) = val.getD t 0)

/-- A node under construction: the header says `N` keys and the first `m` entries
are written and hold the pointers, keys and values `ent 0 .. ent (m-1)`. -/
structure Written (node : BNode) (N m : Nat) (ent : Nat → Nat × List Byte × List Byte) :
    Prop where
  nkeys_eq : node.data.leRead 2 2 = N
  m_le : m ≤ N
  step : ∀ i, i < m → rawOff node.data N (i + 1)
    = rawOff node.data N i + 4 + (ent i).2.1.length + (ent i).2.2.length
  fits : 4 + 16 * N + rawOff node.data N m ≤ node.data.size
  small : 4 + 16 * N + rawOff node.data N m < 65536
  ptr : ∀ i, i < m → node.data.leRead (4 + 8 * i) 8 = (ent i).1
  entry : ∀ i, i < m →
    EntryAt node.data (4 + 16 * N + rawOff node.data N i) (ent i).2.1 (ent i).2.2

/-- Entry `i` of a buffer whose header says `n` keys, read without any bound check:
pointer, key and value. -/
def rawEntry (d : Buf) (n i : Nat) : Nat × List Byte × List Byte :=
  (d.leRead (4 + 8 * i) 8,
   (d.slice (4 + 16 * n + rawOff d n i + 4) (rawKlen d n i)).toList,
   (d.slice (4 + 16 * n + rawOff d n i + 4 + rawKlen d n i) (rawVlen d n i)).toList)

/-- The `klen` field of the first entry slot of a node whose header says `N` keys is
`kl`, at most `BTREE_MAX_KEY_SIZE`, and the key bytes after it lie within the buffer
and within `uint16`. -/
def FirstKey (nd : BNode) (N kl : Nat) : Prop :=
  nd.data.leRead 2 2 = N ∧ nd.data.leRead (4 + 16 * N) 2 = kl ∧ kl ≤ BTREE_MAX_KEY_SIZE ∧
    4 + 16 * N + 4 + kl ≤ nd.data.size ∧ 4 + 16 * N + 4 + kl < 65536

/-! ## Sample data -/

/-- A leaf with the two entries `("a", 0x01)` and `("b", 0x02)` in a 48-byte buffer. -/
def sampleLeaf2 : BNode :=
  ⟨Buf.ofList [2, 0, 2, 0,
    0, 0, 0, 0, 0, 0, 0, 0, 0, 0, 0, 0, 0, 0, 0, 0,
    6, 0, 0, 0, 0, 0, 0, 0, 12, 0, 0, 0, 0, 0, 0, 0,
    1, 0, 1, 0, 97, 1, 1, 0, 1, 0, 98, 2]⟩

/-- The leaf `sampleLeaf2` in a buffer of one page. -/
def samplePage : BNode := ⟨⟨BTREE_PAGE_SIZE, sampleLeaf2.data.byte⟩⟩

/-- The keys of `sampleLeaf2`. -/
def sampleLeaf2Keys (i : Nat) : List Byte := if i = 0 then [97] else [98]

/-- Decoding loop of `BNode.entries`: `rem` entries from index `i` on. -/
def BNode.entriesFrom (node : BNode) : Nat → Nat → Res (List (Nat × List Byte × List Byte))
  | 0, _ => pure []
  | rem + 1, i => do
    let p ← node.getPtr i
    let k ← node.getKey i
    let v ← node.getVal i
    let rest ← BNode.entriesFrom node rem (i + 1)
    pure ((p, k, v) :: rest)

/-- The entries `(pointer, key, value)` of a node as the accessors decode them,
for the indices `0 .. nkeys-1`. -/
def BNode.entries (node : BNode) : Res (List (Nat × List Byte × List Byte)) := do
  let n ← node.nkeys
  BNode.entriesFrom node n 0

/-- The keys of a node, for the indices `0 .. nkeys-1`. -/
def BNode.keys (node : BNode) : Res (List (List Byte)) := do
  let es ← node.entries
  pure (es.map fun e => e.2.1)

/-- A leaf with the single entry `("b", 0x01)` in a 30-byte buffer. -/
def sampleLeaf1 : BNode :=
  ⟨Buf.ofList [2, 0, 1, 0,
    0, 0, 0, 0, 0, 0, 0, 0,
    6, 0, 0, 0, 0, 0, 0, 0,
    1, 0, 1, 0, 98, 1, 0, 0, 0, 0]⟩

/-- An empty leaf: a zeroed page with the header `type = BNODE_LEAF`, `nkeys = 0`. -/
def emptyLeaf : BNode := ⟨⟨4096, fun i => if i = 0 then 2 else 0⟩⟩

/-- An internal node with three entries, keys `""`, `"b"`, `"c"` and child
pointers `11`, `12`, `13`, in a 66-byte buffer. -/
def sampleInner3 : BNode :=
  ⟨Buf.ofList [1, 0, 3, 0,
    11, 0, 0, 0, 0, 0, 0, 0, 12, 0, 0, 0, 0, 0, 0, 0, 13, 0, 0, 0, 0, 0, 0, 0,
    4, 0, 0, 0, 0, 0, 0, 0, 9, 0, 0, 0, 0, 0, 0, 0, 14, 0, 0, 0, 0, 0, 0, 0,
    0, 0, 0, 0, 1, 0, 0, 0, 98, 1, 0, 0, 0, 99]⟩

/-- A leaf of six entries of 700 bytes each (key `"a"`..`"f"` of one byte, value of
695 zero bytes) in a two-page buffer; its encoded size is `4 + 6*16 + 6*700 = 4300`. -/
def sampleBig : BNode :=
  ⟨⟨8192, fun j =>
    if j = 0 then 2
    else if j = 2 then 6
    else if 52 ≤ j ∧ j < 100 then
      (if (j - 52) % 8 = 0 then byteOf (700 * ((j - 52) / 8 + 1))
       else if (j - 52) % 8 = 1 then byteOf (700 * ((j - 52) / 8 + 1) / 256)
       else 0)
    else if 100 ≤ j ∧ j < 4300 then
      (if (j - 100) % 700 = 0 then 1
       else if (j - 100) % 700 = 2 then 183
       else if (j - 100) % 700 = 3 then 2
       else if (j - 100) % 700 = 4 then byteOf (97 + (j - 100) / 700)
       else 0)
    else 0⟩⟩

/-- A page store that hands out the page ids `7, 8, 9, ...`; its state is the
number of pages allocated so far. -/
def countingTree : BTree Nat :=
  ⟨0, fun s _ => (s, BNode.zero), fun s _ => (s + 1, 7 + s), fun s _ => s⟩

/-- A leaf of fourteen entries: thirteen entries with the one-byte keys `"a" .. "m"`
and no value (five bytes each), then one entry with a key of 1000 bytes `"z"` and a
value of 3000 zero bytes.  Its encoded size is `4 + 14*16 + 13*5 + 4004 = 4297`. -/
def sampleSkew : BNode :=
  ⟨⟨8192, fun j =>
    if j = 0 then 2
    else if j = 2 then 14
    else if 116 ≤ j ∧ j < 228 then
      (if (j - 116) % 8 = 0 then
        byteOf (if (j - 116) / 8 < 13 then 5 * ((j - 116) / 8 + 1) else 4069)
       else if (j - 116) % 8 = 1 then
        byteOf ((if (j - 116) / 8 < 13 then 5 * ((j - 116) / 8 + 1) else 4069) / 256)
       else 0)
    else if 228 ≤ j ∧ j < 293 then
      (if (j - 228) % 5 = 0 then 1
       else if (j - 228) % 5 = 4 then byteOf (97 + (j - 228) / 5)
       else 0)
    else if j = 293 then 232
    else if j = 294 then 3
    else if j = 295 then 184
    else if j = 296 then 11
    else if 297 ≤ j ∧ j < 1297 then 122
    else 0⟩⟩

/-- An internal node with the single entry `("", 5)` in a 24-byte buffer. -/
def sampleInner1 : BNode :=
  ⟨Buf.ofList [1, 0, 1, 0,
    5, 0, 0, 0, 0, 0, 0, 0,
    4, 0, 0, 0, 0, 0, 0, 0,
    0, 0, 0, 0]⟩

/-- A page store that records what it is asked: its state is the list of calls made,
oldest first.  `get` hands out `samplePage` for every id, `new` hands out the id
`7 + number of earlier calls`. -/
inductive StoreCall where
  | get (id : Nat)
  | del (id : Nat)
  | new (entries : Res (List (Nat × List Byte × List Byte)))
deriving DecidableEq

/-- The recording page store. -/
def recordingTree : BTree (List StoreCall) :=
  ⟨0,
   fun s id => (s ++ [StoreCall.get id], samplePage),
   fun s node => (s ++ [StoreCall.new node.entries], (7 + s.length) % 2 ^ 64),
   fun s id => s ++ [StoreCall.del id]⟩

/-- A zeroed buffer of 70000 bytes whose header says type `BNODE_LEAF` and
`nkeys = 4096`. -/
def sampleWide4096 : BNode := ⟨⟨70000, fun i => if i = 0 then 2 else if i = 3 then 16 else 0⟩⟩

/-- A zeroed buffer of 70000 bytes whose header says type `BNODE_LEAF` and
`nkeys = 4095`. -/
def sampleWide4095 : BNode :=
  ⟨⟨70000, fun i => if i = 0 then 2 else if i = 2 then 255 else if i = 3 then 15 else 0⟩⟩

/-- The copy of the three entries of `sampleInner3` that `nodeAppendRange` makes in a
zeroed two-page buffer whose header says type `BNODE_NODE` and three keys. -/
def sampleInner3Copy : Res BNode := do
  let new ← (⟨Buf.make (2 * BTREE_PAGE_SIZE)⟩ : BNode).setHeader BNODE_NODE 3
  nodeAppendRange new sampleInner3 0 0 3

/-! ## The key/value facade -/

/-- A Go byte slice that may be `nil` (`none`). -/
abbrev Bytes := Option (List Byte)

/-- Go's `len` of a byte slice; `len(nil) = 0`. -/
def Bytes.len : Bytes → Nat
  | none => 0
  | some l => l.length

/-- A Go `error` value returned by the facade: made by `errors.New`, or handed
through from the database, whose errors are of type `ε`. -/
inductive FsmError (ε : Type) where
  | new (text : String)
  | db (e : ε)
  deriving DecidableEq

/-- The part of the Badger database that the facade calls, over a database state `σ`,
a transaction state `τ`, items `ι` and errors `ε`. `update` and `view` run a
transaction function; the function given to `view` also carries the variable it
captures. -/
structure BadgerDB (σ τ ι ε : Type) where
  update : σ → (τ → τ × Option ε) → σ × Option ε
  view : σ → Bytes → (τ → Bytes → τ × Bytes × Option ε) → σ × Bytes × Option ε
  txnSet : τ → Bytes → Bytes → τ × Option ε
  txnGet : τ → Bytes → τ × ι × Option ε
  valueCopy : ι → Bytes → Bytes × Option ε
  txnDelete : τ → Bytes → τ × Option ε

structure StorageFSM (σ τ ι ε : Type) where
  db : BadgerDB σ τ ι ε

def StorageFSM.Set {σ τ ι ε : Type} (sf : StorageFSM σ τ ι ε) (s : σ) (key value : Bytes) :
    σ × Option (FsmError ε) :=
  if key = none ∨ key.len = 0 then (s, some (.new "key is invalid"))
  else if value = none ∨ value.len = 0 then (s, some (.new "value is invalid"))
  else
    let r := sf.db.update s (fun txn => sf.db.txnSet txn key value)
    (r.1, r.2.map .db)

/-- The transaction function of `Get`; `data` is the variable it captures. -/
def StorageFSM.Get.body {σ τ ι ε : Type} (sf : StorageFSM σ τ ι ε) (key : Bytes) (txn : τ)
    (data : Bytes) : τ × Bytes × Option ε :=
  match sf.db.txnGet txn key with
  | (txn, _, some err) => (txn, data, some err)
  | (txn, d, none) =>
    match sf.db.valueCopy d none with
    | (data, some err) => (txn, data, some err)
    | (data, none) => (txn, data, none)

def StorageFSM.Get {σ τ ι ε : Type} (sf : StorageFSM σ τ ι ε) (s : σ) (key : Bytes) :
    σ × Bytes × Option (FsmError ε) :=
  if key = none ∨ key.len = 0 then (s, none, some (.new "key is invalid"))
  else
    match sf.db.view s none (StorageFSM.Get.body sf key) with
    | (s, _, some err) => (s, none, some (.db err))
    | (s, data, none) => (s, data, none)

def StorageFSM.Delete {σ τ ι ε : Type} (sf : StorageFSM σ τ ι ε) (s : σ) (key : Bytes) :
    σ × Option (FsmError ε) :=
  if key = none ∨ key.len = 0 then (s, some (.new "key is invalid"))
  else
    let r := sf.db.update s (fun txn => sf.db.txnDelete txn key)
    (r.1, r.2.map .db)

/-- A small database for the facade: the state is the list of stored pairs, a
transaction works on a copy, `update` commits when the function returns no error, and
a missing key is the error `1`. -/
def sampleDB : BadgerDB (List (Bytes × Bytes)) (List (Bytes × Bytes)) Bytes Nat where
  update := fun s f => match f s with
    | (t, none) => (t, none)
    | (_, some e) => (s, some e)
  view := fun s data f => match f s data with
    | (_, data, e) => (s, data, e)
  txnSet := fun t k v => ((k, v) :: t.filter (fun p => p.1 ≠ k), none)
  txnGet := fun t k => match t.lookup k with
    | some v => (t, v, none)
    | none => (t, none, some 1)
  valueCopy := fun d _ => (d, none)
  txnDelete := fun t k => (t.filter (fun p => p.1 ≠ k), none)

/-! # Theorems -/

/-! ## Outcome algebra -/

namespace Res

@[simp] theorem pure_eq {α : Type} (a : α) : (pure a : Res α) = .ok a := rfl

@[simp] theorem ok_bind {α β : Type} (a : α) (f : α → Res β) : (Res.ok a >>= f) = f a := rfl

@[simp] theorem panic_bind {α β : Type} (f : α → Res β) : ((Res.panic : Res α) >>= f) = .panic := rfl

@[simp] theorem hang_bind {α β : Type} (f : α → Res β) : ((Res.hang : Res α) >>= f) = .hang := rfl

theorem bind_eq_ok {α β : Type} {x : Res α} {f : α → Res β} {b : β} :
    (x >>= f) = .ok b ↔ ∃ a, x = .ok a ∧ f a = .ok b := by
  cases x <;> simp

end Res

/-! ## Order on keys -/

theorem bytesCompare_swap (a b : List Byte) : bytesCompare b a = (bytesCompare a b).swap := by
  induction a generalizing b with
  | nil => cases b <;> simp [bytesCompare, Ordering.swap]
  | cons x xs ih =>
    cases b with
    | nil => simp [bytesCompare, Ordering.swap]
    | cons y ys =>
      simp only [bytesCompare]
      by_cases h1 : x < y
      · have h2 : ¬ y < x := lt_asymm h1
        simp [h1, h2, Ordering.swap]
      · by_cases h2 : y < x
        · simp [h1, h2, Ordering.swap]
        · simp [h1, h2, ih]

theorem bytesCompare_eq (a b : List Byte) (h : bytesCompare a b = .eq) : a = b := by
  induction a generalizing b with
  | nil => cases b <;> simp_all [bytesCompare]
  | cons x xs ih =>
    cases b with
    | nil => simp [bytesCompare] at h
    | cons y ys =>
      simp only [bytesCompare] at h
      by_cases h1 : x < y
      · simp [h1] at h
      · by_cases h2 : y < x
        · simp [h1, h2] at h
        · simp only [h1, h2, if_false] at h
          have hxy : x = y := le_antisymm (not_lt.mp h2) (not_lt.mp h1)
          rw [hxy, ih ys h]

theorem bytesCompare_self (a : List Byte) : bytesCompare a a = .eq := by
  induction a with
  | nil => rfl
  | cons x xs ih => simp [bytesCompare, ih]

theorem bytesCompare_lt_trans (a b c : List Byte) (h1 : bytesCompare a b = .lt)
    (h2 : bytesCompare b c = .lt) : bytesCompare a c = .lt := by
  induction a generalizing b c with
  | nil =>
    cases b with
    | nil => simp [bytesCompare] at h1
    | cons y ys =>
      cases c with
      | nil => simp [bytesCompare] at h2
      | cons z zs => simp [bytesCompare]
  | cons x xs ih =>
    cases b with
    | nil => simp [bytesCompare] at h1
    | cons y ys =>
      cases c with
      | nil => simp [bytesCompare] at h2
      | cons z zs =>
        simp only [bytesCompare] at h1 h2 ⊢
        by_cases hxy : x < y
        · by_cases hyz : y < z
          · simp [lt_trans hxy hyz]
          · by_cases hzy : z < y
            · simp [hyz, hzy] at h2
            · have : y = z := le_antisymm (not_lt.mp hzy) (not_lt.mp hyz)
              subst this
              simp [hxy]
        · by_cases hyx : y < x
          · simp [hxy, hyx] at h1
          · have : x = y := le_antisymm (not_lt.mp hyx) (not_lt.mp hxy)
            subst this
            simp only [hxy, if_false] at h1
            by_cases hxz : x < z
            · simp [hxz]
            · by_cases hzx : z < x
              · simp [hxz, hzx] at h2
              · simp only [hxz, hzx, if_false] at h2 ⊢
                exact ih ys zs h1 h2

/-- The order of `bytes.Compare` is the lexicographic order on byte strings. -/
theorem bytesCompare_lt_iff_lex (a b : List Byte) :
    bytesCompare a b = .lt ↔ List.Lex (fun x y : Byte => x < y) a b := by
  induction a generalizing b with
  | nil =>
    cases b with
    | nil => simp [bytesCompare]
    | cons y ys => simp [bytesCompare, List.Lex.nil]
  | cons x xs ih =>
    cases b with
    | nil => simp [bytesCompare]
    | cons y ys =>
      simp only [bytesCompare]
      by_cases h1 : x < y
      · simp only [h1, if_true, true_iff]
        exact List.Lex.rel h1
      · by_cases h2 : y < x
        · simp only [h1, h2, if_false, if_true, reduceCtorEq, false_iff]
          intro hlex
          cases hlex with
          | cons h => exact lt_irrefl _ h2
          | rel h => exact h1 h
        · have hxy : x = y := le_antisymm (not_lt.mp h2) (not_lt.mp h1)
          subst hxy
          simp only [h1, if_false, ih]
          constructor
          · intro h
            exact List.Lex.cons h
          · intro hlex
            cases hlex with
            | cons h => exact h
            | rel h => exact absurd h h1

/-- If `key ≤ a` and `a < b` then `key < b`. -/
theorem bytesCompare_gt_of_not_lt (a b key : List Byte) (h1 : bytesCompare a key ≠ .lt)
    (h2 : bytesCompare a b = .lt) : bytesCompare b key = .gt := by
  cases h : bytesCompare a key with
  | lt => exact absurd h h1
  | eq =>
    have := bytesCompare_eq a key h
    subst this
    rw [bytesCompare_swap a b, h2]; rfl
  | gt =>
    have h3 : bytesCompare key a = .lt := by rw [bytesCompare_swap a key, h]; rfl
    have h4 := bytesCompare_lt_trans key a b h3 h2
    rw [bytesCompare_swap key b, h4]; rfl

/-! ## Lookup -/

theorem nodeLookupLE_loop_spec (node : BNode) (key : List Byte) (n : Nat) (k : Nat → List Byte)
    (hk : ∀ i, i < n → node.getKey i = .ok (k i))
    (hasc : ∀ i j, i < j → j < n → bytesCompare (k i) (k j) = .lt) :
    ∀ rem i, i + rem = n → 1 ≤ i →
      (∀ j, 1 ≤ j → j < i → bytesCompare (k j) key = .lt) →
      ∃ r, nodeLookupLE.loop node key rem i (i - 1) = .ok r ∧ r + 1 ≤ n ∧
        (∀ j, 1 ≤ j → j ≤ r → bytesCompare (k j) key ≠ .gt) ∧
        (∀ j, r < j → j < n → bytesCompare (k j) key = .gt) := by
  intro rem
  induction rem with
  | zero =>
    intro i hi h1 hlt
    refine ⟨i - 1, rfl, by omega, ?_, ?_⟩
    · intro j hj1 hj2
      rw [hlt j hj1 (by omega)]; decide
    · intro j hj1 hj2; omega
  | succ rem ih =>
    intro i hi h1 hlt
    have hin : i < n := by omega
    simp only [nodeLookupLE.loop, hk i hin, Res.ok_bind]
    cases hc : bytesCompare (k i) key with
    | lt =>
      simp only [ne_eq, reduceCtorEq, not_false_eq_true, if_true, not_true_eq_false, if_false]
      have := ih (i + 1) (by omega) (by omega) (by
        intro j hj1 hj2
        by_cases hji : j = i
        · rw [hji]; exact hc
        · exact hlt j hj1 (by omega))
      simpa using this
    | eq =>
      simp only [ne_eq, reduceCtorEq, not_false_eq_true, if_true, Res.pure_eq]
      refine ⟨i, rfl, by omega, ?_, ?_⟩
      · intro j hj1 hj2
        by_cases hji : j = i
        · rw [hji, hc]; decide
        · rw [hlt j hj1 (by omega)]; decide
      · intro j hj1 hj2
        exact bytesCompare_gt_of_not_lt (k i) (k j) key (by rw [hc]; decide) (hasc i j hj1 hj2)
    | gt =>
      simp only [ne_eq, not_true_eq_false, if_false, reduceCtorEq, not_false_eq_true, if_true,
        Res.pure_eq]
      refine ⟨i - 1, rfl, by omega, ?_, ?_⟩
      · intro j hj1 hj2
        rw [hlt j hj1 (by omega)]; decide
      · intro j hj1 hj2
        by_cases hji : j = i
        · rw [hji]; exact hc
        · exact bytesCompare_gt_of_not_lt (k i) (k j) key (by rw [hc]; decide)
            (hasc i j (by omega) hj2)

/-- What `nodeLookupLE` returns on a node with strictly ascending keys. -/
theorem nodeLookupLE_spec (node : BNode) (key : List Byte) (n : Nat)
    (k : Nat → List Byte) (hn : node.nkeys = .ok n)
    (hk : ∀ i, i < n → node.getKey i = .ok (k i))
    (hasc : ∀ j, j < n → ∀ i, i < j → bytesCompare (k i) (k j) = .lt) :
    ∃ r, nodeLookupLE node key = .ok r ∧
      ((∃ i, i < n ∧ bytesCompare (k i) key ≠ .gt) →
        r < n ∧ bytesCompare (k r) key ≠ .gt ∧
          ∀ j, j < n → bytesCompare (k j) key ≠ .gt → j ≤ r) ∧
      ((∀ i, i < n → bytesCompare (k i) key = .gt) → r = 0) := by
  have hasc2 : ∀ i j, i < j → j < n → bytesCompare (k i) (k j) = .lt :=
    fun i j hij hj => hasc j hj i hij
  simp only [nodeLookupLE, hn, Res.ok_bind]
  by_cases hn0 : n = 0
  · subst hn0
    refine ⟨0, rfl, ?_, fun _ => rfl⟩
    rintro ⟨i, hi, _⟩
    omega
  · obtain ⟨r, hr, hrn, hle, hgt⟩ :=
      nodeLookupLE_loop_spec node key n k hk hasc2 (n - 1) 1 (by omega) (le_refl 1)
        (by intro j h1 h2; omega)
    refine ⟨r, hr, ?_, ?_⟩
    · rintro ⟨i, hi, hik⟩
      have hir : i ≤ r := by
        by_contra hc
        exact hik (hgt i (by omega) hi)
      refine ⟨by omega, ?_, ?_⟩
      · by_cases hr0 : r = 0
        · have : i = 0 := by omega
          rw [hr0, ← this]; exact hik
        · exact hle r (by omega) (le_refl r)
      · intro j hj hjk
        by_contra hc
        exact hjk (hgt j (by omega) hj)
    · intro hall
      by_contra hr0
      exact hle r (by omega) (le_refl r) (hall r (by omega))

/-- C1: in a node whose keys are strictly ascending in the order of
`bytes.Compare`, `nodeLookupLE` returns the greatest index whose key is `≤ key`
when there is one, and `0` when no entry is `≤ key` (also when `nkeys = 0`). -/
theorem nodeLookupLE_greatest_le (node : BNode) (key : List Byte) (n : Nat)
    (k : Nat → List Byte) (hn : node.nkeys = .ok n)
    (hk : ∀ i, i < n → node.getKey i = .ok (k i))
    (hasc : ∀ j, j < n → ∀ i, i < j → bytesCompare (k i) (k j) = .lt) :
    ∃ r, nodeLookupLE node key = .ok r ∧
      ((∃ i, i < n ∧ bytesCompare (k i) key ≠ .gt) →
        r < n ∧ bytesCompare (k r) key ≠ .gt ∧
          ∀ j, j < n → bytesCompare (k j) key ≠ .gt → j ≤ r) ∧
      ((∀ i, i < n → bytesCompare (k i) key = .gt) → r = 0) :=
  nodeLookupLE_spec node key n k hn hk hasc

/-- C1 at the two-entry leaf `sampleLeaf2` and the search key `"b\x00"`. -/
theorem nodeLookupLE_greatest_le_witness :
    ∃ r, nodeLookupLE sampleLeaf2 [98, 0] = .ok r ∧
      ((∃ i, i < 2 ∧ bytesCompare (sampleLeaf2Keys i) [98, 0] ≠ .gt) →
        r < 2 ∧ bytesCompare (sampleLeaf2Keys r) [98, 0] ≠ .gt ∧
          ∀ j, j < 2 → bytesCompare (sampleLeaf2Keys j) [98, 0] ≠ .gt → j ≤ r) ∧
      ((∀ i, i < 2 → bytesCompare (sampleLeaf2Keys i) [98, 0] = .gt) → r = 0) :=
  nodeLookupLE_greatest_le sampleLeaf2 [98, 0] 2 sampleLeaf2Keys (by decide) (by decide)
    (by decide)

/-! ## Machine arithmetic -/

theorem u16_of_lt {x : Nat} (h : x < 65536) : u16 x = x := Nat.mod_eq_of_lt h

theorem u16_lt (x : Nat) : u16 x < 65536 := Nat.mod_lt x (by decide)

theorem sub16_of_le {a b : Nat} (ha : a < 65536) (hb : b ≤ a) : sub16 a b = a - b := by
  unfold sub16
  omega

/-! ## Buffers -/

namespace Buf

@[simp] theorem set_size (b : Buf) (i : Nat) (v : Byte) : (b.set i v).size = b.size := rfl

theorem set_byte (b : Buf) (i : Nat) (v : Byte) (j : Nat) :
    (b.set i v).byte j = if j = i then v else b.byte j := rfl

@[simp] theorem blit_size (b : Buf) (pos : Nat) (src : Buf) (k : Nat) :
    (b.blit pos src k).size = b.size := rfl

theorem blit_byte (b : Buf) (pos : Nat) (src : Buf) (k j : Nat) :
    (b.blit pos src k).byte j =
      if pos ≤ j ∧ j < pos + k then src.byte (j - pos) else b.byte j := rfl

@[simp] theorem slice_size (b : Buf) (lo n : Nat) : (b.slice lo n).size = n := rfl

@[simp] theorem slice_byte (b : Buf) (lo n j : Nat) : (b.slice lo n).byte j = b.byte (lo + j) := rfl

@[simp] theorem make_size (n : Nat) : (Buf.make n).size = n := rfl

@[simp] theorem make_byte (n j : Nat) : (Buf.make n).byte j = 0 := rfl

@[simp] theorem leWrite_size (b : Buf) (pos w v : Nat) : (b.leWrite pos w v).size = b.size := by
  induction w generalizing b pos v with
  | zero => rfl
  | succ w ih => simp [leWrite, ih]

theorem leWrite_byte_outside (b : Buf) (pos w v j : Nat) (h : j < pos ∨ pos + w ≤ j) :
    (b.leWrite pos w v).byte j = b.byte j := by
  induction w generalizing b pos v with
  | zero => rfl
  | succ w ih =>
    simp only [leWrite]
    rw [ih _ _ _ (by omega), set_byte, if_neg (by omega)]

theorem leRead_congr (b c : Buf) (pos w : Nat)
    (h : ∀ j, pos ≤ j → j < pos + w → b.byte j = c.byte j) :
    b.leRead pos w = c.leRead pos w := by
  induction w generalizing pos with
  | zero => rfl
  | succ w ih =>
    simp only [leRead]
    rw [h pos (le_refl _) (by omega), ih (pos + 1) (fun j h1 h2 => h j (by omega) (by omega))]

theorem leRead_lt (b : Buf) (pos w : Nat) : b.leRead pos w < 256 ^ w := by
  induction w generalizing pos with
  | zero => simp [leRead]
  | succ w ih =>
    simp only [leRead]
    have h1 := (b.byte pos).isLt
    have h2 := ih (pos + 1)
    rw [pow_succ]
    omega

theorem leRead_leWrite (b : Buf) (pos w v : Nat) :
    (b.leWrite pos w v).leRead pos w = v % 256 ^ w := by
  induction w generalizing b pos v with
  | zero => simp [leRead, Nat.mod_one]
  | succ w ih =>
    simp only [leRead, leWrite]
    rw [leWrite_byte_outside _ _ _ _ _ (Or.inl (Nat.lt_succ_self pos)), set_byte, if_pos rfl, ih]
    simp only [byteOf]
    rw [pow_succ, Nat.mul_comm (256 ^ w) 256, Nat.mod_mul]

theorem leRead_leWrite_disjoint (b : Buf) (pos w v p k : Nat) (h : p + k ≤ pos ∨ pos + w ≤ p) :
    (b.leWrite pos w v).leRead p k = b.leRead p k := by
  apply leRead_congr
  intro j h1 h2
  exact leWrite_byte_outside _ _ _ _ _ (by omega)

theorem leRead_two_lt (b : Buf) (pos : Nat) : b.leRead pos 2 < 65536 := by
  have := leRead_lt b pos 2
  simpa using this

theorem leRead_slice (b : Buf) (lo n pos w : Nat) :
    (b.slice lo n).leRead pos w = b.leRead (lo + pos) w := by
  induction w generalizing pos with
  | zero => rfl
  | succ w ih => simp only [leRead, slice_byte, ih, Nat.add_assoc]

end Buf

/-! ## Accessors in terms of the stored bytes -/

theorem nkeys_read (node : BNode) :
    node.nkeys = if 4 ≤ node.data.size then .ok (node.data.leRead 2 2) else .panic := by
  unfold BNode.nkeys sliceRange leUint16
  by_cases h : 4 ≤ node.data.size
  · simp [h, Buf.leRead_slice]
  · simp [h]

theorem nkeys_ok {node : BNode} {n : Nat} (h : node.nkeys = .ok n) :
    4 ≤ node.data.size ∧ node.data.leRead 2 2 = n ∧ n < 65536 := by
  rw [nkeys_read] at h
  by_cases h4 : 4 ≤ node.data.size
  · simp only [h4, if_true, Res.ok.injEq] at h
    exact ⟨h4, h, h ▸ Buf.leRead_two_lt _ _⟩
  · simp [h4] at h

theorem btype_read (node : BNode) :
    node.btype = if 2 ≤ node.data.size then .ok (node.data.leRead 0 2) else .panic := by
  unfold BNode.btype leUint16
  simp

theorem getPtr_read (node : BNode) (i : Nat) (hi : 4 + 8 * i < 65536) :
    node.getPtr i =
      if 4 + 8 * i + 8 ≤ node.data.size then .ok (node.data.leRead (4 + 8 * i) 8) else .panic := by
  have hp : getPtrPos i = 4 + 8 * i := by
    unfold getPtrPos u16 HEADER POINTER_SIZE
    omega
  unfold BNode.getPtr leUint64
  rw [hp]

theorem offsetPos_val (node : BNode) (n i : Nat) (hn : node.nkeys = .ok n) (hi : 1 ≤ i)
    (hsmall : 4 + 8 * n + 8 * (i - 1) < 65536) (hi2 : i < 65536) :
    offsetPos node i = .ok (4 + 8 * n + 8 * (i - 1)) := by
  unfold offsetPos
  simp only [hn, Res.ok_bind, Res.pure_eq, Res.ok.injEq]
  unfold u16 sub16 HEADER POINTER_SIZE OFFSET_SIZE
  omega

theorem getOffset_read (node : BNode) (n i : Nat) (hn : node.nkeys = .ok n)
    (hsmall : 4 + 8 * n + 8 * (i - 1) < 65536) (hi2 : i < 65536)
    (hfit : i = 0 ∨ 4 + 8 * n + 8 * (i - 1) + 2 ≤ node.data.size) :
    node.getOffset i = .ok (rawOff node.data n i) := by
  unfold BNode.getOffset rawOff
  by_cases h0 : i = 0
  · simp [h0]
  · have hfit2 : 4 + 8 * n + 8 * (i - 1) + 2 ≤ node.data.size := by
      rcases hfit with h | h
      · exact absurd h h0
      · exact h
    simp only [h0, if_false]
    rw [offsetPos_val node n i hn (by omega) hsmall hi2]
    simp [leUint16, hfit2]

theorem kvPos_val (node : BNode) (n i o : Nat) (hn : node.nkeys = .ok n)
    (ho : node.getOffset i = .ok o) (hsmall : 4 + 16 * n + o < 65536) :
    node.kvPos i = .ok (4 + 16 * n + o) := by
  unfold BNode.kvPos
  simp only [hn, ho, Res.ok_bind, Res.pure_eq, Res.ok.injEq]
  unfold u16 HEADER POINTER_SIZE OFFSET_SIZE
  omega

/-! ## Layout of a node -/

namespace Layout

variable {node : BNode} {n : Nat} {off : Nat → Nat}

theorem nkeys (h : Layout node n off) : node.nkeys = .ok n := by
  rw [nkeys_read, if_pos h.size_ge, h.nkeys_eq]

theorem off_le (h : Layout node n off) {i j : Nat} (hij : i ≤ j) (hj : j ≤ n) :
    off i ≤ off j := by
  induction j with
  | zero =>
    have : i = 0 := by omega
    rw [this]
  | succ j ih =>
    by_cases hi : i = j + 1
    · rw [hi]
    · exact le_trans (ih (by omega) (by omega)) (h.mono j (by omega))

theorem getOffset (h : Layout node n off) {i : Nat} (hi : i ≤ n) :
    node.getOffset i = .ok (off i) := by
  have h1 := h.small
  have h2 := h.fits
  rw [getOffset_read node n i h.nkeys (by omega) (by omega) (by omega)]
  unfold rawOff
  by_cases h0 : i = 0
  · simp [h0, h.off_zero]
  · simp only [h0, if_false]
    rw [h.off_eq i (by omega) hi]

theorem kvPos (h : Layout node n off) {i : Nat} (hi : i ≤ n) :
    node.kvPos i = .ok (4 + 16 * n + off i) := by
  have h1 := h.small
  have h2 := h.off_le hi (le_refl n)
  exact kvPos_val node n i (off i) h.nkeys (h.getOffset hi) (by omega)

theorem nbytes (h : Layout node n off) : node.nbytes = .ok (4 + 16 * n + off n) := by
  unfold BNode.nbytes
  rw [h.nkeys]
  exact h.kvPos (le_refl n)

theorem leftBytes (h : Layout node n off) {x : Nat} (hx : x ≤ n) :
    nodeSplit2.leftBytes node x = .ok (4 + 10 * x + off x) := by
  have h1 := h.small
  have h2 := h.off_le hx (le_refl n)
  unfold nodeSplit2.leftBytes
  rw [h.getOffset hx]
  simp only [Res.ok_bind, Res.pure_eq, Res.ok.injEq]
  unfold u16 HEADER POINTER_SIZE
  omega

theorem rightBytes (h : Layout node n off) {x : Nat} (hx : x ≤ n) :
    nodeSplit2.rightBytes node x = .ok (16 * n + off n + 4 - (10 * x + off x)) := by
  have h1 := h.small
  have h2 := h.off_le hx (le_refl n)
  unfold nodeSplit2.rightBytes
  rw [h.nbytes, h.leftBytes hx]
  simp only [Res.ok_bind, Res.pure_eq, Res.ok.injEq]
  unfold u16 sub16 HEADER
  omega

/-- The first loop of `nodeSplit2` exits, at the greatest `x ≤ start` whose left
part is at most a page. -/
theorem fitLeft (h : Layout node n off) :
    ∀ fuel start, start ≤ n → start < fuel →
      ∃ x, nodeSplit2.fitLeft node fuel start = .ok x ∧ x ≤ start ∧
        4 + 10 * x + off x ≤ 4096 ∧
        ∀ y, x < y → y ≤ start → 4096 < 4 + 10 * y + off y := by
  intro fuel
  induction fuel with
  | zero => intro start _ h2; omega
  | succ fuel ih =>
    intro start hs hf
    have hn := h.small
    simp only [nodeSplit2.fitLeft, h.leftBytes hs, Res.ok_bind, BTREE_PAGE_SIZE]
    by_cases hgt : 4 + 10 * start + off start > 4096
    · have hs0 : start ≠ 0 := by
        intro h0
        rw [h0, h.off_zero] at hgt
        omega
      rw [if_pos hgt, sub16_of_le (by omega) (by omega)]
      obtain ⟨x, hx, hxs, hxb, hxy⟩ := ih (start - 1) (by omega) (by omega)
      refine ⟨x, hx, by omega, hxb, ?_⟩
      intro y hy1 hy2
      by_cases hys : y = start
      · rw [hys]; exact hgt
      · exact hxy y hy1 (by omega)
    · rw [if_neg hgt]
      exact ⟨start, rfl, le_refl _, by omega, fun y h1 h2 => by omega⟩

/-- The second loop of `nodeSplit2` exits at or before `nleft = n`, provided the
right part left at `nleft = n` is at most a page (`6*n + 4 ≤ 4096`). -/
theorem fitRight (h : Layout node n off) (hn6 : 6 * n + 4 ≤ 4096) :
    ∀ fuel start, start ≤ n → n - start < fuel →
      ∃ x, nodeSplit2.fitRight node fuel start = .ok x ∧ start ≤ x ∧ x ≤ n ∧
        16 * n + off n + 4 - (10 * x + off x) ≤ 4096 ∧
        ∀ y, start ≤ y → y < x → 4096 < 16 * n + off n + 4 - (10 * y + off y) := by
  intro fuel
  induction fuel with
  | zero => intro start _ h2; omega
  | succ fuel ih =>
    intro start hs hf
    simp only [nodeSplit2.fitRight, h.rightBytes hs, Res.ok_bind, BTREE_PAGE_SIZE]
    by_cases hgt : 16 * n + off n + 4 - (10 * start + off start) > 4096
    · have hsn : start ≠ n := by
        intro h0
        rw [h0] at hgt
        omega
      rw [if_pos hgt, u16_of_lt (by omega)]
      obtain ⟨x, hx, hxs, hxn, hxb, hxy⟩ := ih (start + 1) (by omega) (by omega)
      refine ⟨x, hx, by omega, hxn, hxb, ?_⟩
      intro y hy1 hy2
      by_cases hys : y = start
      · rw [hys]; exact hgt
      · exact hxy y (by omega) hy2
    · rw [if_neg hgt]
      exact ⟨start, rfl, le_refl _, hs, by omega, fun y h1 h2 => by omega⟩

end Layout

/-! ## Well-formed nodes -/

theorem rawOff_lt (d : Buf) (n i : Nat) : rawOff d n i < 65536 := by
  unfold rawOff
  by_cases h : i = 0
  · simp [h]
  · simp only [h, if_false]
    exact Buf.leRead_two_lt _ _

theorem entryOk_step (node : BNode) (n i : Nat) (hn : node.nkeys = .ok n)
    (hsize : 4 + 16 * n ≤ node.data.size) (hsmall : 4 + 16 * n < 65536) (hi : i < n)
    (h : node.entryOk i = true) :
    ∃ pos, node.kvPos i = .ok pos ∧ pos + 4 ≤ node.data.size ∧
      rawOff node.data n (i + 1) =
        rawOff node.data n i + 4 + node.data.leRead pos 2 + node.data.leRead (pos + 2) 2 := by
  have ho : node.getOffset i = .ok (rawOff node.data n i) :=
    getOffset_read node n i hn (by omega) (by omega) (by omega)
  have ho' : node.getOffset (i + 1) = .ok (rawOff node.data n (i + 1)) :=
    getOffset_read node n (i + 1) hn (by simp; omega) (by omega) (by simp; omega)
  unfold BNode.entryOk at h
  rw [ho, ho'] at h
  cases hp : node.kvPos i with
  | panic => simp [hp] at h
  | hang => simp [hp] at h
  | ok pos =>
    simp only [hp] at h
    refine ⟨pos, rfl, ?_⟩
    unfold leUint16 at h
    by_cases h1 : pos + 2 ≤ node.data.size
    · by_cases h2 : pos + 2 + 2 ≤ node.data.size
      · simp only [h1, h2, if_true, decide_eq_true_eq] at h
        exact ⟨by omega, h⟩
      · simp [h1, h2] at h
    · simp [h1] at h

theorem wellFormed_unpack (node : BNode) (h : node.wellFormed = true) :
    ∃ n, Layout node n (rawOff node.data n) ∧
      ∀ i, i < n → rawOff node.data n (i + 1) =
        rawOff node.data n i + 4 + rawKlen node.data n i + rawVlen node.data n i := by
  unfold BNode.wellFormed at h
  cases hn : node.nkeys with
  | panic => simp [hn] at h
  | hang => simp [hn] at h
  | ok n =>
    cases hnb : node.nbytes with
    | panic => simp [hn, hnb] at h
    | hang => simp [hn, hnb] at h
    | ok nb =>
      simp only [hn, hnb, Bool.and_eq_true, decide_eq_true_eq, List.all_eq_true,
        List.mem_range] at h
      obtain ⟨⟨h1, h2⟩, h3⟩ := h
      obtain ⟨hsz, hrd, hnlt⟩ := nkeys_ok hn
      -- the encoded size is computed without wrap-around
      have hnbv : nb = (4 + 16 * n + rawOff node.data n n) % 65536 := by
        unfold BNode.nbytes at hnb
        rw [hn] at hnb
        simp only [Res.ok_bind] at hnb
        unfold BNode.kvPos at hnb
        rw [hn] at hnb
        simp only [Res.ok_bind] at hnb
        cases ho : node.getOffset n with
        | panic => simp [ho] at hnb
        | hang => simp [ho] at hnb
        | ok o =>
          have hnb' : u16 (u16 (u16 (HEADER + u16 (POINTER_SIZE * n)) + u16 (OFFSET_SIZE * n)) + o)
              = nb := by
            simpa [ho] using hnb
          have hnb16 : nb < 65536 := hnb' ▸ u16_lt _
          have ho2 := getOffset_read node n n hn (by omega) (by omega) (by omega)
          rw [ho] at ho2
          injection ho2 with ho2
          rw [← ho2, ← hnb']
          unfold u16 HEADER POINTER_SIZE OFFSET_SIZE
          omega
      have hoff := rawOff_lt node.data n n
      have hsmall : 4 + 16 * n + rawOff node.data n n < 65536 := by omega
      have hnb2 : nb = 4 + 16 * n + rawOff node.data n n := by omega
      have hstep : ∀ i, i < n → rawOff node.data n i + 4 ≤ rawOff node.data n (i + 1) := by
        intro i hi
        obtain ⟨pos, _, _, he⟩ := entryOk_step node n i hn (by omega) (by omega) hi (h3 i hi)
        omega
      have hlay : Layout node n (rawOff node.data n) :=
        { size_ge := hsz
          nkeys_eq := hrd
          off_zero := by simp [rawOff]
          off_eq := by
            intro i hi1 hi2
            have : i ≠ 0 := by omega
            simp [rawOff, this]
          mono := fun i hi => by have := hstep i hi; omega
          fits := by omega
          small := hsmall }
      refine ⟨n, hlay, ?_⟩
      intro i hi
      obtain ⟨pos, hp, _, he⟩ := entryOk_step node n i hn (by omega) (by omega) hi (h3 i hi)
      rw [hlay.kvPos (le_of_lt hi)] at hp
      injection hp with hp
      unfold rawKlen rawVlen
      rw [hp]
      exact he

theorem withinCaps_unpack (node : BNode) (n : Nat) (off : Nat → Nat) (hl : Layout node n off)
    (h : node.withinCaps = true) :
    ∀ i, i < n → node.data.leRead (4 + 16 * n + off i) 2 ≤ 1000 ∧
      node.data.leRead (4 + 16 * n + off i + 2) 2 ≤ 3000 := by
  unfold BNode.withinCaps at h
  rw [hl.nkeys] at h
  simp only [List.all_eq_true, List.mem_range] at h
  intro i hi
  have hi2 := h i hi
  unfold BNode.entryCapOk at hi2
  rw [hl.kvPos (le_of_lt hi)] at hi2
  simp only [leUint16] at hi2
  by_cases h1 : 4 + 16 * n + off i + 2 ≤ node.data.size
  · by_cases h2 : 4 + 16 * n + off i + 2 + 2 ≤ node.data.size
    · simpa [h1, h2, BTREE_MAX_KEY_SIZE, BTREE_MAX_VAL_SIZE] using hi2
    · simp [h1, h2] at hi2
  · simp [h1] at hi2

/-- In a well-formed node every entry takes at least four bytes, so the offsets grow
by at least four per entry. -/
theorem wellFormed_off_growth (node : BNode) (n : Nat)
    (hstep : ∀ i, i < n → rawOff node.data n (i + 1) =
      rawOff node.data n i + 4 + rawKlen node.data n i + rawVlen node.data n i) :
    ∀ i j, i ≤ j → j ≤ n → rawOff node.data n i + 4 * (j - i) ≤ rawOff node.data n j := by
  intro i j hij hj
  induction j with
  | zero =>
    have : i = 0 := by omega
    simp [this]
  | succ j ih =>
    by_cases hi : i = j + 1
    · simp [hi]
    · have h1 := ih (by omega) (by omega)
      have h2 := hstep j (by omega)
      omega

/-- C9: for a well-formed node of encoded size at most two pages (the size caps on
the entries are not needed), both loops of `nodeSplit2` exit, the first at some
`nleft ≤ nkeys/2` and the second at a split index with `nleft ≤ nkeys`; no counter
wraps around and no access is out of range. -/
theorem nodeSplit2_loops_terminate (old : BNode) (nb : Nat) (hwf : old.wellFormed = true)
    (hnb : old.nbytes = .ok nb)
    (hle : nb ≤ 2 * BTREE_PAGE_SIZE) :
    ∃ n l1 l2, old.nkeys = .ok n ∧
      nodeSplit2.fitLeft old splitFuel (n / 2) = .ok l1 ∧
      nodeSplit2.fitRight old splitFuel l1 = .ok l2 ∧
      nodeSplit2.index old = .ok l2 ∧
      l1 ≤ n / 2 ∧ l1 ≤ l2 ∧ l2 ≤ n := by
  obtain ⟨n, hl, hstep⟩ := wellFormed_unpack old hwf
  rw [hl.nbytes] at hnb
  injection hnb with hnb
  have hgrow := wellFormed_off_growth old n hstep 0 n (Nat.zero_le _) (le_refl _)
  simp only [BTREE_PAGE_SIZE] at hle
  have hn : 6 * n + 4 ≤ 4096 := by omega
  obtain ⟨l1, h1, h1a, _, _⟩ := hl.fitLeft splitFuel (n / 2) (by omega) (by
    unfold splitFuel; omega)
  obtain ⟨l2, h2, h2a, h2b, _, _⟩ := hl.fitRight hn splitFuel l1 (by omega) (by
    unfold splitFuel; omega)
  refine ⟨n, l1, l2, hl.nkeys, h1, h2, ?_, h1a, h2a, h2b⟩
  unfold nodeSplit2.index
  rw [hl.nkeys]
  simp only [Res.ok_bind]
  rw [h1]
  simp only [Res.ok_bind]
  exact h2

/-- C9 at the six-entry node `sampleBig` of encoded size `4300`. -/
theorem nodeSplit2_loops_terminate_witness :
    ∃ n l1 l2, sampleBig.nkeys = .ok n ∧
      nodeSplit2.fitLeft sampleBig splitFuel (n / 2) = .ok l1 ∧
      nodeSplit2.fitRight sampleBig splitFuel l1 = .ok l2 ∧
      nodeSplit2.index sampleBig = .ok l2 ∧
      l1 ≤ n / 2 ∧ l1 ≤ l2 ∧ l2 ≤ n :=
  nodeSplit2_loops_terminate sampleBig 4300 (by decide!) (by decide!) (by decide)

/-! ## Reading entries -/

theorem Layout.getPtr {node : BNode} {n : Nat} {off : Nat → Nat} (h : Layout node n off)
    {i : Nat} (hi : i < n) : node.getPtr i = .ok (node.data.leRead (4 + 8 * i) 8) := by
  have h1 := h.small
  have h2 := h.fits
  rw [getPtr_read node i (by omega), if_pos (by omega)]

theorem Layout.btype {node : BNode} {n : Nat} {off : Nat → Nat} (h : Layout node n off) :
    node.btype = .ok (node.data.leRead 0 2) := by
  have h1 := h.size_ge
  rw [btype_read, if_pos (by omega)]

theorem Layout.getKey {node : BNode} {n : Nat} {off : Nat → Nat} (h : Layout node n off)
    {i : Nat} (hi : i < n)
    (hent : off i + 4 + node.data.leRead (4 + 16 * n + off i) 2 ≤ off n) :
    node.getKey i = .ok (node.data.slice (4 + 16 * n + off i + 4)
      (node.data.leRead (4 + 16 * n + off i) 2)).toList := by
  have h1 := h.small
  have h2 := h.fits
  unfold BNode.getKey
  rw [h.kvPos (le_of_lt hi)]
  simp only [Res.ok_bind, leUint16]
  rw [if_pos (by omega)]
  simp only [Res.ok_bind, HEADER_KV]
  rw [u16_of_lt (by omega)]
  unfold sliceLen
  rw [if_pos (by omega)]
  rfl

theorem Layout.getVal {node : BNode} {n : Nat} {off : Nat → Nat} (h : Layout node n off)
    {i : Nat} (hi : i < n)
    (hent : off i + 4 + node.data.leRead (4 + 16 * n + off i) 2
      + node.data.leRead (4 + 16 * n + off i + 2) 2 ≤ off n) :
    node.getVal i = .ok (node.data.slice
      (4 + 16 * n + off i + 4 + node.data.leRead (4 + 16 * n + off i) 2)
      (node.data.leRead (4 + 16 * n + off i + 2) 2)).toList := by
  have h1 := h.small
  have h2 := h.fits
  unfold BNode.getVal
  rw [h.kvPos (le_of_lt hi)]
  have e0 : u16 (4 + 16 * n + off i) = 4 + 16 * n + off i := u16_of_lt (by omega)
  have e2 : u16 (4 + 16 * n + off i + 2) = 4 + 16 * n + off i + 2 := u16_of_lt (by omega)
  have e4 : u16 (4 + 16 * n + off i + 4) = 4 + 16 * n + off i + 4 := u16_of_lt (by omega)
  have e5 : u16 (4 + 16 * n + off i + 4 + node.data.leRead (4 + 16 * n + off i) 2)
      = 4 + 16 * n + off i + 4 + node.data.leRead (4 + 16 * n + off i) 2 :=
    u16_of_lt (by omega)
  have c0 : 4 + 16 * n + off i + 2 ≤ node.data.size := by omega
  have c2 : 4 + 16 * n + off i + 2 + 2 ≤ node.data.size := by omega
  simp only [Res.ok_bind, leUint16, HEADER_KV, Nat.add_zero, e0, e2, e4, e5, c0, c2, if_true]
  unfold sliceLen
  rw [if_pos (by omega)]
  rfl

/-- Cutting a buffer to `k` bytes keeps the layout of a node that fits in `k` bytes. -/
theorem Layout.cut {node : BNode} {n : Nat} {off : Nat → Nat} (h : Layout node n off)
    (k : Nat) (hk : 4 + 16 * n + off n ≤ k) : Layout ⟨node.data.slice 0 k⟩ n off :=
  { size_ge := by simp only [Buf.slice_size]; omega
    nkeys_eq := by rw [Buf.leRead_slice, Nat.zero_add]; exact h.nkeys_eq
    off_zero := h.off_zero
    off_eq := by
      intro i h1 h2
      rw [Buf.leRead_slice, Nat.zero_add]
      exact h.off_eq i h1 h2
    mono := h.mono
    fits := by simp only [Buf.slice_size]; exact hk
    small := h.small }

theorem Buf.toList_slice_cut (d : Buf) (k lo m : Nat) :
    ((d.slice 0 k).slice lo m).toList = (d.slice lo m).toList := by
  simp [Buf.toList, Buf.slice]

/-- C8: a well-formed node that fits one page, in a buffer of at least one page,
is returned by `nodeSplit3` alone (count `1`), in a buffer cut to exactly
`BTREE_PAGE_SIZE` bytes, with the same type, the same `nkeys` and the same pointer,
key and value at every index. -/
theorem nodeSplit3_one_page (old : BNode) (nb : Nat) (hwf : old.wellFormed = true)
    (hsize : BTREE_PAGE_SIZE ≤ old.data.size) (hnb : old.nbytes = .ok nb)
    (hle : nb ≤ BTREE_PAGE_SIZE) :
    ∃ nd, nodeSplit3 old = .ok (1, [nd, BNode.zero, BNode.zero]) ∧
      nd.data.size = BTREE_PAGE_SIZE ∧
      (∃ t, old.btype = .ok t ∧ nd.btype = .ok t) ∧
      ∃ n, old.nkeys = .ok n ∧ nd.nkeys = .ok n ∧
        ∀ i, i < n → ∃ p k v,
          old.getPtr i = .ok p ∧ nd.getPtr i = .ok p ∧
          old.getKey i = .ok k ∧ nd.getKey i = .ok k ∧
          old.getVal i = .ok v ∧ nd.getVal i = .ok v := by
  obtain ⟨n, hl, hstep⟩ := wellFormed_unpack old hwf
  have hnb' := hl.nbytes
  rw [hnb] at hnb'
  injection hnb' with hnb'
  have hcut : Layout ⟨old.data.slice 0 BTREE_PAGE_SIZE⟩ n (rawOff old.data n) :=
    hl.cut BTREE_PAGE_SIZE (by omega)
  refine ⟨⟨old.data.slice 0 BTREE_PAGE_SIZE⟩, ?_, rfl, ?_, n, hl.nkeys, hcut.nkeys, ?_⟩
  · unfold nodeSplit3
    rw [hnb]
    simp only [Res.ok_bind, if_pos hle, sliceRange]
    rw [if_pos ⟨Nat.zero_le _, hsize⟩]
    rfl
  · refine ⟨_, hl.btype, ?_⟩
    rw [hcut.btype, Buf.leRead_slice, Nat.zero_add]
  · intro i hi
    have hgrow : rawOff old.data n (i + 1) ≤ rawOff old.data n n :=
      hl.off_le (show i + 1 ≤ n from hi) (le_refl n)
    have hs := hstep i hi
    unfold rawKlen rawVlen at hs
    have hk1 : rawOff old.data n i + 4 + old.data.leRead (4 + 16 * n + rawOff old.data n i) 2
        ≤ rawOff old.data n n := by omega
    have hv1 : rawOff old.data n i + 4 + old.data.leRead (4 + 16 * n + rawOff old.data n i) 2
        + old.data.leRead (4 + 16 * n + rawOff old.data n i + 2) 2 ≤ rawOff old.data n n := by
      omega
    refine ⟨_, _, _, hl.getPtr hi, ?_, hl.getKey hi hk1, ?_, hl.getVal hi hv1, ?_⟩
    · rw [hcut.getPtr hi, Buf.leRead_slice, Nat.zero_add]
    · rw [hcut.getKey hi (by
        show _ + 4 + (old.data.slice 0 BTREE_PAGE_SIZE).leRead _ 2 ≤ _
        rw [Buf.leRead_slice, Nat.zero_add]; exact hk1)]
      show Res.ok ((old.data.slice 0 BTREE_PAGE_SIZE).slice _
        ((old.data.slice 0 BTREE_PAGE_SIZE).leRead _ 2)).toList = _
      rw [Buf.leRead_slice, Nat.zero_add, Buf.toList_slice_cut]
    · rw [hcut.getVal hi (by
        show _ + 4 + (old.data.slice 0 BTREE_PAGE_SIZE).leRead _ 2
          + (old.data.slice 0 BTREE_PAGE_SIZE).leRead _ 2 ≤ _
        rw [Buf.leRead_slice, Buf.leRead_slice, Nat.zero_add, Nat.zero_add]; exact hv1)]
      show Res.ok ((old.data.slice 0 BTREE_PAGE_SIZE).slice _
        ((old.data.slice 0 BTREE_PAGE_SIZE).leRead _ 2)).toList = _
      rw [Buf.leRead_slice, Buf.leRead_slice, Nat.zero_add, Nat.zero_add, Buf.toList_slice_cut]

/-! ## Writers -/

theorem setHeader_ok (node : BNode) (t N : Nat) (h : 4 ≤ node.data.size) :
    node.setHeader t N = .ok ⟨(node.data.leWrite 0 2 t).leWrite 2 2 N⟩ := by
  unfold BNode.setHeader sliceRange lePutUint16
  have h2 : 2 ≤ node.data.size := by omega
  simp [h, h2]

theorem setHeader_nkeys (d : Buf) (t N : Nat) (hN : N < 65536) :
    ((d.leWrite 0 2 t).leWrite 2 2 N).leRead 2 2 = N := by
  rw [Buf.leRead_leWrite]
  exact Nat.mod_eq_of_lt (by simpa using hN)

theorem setHeader_btype (d : Buf) (t N : Nat) (ht : t < 65536) :
    ((d.leWrite 0 2 t).leWrite 2 2 N).leRead 0 2 = t := by
  rw [Buf.leRead_leWrite_disjoint _ _ _ _ _ _ (by omega), Buf.leRead_leWrite]
  exact Nat.mod_eq_of_lt (by simpa using ht)

theorem setHeader_byte (d : Buf) (t N j : Nat) (hj : 4 ≤ j) :
    ((d.leWrite 0 2 t).leWrite 2 2 N).byte j = d.byte j := by
  rw [Buf.leWrite_byte_outside _ _ _ _ _ (by omega),
    Buf.leWrite_byte_outside _ _ _ _ _ (by omega)]

/-- The pointer loop of `nodeAppendRange`: it stores the pointers `src+i ..` of
`old` in the slots `dst+i ..` of `new` and changes no other byte. -/
theorem ptrs_spec (old : BNode) (dst src : Nat) :
    ∀ rem i (new : BNode),
      4 + 8 * (dst + i + rem) ≤ new.data.size → 4 + 8 * (dst + i + rem) < 65536 →
      4 + 8 * (src + i + rem) ≤ old.data.size → 4 + 8 * (src + i + rem) < 65536 →
      ∃ new', nodeAppendRange.ptrs old dst src rem i new = .ok new' ∧
        new'.data.size = new.data.size ∧
        (∀ j, j < 4 + 8 * (dst + i) ∨ 4 + 8 * (dst + i + rem) ≤ j →
          new'.data.byte j = new.data.byte j) ∧
        (∀ t, i ≤ t → t < i + rem →
          new'.data.leRead (4 + 8 * (dst + t)) 8 = old.data.leRead (4 + 8 * (src + t)) 8) := by
  intro rem
  induction rem with
  | zero =>
    intro i new _ _ _ _
    exact ⟨new, rfl, rfl, fun _ _ => rfl, fun t h1 h2 => by omega⟩
  | succ rem ih =>
    intro i new h1 h2 h3 h4
    have es : u16 (src + i) = src + i := u16_of_lt (by omega)
    have ed : u16 (dst + i) = dst + i := u16_of_lt (by omega)
    simp only [nodeAppendRange.ptrs, es, ed]
    rw [getPtr_read old (src + i) (by omega), if_pos (by omega)]
    simp only [Res.ok_bind, BNode.setPtr]
    have hp : getPtrPos (dst + i) = 4 + 8 * (dst + i) := by
      unfold getPtrPos u16 HEADER POINTER_SIZE
      omega
    rw [hp]
    unfold lePutUint64
    rw [if_pos (by omega)]
    simp only [Res.ok_bind, Res.pure_eq]
    obtain ⟨new', hr, hsz, hfr, hrd⟩ := ih (i + 1)
      ⟨new.data.leWrite (4 + 8 * (dst + i)) 8 (old.data.leRead (4 + 8 * (src + i)) 8)⟩
      (by simp only [Buf.leWrite_size]; omega) (by omega) (by omega) (by omega)
    refine ⟨new', hr, by rw [hsz, Buf.leWrite_size], ?_, ?_⟩
    · intro j hj
      rw [hfr j (by omega), Buf.leWrite_byte_outside _ _ _ _ _ (by omega)]
    · intro t ht1 ht2
      by_cases hti : t = i
      · rw [hti]
        have : new'.data.leRead (4 + 8 * (dst + i)) 8
            = (new.data.leWrite (4 + 8 * (dst + i)) 8
                (old.data.leRead (4 + 8 * (src + i)) 8)).leRead (4 + 8 * (dst + i)) 8 :=
          Buf.leRead_congr _ _ _ _ (fun j hj1 hj2 => hfr j (by omega))
        rw [this, Buf.leRead_leWrite]
        exact Nat.mod_eq_of_lt (Buf.leRead_lt _ _ _)
      · exact hrd t (by omega) (by omega)

/-- The offsets loop of `nodeAppendRange`: for `n < 65535` it exits, and it stores
one and the same value `v` in the offset slots `dst+i .. dst+n` of `new`. -/
theorem offsets_spec (old : BNode) (dst src n dstBegin srcBegin N o : Nat)
    (ho : old.getOffset (u16 (src + 1)) = .ok o) (hn : n < 65535)
    (hdn : 4 + 8 * N + 8 * (dst + n) < 65536) :
    ∀ fuel i (new : BNode), 1 ≤ i → i ≤ n + 1 → n + 1 - i < fuel →
      4 + 8 * N + 8 * (dst + n) ≤ new.data.size →
      4 ≤ new.data.size → new.data.leRead 2 2 = N →
      ∃ new', nodeAppendRange.offsets old dst src n dstBegin srcBegin fuel i new = .ok new' ∧
        new'.data.size = new.data.size ∧
        (∀ j, j < 4 + 8 * N + 8 * (dst + i - 1) ∨ 4 + 8 * N + 8 * (dst + n) ≤ j →
          new'.data.byte j = new.data.byte j) ∧
        (∀ t, i ≤ t → t ≤ n →
          new'.data.leRead (4 + 8 * N + 8 * (dst + t - 1)) 2
            = sub16 (u16 (dstBegin + o)) srcBegin) := by
  intro fuel
  induction fuel with
  | zero => intro i new _ _ h3; omega
  | succ fuel ih =>
    intro i new h1 h2 h3 hsz h4 hN
    simp only [nodeAppendRange.offsets]
    by_cases hin : i ≤ n
    · rw [if_pos hin, ho]
      simp only [Res.ok_bind]
      have hnk : new.nkeys = .ok N := by rw [nkeys_read, if_pos h4, hN]
      have ed : u16 (dst + i) = dst + i := u16_of_lt (by omega)
      have ei : u16 (i + 1) = i + 1 := u16_of_lt (by omega)
      rw [ed, ei]
      unfold BNode.setOffset
      rw [offsetPos_val new N (dst + i) hnk (by omega) (by omega) (by omega)]
      unfold lePutUint16
      simp only [Res.ok_bind]
      rw [if_pos (by omega)]
      simp only [Res.ok_bind, Res.pure_eq]
      obtain ⟨new', hr, hsz', hfr, hrd⟩ := ih (i + 1)
        ⟨new.data.leWrite (4 + 8 * N + 8 * (dst + i - 1)) 2 (sub16 (u16 (dstBegin + o)) srcBegin)⟩
        (by omega) (by omega) (by omega)
        (by simp only [Buf.leWrite_size]; exact hsz)
        (by simp only [Buf.leWrite_size]; exact h4)
        (by rw [Buf.leRead_leWrite_disjoint _ _ _ _ _ _ (by omega)]; exact hN)
      refine ⟨new', hr, by rw [hsz', Buf.leWrite_size], ?_, ?_⟩
      · intro j hj
        rw [hfr j (by omega), Buf.leWrite_byte_outside _ _ _ _ _ (by omega)]
      · intro t ht1 ht2
        by_cases hti : t = i
        · rw [hti]
          have : new'.data.leRead (4 + 8 * N + 8 * (dst + i - 1)) 2
              = (new.data.leWrite (4 + 8 * N + 8 * (dst + i - 1)) 2
                  (sub16 (u16 (dstBegin + o)) srcBegin)).leRead
                    (4 + 8 * N + 8 * (dst + i - 1)) 2 :=
            Buf.leRead_congr _ _ _ _ (fun j hj1 hj2 => hfr j (by omega))
          rw [this, Buf.leRead_leWrite]
          apply Nat.mod_eq_of_lt
          have : sub16 (u16 (dstBegin + o)) srcBegin < 65536 := Nat.mod_lt _ (by decide)
          simpa using this
        · exact hrd t (by omega) ht2
    · rw [if_neg hin]
      exact ⟨new, rfl, rfl, fun _ _ => rfl, fun t ht1 ht2 => by omega⟩

/-- What `nodeAppendRange` does, byte by byte, when it copies `n ≥ 1` entries of a
laid-out node `old` to position `dst` of a node `new` whose header says `N` keys:
the pointers are copied, every one of the `n` offset slots receives the same value
`dstBegin + old.getOffset(src+1) - srcBegin`, the key-value bytes are copied to
`kvPos(dst)`, and no other byte changes. -/
theorem nodeAppendRange_spec (new old : BNode) (dst src n N no : Nat) (off : Nat → Nat)
    (hl : Layout old no off) (hsrc : src + n ≤ no) (hn : 1 ≤ n) (hdst : dst + n ≤ N)
    (hNr : new.data.leRead 2 2 = N)
    (hsz : 4 + 16 * N + rawOff new.data N dst ≤ new.data.size)
    (hsm : 4 + 16 * N + rawOff new.data N dst < 65536) :
    ∃ new', nodeAppendRange new old dst src n = .ok new' ∧
      new'.data.size = new.data.size ∧
      (∀ t, t < n →
        new'.data.leRead (4 + 8 * (dst + t)) 8 = old.data.leRead (4 + 8 * (src + t)) 8) ∧
      (∀ t, 1 ≤ t → t ≤ n →
        new'.data.leRead (4 + 8 * N + 8 * (dst + t - 1)) 2
          = sub16 (u16 (rawOff new.data N dst + off (src + 1))) (off src)) ∧
      (∀ j, 4 + 16 * N + rawOff new.data N dst ≤ j →
        j < 4 + 16 * N + rawOff new.data N dst
            + min (new.data.size - (4 + 16 * N + rawOff new.data N dst))
                (off (src + n) - off src) →
        new'.data.byte j
          = old.data.byte (4 + 16 * no + off src + (j - (4 + 16 * N + rawOff new.data N dst)))) ∧
      (∀ j, ¬ (4 + 8 * dst ≤ j ∧ j < 4 + 8 * (dst + n)) →
        ¬ (4 + 8 * N + 8 * dst ≤ j ∧ j < 4 + 8 * N + 8 * (dst + n)) →
        ¬ (4 + 16 * N + rawOff new.data N dst ≤ j ∧
            j < 4 + 16 * N + rawOff new.data N dst
              + min (new.data.size - (4 + 16 * N + rawOff new.data N dst))
                  (off (src + n) - off src)) →
        new'.data.byte j = new.data.byte j) := by
  have hos := hl.small
  have hof := hl.fits
  have hno : 4 + 16 * no < 65536 := by omega
  -- pointers
  obtain ⟨new1, hr1, hsz1, hfr1, hrd1⟩ := ptrs_spec old dst src n 0 new
    (by omega) (by omega) (by omega) (by omega)
  have hN1 : new1.data.leRead 2 2 = N := by
    rw [← hNr]
    exact Buf.leRead_congr _ _ _ _ (fun j h1 h2 => hfr1 j (by omega))
  have hnk1 : new1.nkeys = .ok N := by
    rw [nkeys_read, if_pos (by omega), hN1]
  have hdb1 : rawOff new1.data N dst = rawOff new.data N dst := by
    unfold rawOff
    by_cases h0 : dst = 0
    · simp [h0]
    · simp only [h0, if_false]
      exact Buf.leRead_congr _ _ _ _ (fun j h1 h2 => hfr1 j (by omega))
  have hgo1 : new1.getOffset dst = .ok (rawOff new.data N dst) := by
    rw [getOffset_read new1 N dst hnk1 (by omega) (by omega) (by omega), hdb1]
  -- offsets
  have hsrc1 : old.getOffset (u16 (src + 1)) = .ok (off (src + 1)) := by
    rw [u16_of_lt (by omega)]
    exact hl.getOffset (by omega)
  obtain ⟨new2, hr2, hsz2, hfr2, hrd2⟩ := offsets_spec old dst src n
    (rawOff new.data N dst) (off src) N (off (src + 1)) hsrc1 (by omega) (by omega)
    (2 * 65536) 1 new1 (le_refl 1) (by omega) (by omega) (by omega) (by omega) hN1
  have hN2 : new2.data.leRead 2 2 = N := by
    rw [← hN1]
    exact Buf.leRead_congr _ _ _ _ (fun j h1 h2 => hfr2 j (by omega))
  have hnk2 : new2.nkeys = .ok N := by
    rw [nkeys_read, if_pos (by omega), hN2]
  have hdb2 : rawOff new2.data N dst = rawOff new.data N dst := by
    rw [← hdb1]
    unfold rawOff
    by_cases h0 : dst = 0
    · simp [h0]
    · simp only [h0, if_false]
      exact Buf.leRead_congr _ _ _ _ (fun j h1 h2 => hfr2 j (by omega))
  have hgo2 : new2.getOffset dst = .ok (rawOff new.data N dst) := by
    rw [getOffset_read new2 N dst hnk2 (by omega) (by omega) (by omega), hdb2]
  have hkv2 : new2.kvPos dst = .ok (4 + 16 * N + rawOff new.data N dst) :=
    kvPos_val new2 N dst _ hnk2 hgo2 hsm
  have hmono : off src ≤ off (src + n) := hl.off_le (by omega) hsrc
  have hmono2 : off (src + n) ≤ off no := hl.off_le hsrc (le_refl _)
  refine ⟨⟨new2.data.blit (4 + 16 * N + rawOff new.data N dst)
      (old.data.slice (4 + 16 * no + off src)
        (4 + 16 * no + off (src + n) - (4 + 16 * no + off src)))
      (min (new2.data.size - (4 + 16 * N + rawOff new.data N dst))
        (4 + 16 * no + off (src + n) - (4 + 16 * no + off src)))⟩, ?_, ?_, ?_, ?_, ?_, ?_⟩
  · unfold nodeAppendRange
    rw [if_neg (by omega), hr1]
    simp only [Res.ok_bind]
    rw [hgo1, hl.getOffset (show src ≤ no by omega)]
    simp only [Res.ok_bind]
    rw [hr2]
    simp only [Res.ok_bind]
    rw [hl.kvPos (show src ≤ no by omega), u16_of_lt (by omega), hl.kvPos hsrc, hkv2]
    simp only [Res.ok_bind, sliceRange]
    rw [if_pos ⟨by omega, by omega⟩]
    simp only [Res.ok_bind, copyAt]
    rw [if_pos (by omega)]
    rfl
  · simp only [Buf.blit_size, hsz2, hsz1]
  · intro t ht
    rw [← hrd1 t (Nat.zero_le _) (by omega)]
    apply Buf.leRead_congr
    intro j h1 h2
    rw [Buf.blit_byte, if_neg (by omega), hfr2 j (by omega)]
  · intro t ht1 ht2
    rw [← hrd2 t ht1 ht2]
    apply Buf.leRead_congr
    intro j h1 h2
    rw [Buf.blit_byte, if_neg (by omega)]
  · intro j hj1 hj2
    rw [hsz2, hsz1] 
    have e : 4 + 16 * no + off (src + n) - (4 + 16 * no + off src) = off (src + n) - off src := by
      omega
    rw [Buf.blit_byte, e, if_pos ⟨hj1, hj2⟩]
    rfl
  · intro j hj1 hj2 hj3
    have e : 4 + 16 * no + off (src + n) - (4 + 16 * no + off src) = off (src + n) - off src := by
      omega
    rw [Buf.blit_byte, hsz2, hsz1, e, if_neg hj3, hfr2 j (by omega), hfr1 j (by omega)]

/-- The node that `setHeader(t, N)` followed by `nodeAppendRange(new, old, 0, src, N)`
builds: it has `N` keys, type `t`, and every one of its offset slots holds
`old.getOffset(src+1) - old.getOffset(src)`. -/
theorem build_layout (new old : BNode) (t N no src : Nat) (off : Nat → Nat)
    (hl : Layout old no off) (hsrc : src + N ≤ no) (ht : t < 65536)
    (hsz : 4 + 16 * N + (if N = 0 then 0 else off (src + 1) - off src) ≤ new.data.size) :
    ∃ new1 new', new.setHeader t N = .ok new1 ∧
      nodeAppendRange new1 old 0 src N = .ok new' ∧
      new'.data.size = new.data.size ∧
      new'.data.leRead 0 2 = t ∧
      Layout new' N (fun i => if i = 0 then 0 else off (src + 1) - off src) := by
  have hos := hl.small
  have hN : N < 4096 := by omega
  have hs4 : 4 ≤ new.data.size := by omega
  by_cases hN0 : N = 0
  · subst hN0
    refine ⟨_, _, setHeader_ok new t 0 hs4, rfl, by simp, setHeader_btype _ _ _ ht, ?_⟩
    exact
      { size_ge := by simpa using hs4
        nkeys_eq := setHeader_nkeys _ _ _ (by omega)
        off_zero := rfl
        off_eq := fun i h1 h2 => by omega
        mono := fun i hi => by omega
        fits := by simpa using hs4
        small := by simp }
  · rw [if_neg hN0] at hsz
    have hm1 : off src ≤ off (src + 1) := hl.off_le (by omega) (by omega)
    have hm2 : off (src + 1) ≤ off no := hl.off_le (by omega) (le_refl _)
    have hr0 : rawOff ((new.data.leWrite 0 2 t).leWrite 2 2 N) N 0 = 0 := by simp [rawOff]
    obtain ⟨new', hr, hsize, _, hoffs, _, hframe⟩ :=
      nodeAppendRange_spec ⟨(new.data.leWrite 0 2 t).leWrite 2 2 N⟩ old 0 src N N no off hl
        hsrc (by omega) (by omega) (setHeader_nkeys _ _ _ (by omega))
        (by rw [hr0]; simp only [Buf.leWrite_size]; omega) (by rw [hr0]; omega)
    have hv : sub16 (u16 (rawOff ((new.data.leWrite 0 2 t).leWrite 2 2 N) N 0 + off (src + 1)))
        (off src) = off (src + 1) - off src := by
      rw [hr0, Nat.zero_add, u16_of_lt (by omega), sub16_of_le (by omega) hm1]
    have hhead : ∀ j, j < 4 → new'.data.byte j
        = ((new.data.leWrite 0 2 t).leWrite 2 2 N).byte j := by
      intro j hj
      exact hframe j (by omega) (by omega) (by rw [hr0]; omega)
    have hsize' : new'.data.size = new.data.size := by
      rw [hsize]; simp
    refine ⟨_, new', setHeader_ok new t N hs4, hr, hsize', ?_, ?_⟩
    · rw [← setHeader_btype new.data t N ht]
      exact Buf.leRead_congr _ _ _ _ (fun j h1 h2 => hhead j (by omega))
    · exact
        { size_ge := by omega
          nkeys_eq := by
            rw [← setHeader_nkeys new.data t N (by omega)]
            exact Buf.leRead_congr _ _ _ _ (fun j h1 h2 => hhead j (by omega))
          off_zero := rfl
          off_eq := by
            intro i h1 h2
            have := hoffs i h1 h2
            rw [hv, Nat.zero_add] at this
            rw [this, if_neg (by omega)]
          mono := by
            intro i hi
            by_cases h0 : i = 0
            · simp [h0]
            · simp [h0]
          fits := by rw [if_neg hN0, hsize']; exact hsz
          small := by rw [if_neg hN0]; omega }

/-- The two nodes that `nodeSplit2` builds, given the split index `L` its loops
reach: `left` has `L` keys and `right` has `n - L`, and in each the offset slots
all hold the size of the first entry copied. -/
theorem nodeSplit2_layout (left right old : BNode) (n L : Nat) (off : Nat → Nat)
    (hl : Layout old n off) (hidx : nodeSplit2.index old = .ok L) (hL : L ≤ n)
    (hleft : 4 + 16 * L + (if L = 0 then 0 else off 1) ≤ left.data.size)
    (hright : 4 + 16 * (n - L) + (if n - L = 0 then 0 else off (L + 1) - off L)
      ≤ right.data.size) :
    ∃ l r, nodeSplit2 left right old = .ok (l, r) ∧
      l.data.size = left.data.size ∧ r.data.size = right.data.size ∧
      Layout l L (fun i => if i = 0 then 0 else off 1) ∧
      Layout r (n - L) (fun i => if i = 0 then 0 else off (L + 1) - off L) := by
  have hos := hl.small
  have ht : old.data.leRead 0 2 < 65536 := Buf.leRead_two_lt _ _
  obtain ⟨l1, l, hl1, hl2, hlsz, _, hll⟩ :=
    build_layout left old (old.data.leRead 0 2) L n 0 off hl (by omega) ht (by
      simp only [Nat.zero_add, hl.off_zero, Nat.sub_zero]; exact hleft)
  obtain ⟨r1, r, hr1, hr2, hrsz, _, hrl⟩ :=
    build_layout right old (old.data.leRead 0 2) (n - L) n L off hl (by omega) ht hright
  simp only [Nat.zero_add, hl.off_zero, Nat.sub_zero] at hll
  refine ⟨l, r, ?_, hlsz, hrsz, hll, hrl⟩
  unfold nodeSplit2
  rw [hidx]
  simp only [Res.ok_bind]
  rw [hl.nkeys]
  simp only [Res.ok_bind]
  rw [hl.btype]
  simp only [Res.ok_bind]
  rw [hl1, sub16_of_le (by omega) hL]
  simp only [Res.ok_bind]
  rw [hr1]
  simp only [Res.ok_bind]
  rw [hl2]
  simp only [Res.ok_bind]
  rw [hr2]
  rfl

/-- Both loops of `nodeSplit2` on a laid-out node: the index reached, with the
conditions under which each loop stopped. -/
theorem Layout.index {node : BNode} {n : Nat} {off : Nat → Nat} (h : Layout node n off)
    (hn6 : 6 * n + 4 ≤ 4096) :
    ∃ l1 L, nodeSplit2.index node = .ok L ∧ l1 ≤ n / 2 ∧ l1 ≤ L ∧ L ≤ n ∧
      4 + 10 * l1 + off l1 ≤ 4096 ∧
      (∀ y, l1 < y → y ≤ n / 2 → 4096 < 4 + 10 * y + off y) ∧
      16 * n + off n + 4 - (10 * L + off L) ≤ 4096 ∧
      (∀ y, l1 ≤ y → y < L → 4096 < 16 * n + off n + 4 - (10 * y + off y)) := by
  obtain ⟨l1, h1, h1a, h1b, h1c⟩ := h.fitLeft splitFuel (n / 2) (by omega) (by
    unfold splitFuel; omega)
  obtain ⟨L, h2, h2a, h2b, h2c, h2d⟩ := h.fitRight hn6 splitFuel l1 (by omega) (by
    unfold splitFuel; omega)
  refine ⟨l1, L, ?_, h1a, h2a, h2b, h1b, h1c, h2c, h2d⟩
  unfold nodeSplit2.index
  rw [h.nkeys]
  simp only [Res.ok_bind]
  rw [h1]
  simp only [Res.ok_bind]
  exact h2

/-- The sizes of the nodes `nodeSplit3` returns, case by case. -/
theorem nodeSplit3_sizes (old : BNode) (nb : Nat) (hwf : old.wellFormed = true)
    (hcaps : old.withinCaps = true) (hnb : old.nbytes = .ok nb)
    (hle : nb ≤ 2 * BTREE_PAGE_SIZE) :
    (nb ≤ BTREE_PAGE_SIZE ∧ old.data.size < BTREE_PAGE_SIZE ∧ nodeSplit3 old = .panic) ∨
    ∃ k nodes, nodeSplit3 old = .ok (k, nodes) ∧ 1 ≤ k ∧ k ≤ 3 ∧
      ∀ nd, nd ∈ nodes.take k → ∃ b, nd.nbytes = .ok b ∧ b ≤ BTREE_PAGE_SIZE := by
  obtain ⟨n, hl, hstep⟩ := wellFormed_unpack old hwf
  have hcap := withinCaps_unpack old n _ hl hcaps
  have hnbv := hl.nbytes
  rw [hnb] at hnbv
  injection hnbv with hnbv
  simp only [BTREE_PAGE_SIZE] at hle ⊢
  by_cases hfit : nb ≤ 4096
  · -- one node
    by_cases hsize : 4096 ≤ old.data.size
    · right
      have hcut := hl.cut 4096 (by omega)
      refine ⟨1, [⟨old.data.slice 0 4096⟩, BNode.zero, BNode.zero], ?_, le_refl _, by omega, ?_⟩
      · unfold nodeSplit3
        rw [hnb]
        simp only [Res.ok_bind, BTREE_PAGE_SIZE, if_pos hfit, sliceRange]
        rw [if_pos ⟨Nat.zero_le _, hsize⟩]
        rfl
      · intro nd hnd
        simp only [List.take_succ_cons, List.take_zero, List.mem_singleton] at hnd
        subst hnd
        exact ⟨_, hcut.nbytes, by omega⟩
    · left
      refine ⟨hfit, by omega, ?_⟩
      unfold nodeSplit3
      rw [hnb]
      simp only [Res.ok_bind, BTREE_PAGE_SIZE, if_pos hfit, sliceRange]
      rw [if_neg (by omega)]
      rfl
  · right
    -- facts about the offsets of `old`
    have hgrow := wellFormed_off_growth old n hstep
    have hg0 := hgrow 0 n (Nat.zero_le _) (le_refl _)
    have hoff0 : rawOff old.data n 0 = 0 := hl.off_zero
    have hn1 : 1 ≤ n := by
      by_contra hc
      have : n = 0 := by omega
      rw [this] at hnbv
      rw [this] at hoff0
      omega
    have hn6 : 6 * n + 4 ≤ 4096 := by omega
    have hs1 : rawOff old.data n 1 ≤ 4004 := by
      have h1 := hstep 0 hn1
      have h2 := hcap 0 hn1
      unfold rawKlen rawVlen at h1
      rw [Nat.zero_add] at h1
      omega
    have hs1n : rawOff old.data n 1 ≤ rawOff old.data n n := hl.off_le hn1 (le_refl _)
    -- first split
    obtain ⟨l1, L, hidx, hl1n, hl1L, hLn, hA1, _, hA2, hA3⟩ := hl.index hn6
    have hLoff : rawOff old.data n L ≤ rawOff old.data n n := hl.off_le hLn (le_refl _)
    have hleft : 4 + 16 * L + (if L = 0 then 0 else rawOff old.data n 1)
        ≤ (⟨Buf.make (2 * BTREE_PAGE_SIZE)⟩ : BNode).data.size := by
      simp only [Buf.make_size, BTREE_PAGE_SIZE]
      split_ifs <;> omega
    have hright : 4 + 16 * (n - L)
        + (if n - L = 0 then 0 else rawOff old.data n (L + 1) - rawOff old.data n L)
        ≤ (⟨Buf.make BTREE_PAGE_SIZE⟩ : BNode).data.size := by
      simp only [Buf.make_size, BTREE_PAGE_SIZE]
      split_ifs with h0
      · omega
      · have := hl.off_le (show L + 1 ≤ n by omega) (le_refl n)
        omega
    obtain ⟨l, r, hsplit, hlsz, hrsz, hll, hrl⟩ :=
      nodeSplit2_layout _ _ old n L _ hl hidx hLn hleft hright
    simp only [Buf.make_size, BTREE_PAGE_SIZE] at hlsz hrsz hsplit
    have hrb : ∃ b, r.nbytes = .ok b ∧ b ≤ 4096 := ⟨_, hrl.nbytes, by
      have := hrl.fits
      omega⟩
    have hlnb := hll.nbytes
    by_cases hlfit : 4 + 16 * L + (if L = 0 then 0 else rawOff old.data n 1) ≤ 4096
    · -- two nodes
      have hcut := hll.cut 4096 hlfit
      refine ⟨2, [⟨l.data.slice 0 4096⟩, r, BNode.zero], ?_, by omega, by omega, ?_⟩
      · unfold nodeSplit3
        rw [hnb]
        simp only [Res.ok_bind, BTREE_PAGE_SIZE, if_neg hfit]
        rw [hsplit]
        simp only [Res.ok_bind]
        rw [hlnb]
        simp only [Res.ok_bind, if_pos hlfit, sliceRange]
        rw [if_pos ⟨Nat.zero_le _, by omega⟩]
        rfl
      · intro nd hnd
        simp only [List.take_succ_cons, List.take_zero, List.mem_cons, List.mem_singleton,
          List.not_mem_nil, or_false] at hnd
        rcases hnd with hnd | hnd
        · subst hnd
          exact ⟨_, hcut.nbytes, hlfit⟩
        · subst hnd
          exact hrb
    · -- three nodes
      have hL0 : L ≠ 0 := by
        intro h0
        simp [h0] at hlfit
      simp only [hL0, if_false] at hlfit
      have hL6 : 6 ≤ L := by omega
      have hgL := hgrow 1 L (by omega) hLn
      have hgL1 := hgrow 1 (L - 1) (by omega) (by omega)
      -- the index of the first split bounds `14 * L + off 1`
      have hbound : 14 * L + rawOff old.data n 1 ≤ 4113 := by
        by_cases hLl : L = l1
        · rw [← hLl] at hA1
          omega
        · have := hA3 (L - 1) (by omega) (by omega)
          omega
      -- second split
      obtain ⟨x1, x, hidx2, hx1L, hx1x, hxL, hB1, hB2, hB3, hB4⟩ :=
        hll.index (by omega)
      have hx1 : 1 ≤ x1 := by
        by_contra hc
        have := hB2 1 (by omega) (by omega)
        simp only [one_ne_zero, if_false] at this
        omega
      have hx0 : x ≠ 0 := by omega
      have hleft2 : 4 + 16 * x + (if x = 0 then 0 else
          (if (1 : Nat) = 0 then 0 else rawOff old.data n 1))
          ≤ (⟨Buf.make BTREE_PAGE_SIZE⟩ : BNode).data.size := by
        simp only [Buf.make_size, BTREE_PAGE_SIZE, hx0, one_ne_zero, if_false]
        by_cases hxx : x = x1
        · omega
        · have := hB4 (x - 1) (by omega) (by omega)
          have e1 : x - 1 ≠ 0 := by omega
          simp only [hL0, e1, if_false] at this
          omega
      have hright2 : 4 + 16 * (L - x) + (if L - x = 0 then 0 else
          (if x + 1 = 0 then 0 else rawOff old.data n 1)
            - (if x = 0 then 0 else rawOff old.data n 1))
          ≤ (⟨Buf.make BTREE_PAGE_SIZE⟩ : BNode).data.size := by
        simp only [Buf.make_size, BTREE_PAGE_SIZE, hx0, if_false, Nat.succ_ne_zero,
          Nat.sub_self, ite_self, Nat.add_zero]
        simp only [hL0, hx0, if_false] at hB3
        omega
      obtain ⟨ll, m, hsplit2, hllsz, hmsz, hlll, hml⟩ :=
        nodeSplit2_layout _ _ l L x _ hll hidx2 hxL hleft2 hright2
      simp only [Buf.make_size, BTREE_PAGE_SIZE] at hllsz hmsz hsplit2
      refine ⟨3, [ll, m, r], ?_, by omega, le_refl _, ?_⟩
      · unfold nodeSplit3
        rw [hnb]
        simp only [Res.ok_bind, BTREE_PAGE_SIZE, if_neg hfit]
        rw [hsplit]
        simp only [Res.ok_bind]
        rw [hlnb]
        simp only [Res.ok_bind, hL0, if_false, if_neg hlfit]
        rw [hsplit2]
        rfl
      · intro nd hnd
        simp only [List.take_succ_cons, List.take_zero, List.mem_cons, List.mem_singleton,
          List.not_mem_nil, or_false] at hnd
        rcases hnd with hnd | hnd | hnd
        · subst hnd
          exact ⟨_, hlll.nbytes, by have := hlll.fits; omega⟩
        · subst hnd
          exact ⟨_, hml.nbytes, by have := hml.fits; omega⟩
        · subst hnd
          exact hrb

/-- C6: for a well-formed node of encoded size at most two pages whose entries are
within the size caps (with or without entries), every node among the `nsplit` nodes
that `nodeSplit3` returns has `nbytes() ≤ BTREE_PAGE_SIZE`; and `nodeSplit3` does
return when the buffer of `old` is at least a page long or `old` exceeds a page. -/
theorem nodeSplit3_nbytes_le_page (old : BNode) (nb : Nat) (hwf : old.wellFormed = true)
    (hcaps : old.withinCaps = true) (hnb : old.nbytes = .ok nb)
    (hle : nb ≤ 2 * BTREE_PAGE_SIZE) :
    (∀ k nodes, nodeSplit3 old = .ok (k, nodes) →
      ∀ nd, nd ∈ nodes.take k → ∃ b, nd.nbytes = .ok b ∧ b ≤ BTREE_PAGE_SIZE) ∧
    (BTREE_PAGE_SIZE ≤ old.data.size ∨ BTREE_PAGE_SIZE < nb →
      ∃ k nodes, nodeSplit3 old = .ok (k, nodes) ∧ 1 ≤ k ∧ k ≤ 3) := by
  rcases nodeSplit3_sizes old nb hwf hcaps hnb hle with ⟨h1, h2, h3⟩ | ⟨k, nodes, h1, h2, h3, h4⟩
  · constructor
    · intro k nodes hk
      rw [h3] at hk
      cases hk
    · intro h
      omega
  · constructor
    · intro k' nodes' hk
      rw [h1] at hk
      injection hk with hk
      injection hk with hk1 hk2
      subst hk1
      subst hk2
      exact h4
    · intro _
      exact ⟨k, nodes, h1, h2, h3⟩

/-- C6 at the six-entry node `sampleBig` (encoded size `4300`, within the caps). -/
theorem nodeSplit3_nbytes_le_page_witness :
    (∀ k nodes, nodeSplit3 sampleBig = .ok (k, nodes) →
      ∀ nd, nd ∈ nodes.take k → ∃ b, nd.nbytes = .ok b ∧ b ≤ BTREE_PAGE_SIZE) ∧
    (BTREE_PAGE_SIZE ≤ sampleBig.data.size ∨ BTREE_PAGE_SIZE < 4300 →
      ∃ k nodes, nodeSplit3 sampleBig = .ok (k, nodes) ∧ 1 ≤ k ∧ k ≤ 3) :=
  nodeSplit3_nbytes_le_page sampleBig 4300 (by decide!) (by decide!) (by decide!) (by decide)

/-- C8 at `samplePage`, the two-entry leaf in a buffer of one page. -/
theorem nodeSplit3_one_page_witness :
    ∃ nd, nodeSplit3 samplePage = .ok (1, [nd, BNode.zero, BNode.zero]) ∧
      nd.data.size = BTREE_PAGE_SIZE ∧
      (∃ t, samplePage.btype = .ok t ∧ nd.btype = .ok t) ∧
      ∃ n, samplePage.nkeys = .ok n ∧ nd.nkeys = .ok n ∧
        ∀ i, i < n → ∃ p k v,
          samplePage.getPtr i = .ok p ∧ nd.getPtr i = .ok p ∧
          samplePage.getKey i = .ok k ∧ nd.getKey i = .ok k ∧
          samplePage.getVal i = .ok v ∧ nd.getVal i = .ok v :=
  nodeSplit3_one_page samplePage 48 (by decide!) (by decide) (by decide!) (by decide)

/-! ## Appending one entry -/

theorem Buf.blit_byte_outside (b : Buf) (pos : Nat) (src : Buf) (k j : Nat)
    (h : j < pos ∨ pos + k ≤ j) : (b.blit pos src k).byte j = b.byte j := by
  rw [Buf.blit_byte, if_neg (by omega)]

theorem Buf.blit_byte_inside (b : Buf) (pos : Nat) (src : Buf) (k t : Nat) (h : t < k) :
    (b.blit pos src k).byte (pos + t) = src.byte t := by
  rw [Buf.blit_byte, if_pos (by omega)]
  congr 1
  omega

theorem Buf.leRead_blit_disjoint (b : Buf) (pos : Nat) (src : Buf) (k p w : Nat)
    (h : p + w ≤ pos ∨ pos + k ≤ p) : (b.blit pos src k).leRead p w = b.leRead p w := by
  apply Buf.leRead_congr
  intro j h1 h2
  exact Buf.blit_byte_outside _ _ _ _ _ (by omega)

theorem rawOff_congr (a b : Buf) (N i : Nat)
    (h : ∀ j, 4 + 8 * N ≤ j → j < 4 + 8 * N + 8 * i → a.byte j = b.byte j) :
    rawOff a N i = rawOff b N i := by
  unfold rawOff
  by_cases h0 : i = 0
  · simp [h0]
  · simp only [h0, if_false]
    exact Buf.leRead_congr _ _ _ _ (fun j h1 h2 => h j (by omega) (by omega))

/-- What `nodeAppendKV` does, byte by byte, at an index `idx < nkeys` of a node with
room for the entry: it stores the pointer, the entry at `kvPos(idx)` and the offset
of the next entry, and changes no other byte. -/
theorem nodeAppendKV_spec (new : BNode) (idx ptr N : Nat) (key val : List Byte)
    (hN : new.data.leRead 2 2 = N) (hidx : idx < N) (hptr : ptr < 2 ^ 64)
    (hfit : 4 + 16 * N + rawOff new.data N idx + 4 + key.length + val.length
      ≤ new.data.size)
    (hsm : 4 + 16 * N + rawOff new.data N idx + 4 + key.length + val.length < 65536) :
    ∃ new', nodeAppendKV new idx ptr key val = .ok new' ∧
      new'.data.size = new.data.size ∧
      new'.data.leRead (4 + 8 * idx) 8 = ptr ∧
      new'.data.leRead (4 + 8 * N + 8 * idx) 2
        = rawOff new.data N idx + 4 + key.length + val.length ∧
      EntryAt new'.data (4 + 16 * N + rawOff new.data N idx) key val ∧
      (∀ j, ¬ (4 + 8 * idx ≤ j ∧ j < 4 + 8 * idx + 8) →
        ¬ (4 + 8 * N + 8 * idx ≤ j ∧ j < 4 + 8 * N + 8 * idx + 2) →
        ¬ (4 + 16 * N + rawOff new.data N idx ≤ j ∧
            j < 4 + 16 * N + rawOff new.data N idx + 4 + key.length + val.length) →
        new'.data.byte j = new.data.byte j) := by
  -- names for the positions and the successive buffers
  obtain ⟨P, hP⟩ : ∃ P, P = 4 + 16 * N + rawOff new.data N idx := ⟨_, rfl⟩
  rw [← hP] at hfit hsm ⊢
  have hPge : 4 + 16 * N ≤ P := by omega
  obtain ⟨d1, hd1⟩ : ∃ d1, d1 = new.data.leWrite (4 + 8 * idx) 8 ptr := ⟨_, rfl⟩
  obtain ⟨d2, hd2⟩ : ∃ d2, d2 = d1.leWrite P 2 key.length := ⟨_, rfl⟩
  obtain ⟨d3, hd3⟩ : ∃ d3, d3 = d2.leWrite (P + 2) 2 val.length := ⟨_, rfl⟩
  obtain ⟨d4, hd4⟩ : ∃ d4, d4 = d3.blit (P + 4) (Buf.ofList key) key.length := ⟨_, rfl⟩
  obtain ⟨d5, hd5⟩ : ∃ d5, d5 = d4.blit (P + 4 + key.length) (Buf.ofList val) val.length :=
    ⟨_, rfl⟩
  obtain ⟨d6, hd6⟩ : ∃ d6, d6 = d5.leWrite (4 + 8 * N + 8 * idx) 2
      (rawOff new.data N idx + 4 + key.length + val.length) := ⟨_, rfl⟩
  have s1 : d1.size = new.data.size := by rw [hd1, Buf.leWrite_size]
  have s2 : d2.size = new.data.size := by rw [hd2, Buf.leWrite_size, s1]
  have s3 : d3.size = new.data.size := by rw [hd3, Buf.leWrite_size, s2]
  have s4 : d4.size = new.data.size := by rw [hd4, Buf.blit_size, s3]
  have s5 : d5.size = new.data.size := by rw [hd5, Buf.blit_size, s4]
  have s6 : d6.size = new.data.size := by rw [hd6, Buf.leWrite_size, s5]
  -- bytes that each store leaves alone
  have b1 : ∀ j, j < 4 + 8 * idx ∨ 4 + 8 * idx + 8 ≤ j → d1.byte j = new.data.byte j :=
    fun j h => by rw [hd1, Buf.leWrite_byte_outside _ _ _ _ _ h]
  have b2 : ∀ j, j < P ∨ P + 2 ≤ j → d2.byte j = d1.byte j :=
    fun j h => by rw [hd2, Buf.leWrite_byte_outside _ _ _ _ _ h]
  have b3 : ∀ j, j < P + 2 ∨ P + 2 + 2 ≤ j → d3.byte j = d2.byte j :=
    fun j h => by rw [hd3, Buf.leWrite_byte_outside _ _ _ _ _ h]
  have b4 : ∀ j, j < P + 4 ∨ P + 4 + key.length ≤ j → d4.byte j = d3.byte j :=
    fun j h => by rw [hd4, Buf.blit_byte_outside _ _ _ _ _ h]
  have b5 : ∀ j, j < P + 4 + key.length ∨ P + 4 + key.length + val.length ≤ j →
      d5.byte j = d4.byte j :=
    fun j h => by rw [hd5, Buf.blit_byte_outside _ _ _ _ _ h]
  have b6 : ∀ j, j < 4 + 8 * N + 8 * idx ∨ 4 + 8 * N + 8 * idx + 2 ≤ j →
      d6.byte j = d5.byte j :=
    fun j h => by rw [hd6, Buf.leWrite_byte_outside _ _ _ _ _ h]
  -- the run
  have hnk1 : (⟨d1⟩ : BNode).nkeys = .ok N := by
    rw [nkeys_read, if_pos (by show 4 ≤ d1.size; omega)]
    show Res.ok (d1.leRead 2 2) = _
    rw [← hN]
    congr 1
    exact Buf.leRead_congr _ _ _ _ (fun j h1 h2 => b1 j (by omega))
  have ho1 : rawOff d1 N idx = rawOff new.data N idx :=
    rawOff_congr _ _ _ _ (fun j h1 h2 => b1 j (by omega))
  have hkv1 : (⟨d1⟩ : BNode).kvPos idx = .ok P := by
    rw [hP]
    refine kvPos_val ⟨d1⟩ N idx _ hnk1 ?_ (by omega)
    rw [getOffset_read ⟨d1⟩ N idx hnk1 (by omega) (by omega) (by
      right; show _ ≤ d1.size; omega)]
    exact congrArg Res.ok ho1
  have hnk5 : (⟨d5⟩ : BNode).nkeys = .ok N := by
    rw [nkeys_read, if_pos (by show 4 ≤ d5.size; omega)]
    show Res.ok (d5.leRead 2 2) = _
    rw [← hN]
    congr 1
    exact Buf.leRead_congr _ _ _ _ (fun j h1 h2 => by
      rw [b5 j (by omega), b4 j (by omega), b3 j (by omega), b2 j (by omega), b1 j (by omega)])
  have ho5 : rawOff d5 N idx = rawOff new.data N idx :=
    rawOff_congr _ _ _ _ (fun j h1 h2 => by
      rw [b5 j (by omega), b4 j (by omega), b3 j (by omega), b2 j (by omega), b1 j (by omega)])
  have hgo5 : (⟨d5⟩ : BNode).getOffset idx = .ok (rawOff new.data N idx) := by
    rw [getOffset_read ⟨d5⟩ N idx hnk5 (by omega) (by omega) (by
      right; show _ ≤ d5.size; omega)]
    exact congrArg Res.ok ho5
  have hrun : nodeAppendKV new idx ptr key val = .ok ⟨d6⟩ := by
    have hp : getPtrPos idx = 4 + 8 * idx := by
      unfold getPtrPos u16 HEADER POINTER_SIZE
      omega
    unfold nodeAppendKV BNode.setPtr lePutUint64
    rw [hp, if_pos (by omega)]
    simp only [Res.ok_bind, Res.pure_eq]
    rw [← hd1, hkv1]
    simp only [Res.ok_bind, Nat.add_zero]
    have e0 : u16 P = P := u16_of_lt (by omega)
    have e2 : u16 (P + 2) = P + 2 := u16_of_lt (by omega)
    have e4 : u16 (P + 4) = P + 4 := u16_of_lt (by omega)
    have ek : u16 key.length = key.length := u16_of_lt (by omega)
    have ev : u16 val.length = val.length := u16_of_lt (by omega)
    have e5 : u16 (P + 4 + key.length) = P + 4 + key.length := u16_of_lt (by omega)
    rw [e0, e2, e4, ek, ev, e5]
    unfold lePutUint16
    rw [if_pos (by omega)]
    simp only [Res.ok_bind]
    rw [← hd2, if_pos (by rw [s2]; omega)]
    simp only [Res.ok_bind]
    rw [← hd3]
    unfold copyAt
    rw [if_pos (by rw [s3]; omega)]
    simp only [Res.ok_bind]
    have m1 : min (d3.size - (P + 4)) (Buf.ofList key).size = key.length := by
      show min _ key.length = _
      rw [s3]; omega
    rw [m1, ← hd4, if_pos (by rw [s4]; omega)]
    simp only [Res.ok_bind]
    have m2 : min (d4.size - (P + 4 + key.length)) (Buf.ofList val).size = val.length := by
      show min _ val.length = _
      rw [s4]; omega
    rw [m2, ← hd5, hgo5]
    simp only [Res.ok_bind]
    have ei : u16 (idx + 1) = idx + 1 := u16_of_lt (by omega)
    have eo : u16 (u16 (rawOff new.data N idx + HEADER_KV) + u16 (key.length + val.length))
        = rawOff new.data N idx + 4 + key.length + val.length := by
      unfold u16 HEADER_KV
      omega
    rw [ei, eo]
    unfold BNode.setOffset
    rw [offsetPos_val ⟨d5⟩ N (idx + 1) hnk5 (by omega) (by simp; omega) (by omega)]
    simp only [Res.ok_bind, Nat.add_sub_cancel]
    unfold lePutUint16
    rw [if_pos (by show _ ≤ d5.size; omega)]
    simp only [Res.ok_bind, Res.pure_eq]
    rw [← hd6]
  refine ⟨⟨d6⟩, hrun, s6, ?_, ?_, ⟨?_, ?_, ?_, ?_⟩, ?_⟩
  · -- pointer
    have : d6.leRead (4 + 8 * idx) 8 = d1.leRead (4 + 8 * idx) 8 :=
      Buf.leRead_congr _ _ _ _ (fun j h1 h2 => by
        rw [b6 j (by omega), b5 j (by omega), b4 j (by omega), b3 j (by omega),
          b2 j (by omega)])
    show d6.leRead (4 + 8 * idx) 8 = ptr
    rw [this, hd1, Buf.leRead_leWrite]
    exact Nat.mod_eq_of_lt (by simpa using hptr)
  · -- offset of the next entry
    show d6.leRead (4 + 8 * N + 8 * idx) 2 = _
    rw [hd6, Buf.leRead_leWrite]
    exact Nat.mod_eq_of_lt (by simp; omega)
  · -- klen
    have : d6.leRead P 2 = d2.leRead P 2 :=
      Buf.leRead_congr _ _ _ _ (fun j h1 h2 => by
        rw [b6 j (by omega), b5 j (by omega), b4 j (by omega), b3 j (by omega)])
    show d6.leRead P 2 = _
    rw [this, hd2, Buf.leRead_leWrite]
    exact Nat.mod_eq_of_lt (by simp; omega)
  · -- vlen
    have : d6.leRead (P + 2) 2 = d3.leRead (P + 2) 2 :=
      Buf.leRead_congr _ _ _ _ (fun j h1 h2 => by
        rw [b6 j (by omega), b5 j (by omega), b4 j (by omega)])
    show d6.leRead (P + 2) 2 = _
    rw [this, hd3, Buf.leRead_leWrite]
    exact Nat.mod_eq_of_lt (by simp; omega)
  · -- key bytes
    intro t ht
    show d6.byte (P + 4 + t) = _
    rw [b6 _ (by omega), b5 _ (by omega), hd4, Buf.blit_byte_inside _ _ _ _ _ ht]
    rfl
  · -- value bytes
    intro t ht
    show d6.byte (P + 4 + key.length + t) = _
    rw [b6 _ (by omega), hd5, Buf.blit_byte_inside _ _ _ _ _ ht]
    rfl
  · -- frame
    intro j h1 h2 h3
    show d6.byte j = _
    rw [b6 j (by omega), b5 j (by omega), b4 j (by omega), b3 j (by omega), b2 j (by omega),
      b1 j (by omega)]

/-! ## Nodes under construction -/

theorem Buf.leRead_congr_shift (a b : Buf) (p q w : Nat)
    (h : ∀ t, t < w → a.byte (p + t) = b.byte (q + t)) : a.leRead p w = b.leRead q w := by
  induction w generalizing p q with
  | zero => rfl
  | succ w ih =>
    simp only [Buf.leRead]
    rw [show a.byte p = b.byte q from h 0 (by omega),
      ih (p + 1) (q + 1) (fun t ht => by
        have := h (1 + t) (by omega)
        rw [Nat.add_assoc, Nat.add_assoc]
        exact this)]

theorem Buf.toList_length (b : Buf) : b.toList.length = b.size := by
  simp [Buf.toList]

theorem Buf.toList_getD (b : Buf) (t : Nat) (ht : t < b.size) : b.toList.getD t 0 = b.byte t := by
  unfold Buf.toList
  rw [List.getD_eq_getElem _ _ (by simpa using ht)]
  simp

theorem Buf.toList_slice_eq (b : Buf) (lo : Nat) (l : List Byte)
    (h : ∀ t, t < l.length → b.byte (lo + t) = l.getD t 0) :
    (b.slice lo l.length).toList = l := by
  apply List.ext_getElem
  · simp [Buf.toList]
  · intro t h1 h2
    have := h t h2
    rw [List.getD_eq_getElem _ _ h2] at this
    simp [Buf.toList, this]

theorem EntryAt.transfer {a b : Buf} {P Q : Nat} {key val : List Byte}
    (h : EntryAt b Q key val)
    (hb : ∀ t, t < 4 + key.length + val.length → a.byte (P + t) = b.byte (Q + t)) :
    EntryAt a P key val := by
  obtain ⟨h1, h2, h3, h4⟩ := h
  refine ⟨?_, ?_, ?_, ?_⟩
  · rw [← h1]
    exact Buf.leRead_congr_shift a b P Q 2 (fun t ht => hb t (by omega))
  · rw [← h2]
    exact Buf.leRead_congr_shift a b (P + 2) (Q + 2) 2 (fun t ht => by
      have := hb (2 + t) (by omega)
      rw [Nat.add_assoc, Nat.add_assoc]
      exact this)
  · intro t ht
    rw [← h3 t ht]
    have := hb (4 + t) (by omega)
    rw [Nat.add_assoc, Nat.add_assoc]
    exact this
  · intro t ht
    rw [← h4 t ht]
    have := hb (4 + key.length + t) (by omega)
    simp only [Nat.add_assoc] at this ⊢
    exact this

namespace Written

variable {node : BNode} {N m : Nat} {ent : Nat → Nat × List Byte × List Byte}

theorem offsets_le (h : Written node N m ent) {i j : Nat} (hij : i ≤ j) (hj : j ≤ m) :
    rawOff node.data N i ≤ rawOff node.data N j := by
  induction j with
  | zero =>
    have : i = 0 := by omega
    rw [this]
  | succ j ih =>
    by_cases hi : i = j + 1
    · rw [hi]
    · have h1 := ih (by omega) (by omega)
      have h2 := h.step j (by omega)
      omega

theorem entry_end_le (h : Written node N m ent) {i : Nat} (hi : i < m) :
    rawOff node.data N i + 4 + (ent i).2.1.length + (ent i).2.2.length
      ≤ rawOff node.data N m := by
  have h1 := h.step i hi
  have h2 := h.offsets_le (show i + 1 ≤ m from hi) (le_refl m)
  omega

/-- Bytes outside the part that the first `m` entries occupy may change. -/
theorem frame (h : Written node N m ent) (node' : BNode)
    (hsz : node'.data.size = node.data.size)
    (hfr : ∀ j, j < 4 + 8 * m ∨ (4 + 8 * N ≤ j ∧ j < 4 + 8 * N + 8 * m) ∨
      (4 + 16 * N ≤ j ∧ j < 4 + 16 * N + rawOff node.data N m) →
      node'.data.byte j = node.data.byte j) :
    Written node' N m ent := by
  have hoff : ∀ i, i ≤ m → rawOff node'.data N i = rawOff node.data N i := by
    intro i hi
    exact rawOff_congr _ _ _ _ (fun j h1 h2 => hfr j (by omega))
  have hm := h.m_le
  exact
    { nkeys_eq := by
        rw [← h.nkeys_eq]
        exact Buf.leRead_congr _ _ _ _ (fun j h1 h2 => hfr j (by omega))
      m_le := h.m_le
      step := by
        intro i hi
        rw [hoff (i + 1) (by omega), hoff i (by omega)]
        exact h.step i hi
      fits := by rw [hoff m (le_refl _), hsz]; exact h.fits
      small := by rw [hoff m (le_refl _)]; exact h.small
      ptr := by
        intro i hi
        rw [← h.ptr i hi]
        exact Buf.leRead_congr _ _ _ _ (fun j h1 h2 => hfr j (by omega))
      entry := by
        intro i hi
        rw [hoff i (by omega)]
        have he := h.entry_end_le hi
        exact (h.entry i hi).transfer (fun t ht => hfr _ (by omega)) }

/-- One more entry: the pointer, the offset of the next entry and the entry bytes
have been stored, and the earlier part is untouched. -/
theorem extend (h : Written node N m ent) (hmN : m < N) (node' : BNode)
    (p : Nat) (key val : List Byte) (ent' : Nat → Nat × List Byte × List Byte)
    (hsz : node'.data.size = node.data.size)
    (hfr : ∀ j, j < 4 + 8 * m ∨ (4 + 8 * N ≤ j ∧ j < 4 + 8 * N + 8 * m) ∨
      (4 + 16 * N ≤ j ∧ j < 4 + 16 * N + rawOff node.data N m) →
      node'.data.byte j = node.data.byte j)
    (hp : node'.data.leRead (4 + 8 * m) 8 = p)
    (ho : node'.data.leRead (4 + 8 * N + 8 * m) 2
      = rawOff node.data N m + 4 + key.length + val.length)
    (he : EntryAt node'.data (4 + 16 * N + rawOff node.data N m) key val)
    (hfit : 4 + 16 * N + rawOff node.data N m + 4 + key.length + val.length
      ≤ node.data.size)
    (hsm : 4 + 16 * N + rawOff node.data N m + 4 + key.length + val.length < 65536)
    (hent : ∀ i, i < m → ent' i = ent i) (hentm : ent' m = (p, key, val)) :
    Written node' N (m + 1) ent' := by
  have hw := h.frame node' hsz hfr
  have hom : rawOff node'.data N m = rawOff node.data N m :=
    rawOff_congr _ _ _ _ (fun j h1 h2 => hfr j (by omega))
  have hom1 : rawOff node'.data N (m + 1)
      = rawOff node.data N m + 4 + key.length + val.length := by
    unfold rawOff
    rw [if_neg (by omega), Nat.add_sub_cancel]
    exact ho
  exact
    { nkeys_eq := hw.nkeys_eq
      m_le := hmN
      step := by
        intro i hi
        by_cases him : i = m
        · rw [him, hom1, hom, hentm]
        · rw [hent i (by omega)]
          exact hw.step i (by omega)
      fits := by rw [hom1, hsz]; omega
      small := by rw [hom1]; omega
      ptr := by
        intro i hi
        by_cases him : i = m
        · rw [him, hentm]; exact hp
        · rw [hent i (by omega)]
          exact hw.ptr i (by omega)
      entry := by
        intro i hi
        by_cases him : i = m
        · rw [him, hentm, hom]; exact he
        · rw [hent i (by omega)]
          exact hw.entry i (by omega) }

/-- The node right after `setHeader`: no entry is written yet. -/
theorem start (d : Buf) (t N : Nat) (hsz : 4 + 16 * N ≤ d.size) (hN : 4 + 16 * N < 65536)
    (ent : Nat → Nat × List Byte × List Byte) :
    Written ⟨(d.leWrite 0 2 t).leWrite 2 2 N⟩ N 0 ent :=
  { nkeys_eq := setHeader_nkeys _ _ _ (by omega)
    m_le := Nat.zero_le _
    step := fun i hi => by omega
    fits := by simp [rawOff]; omega
    small := by simp [rawOff]; omega
    ptr := fun i hi => by omega
    entry := fun i hi => by omega }

/-- A node whose entries are all written has the layout the accessors expect. -/
theorem layout (h : Written node N N ent) : Layout node N (rawOff node.data N) :=
  { size_ge := by have := h.fits; omega
    nkeys_eq := h.nkeys_eq
    off_zero := by simp [rawOff]
    off_eq := by
      intro i h1 h2
      have : i ≠ 0 := by omega
      simp [rawOff, this]
    mono := fun i hi => by have := h.step i hi; omega
    fits := h.fits
    small := h.small }

/-- A node whose entries are all written decodes as the entries `ent`. -/
theorem decode (h : Written node N N ent) {i : Nat} (hi : i < N) :
    node.getPtr i = .ok (ent i).1 ∧ node.getKey i = .ok (ent i).2.1 ∧
      node.getVal i = .ok (ent i).2.2 := by
  have hl := h.layout
  have he := h.entry_end_le hi
  obtain ⟨e1, e2, e3, e4⟩ := h.entry i hi
  refine ⟨?_, ?_, ?_⟩
  · rw [hl.getPtr hi, h.ptr i hi]
  · rw [hl.getKey hi (by rw [e1]; omega), e1]
    congr 1
    exact Buf.toList_slice_eq _ _ _ e3
  · rw [hl.getVal hi (by rw [e1, e2]; omega), e1, e2]
    congr 1
    exact Buf.toList_slice_eq _ _ _ e4

end Written

/-! ## Entries of a well-formed node -/

theorem rawEntry_key_length (d : Buf) (n i : Nat) :
    (rawEntry d n i).2.1.length = rawKlen d n i := by
  simp [rawEntry, Buf.toList_length]

theorem rawEntry_val_length (d : Buf) (n i : Nat) :
    (rawEntry d n i).2.2.length = rawVlen d n i := by
  simp [rawEntry, Buf.toList_length]

theorem rawEntry_entryAt (d : Buf) (n i : Nat) :
    EntryAt d (4 + 16 * n + rawOff d n i) (rawEntry d n i).2.1 (rawEntry d n i).2.2 := by
  refine ⟨?_, ?_, ?_, ?_⟩
  · rw [rawEntry_key_length]; rfl
  · rw [rawEntry_val_length]; rfl
  · intro t ht
    rw [rawEntry_key_length] at ht
    show _ = (Buf.toList _).getD t 0
    rw [Buf.toList_getD _ _ (by simpa using ht)]
    rfl
  · intro t ht
    rw [rawEntry_val_length] at ht
    rw [rawEntry_key_length]
    show _ = (Buf.toList _).getD t 0
    rw [Buf.toList_getD _ _ (by simpa using ht)]
    rfl

/-- In a well-formed node the accessors return the stored entries. -/
theorem wellFormed_decode (node : BNode) (n : Nat) (hl : Layout node n (rawOff node.data n))
    (hstep : ∀ i, i < n → rawOff node.data n (i + 1) =
      rawOff node.data n i + 4 + rawKlen node.data n i + rawVlen node.data n i)
    {i : Nat} (hi : i < n) :
    node.getPtr i = .ok (rawEntry node.data n i).1 ∧
      node.getKey i = .ok (rawEntry node.data n i).2.1 ∧
      node.getVal i = .ok (rawEntry node.data n i).2.2 := by
  have hs := hstep i hi
  have hg : rawOff node.data n (i + 1) ≤ rawOff node.data n n :=
    hl.off_le (show i + 1 ≤ n from hi) (le_refl n)
  unfold rawKlen rawVlen at hs
  refine ⟨hl.getPtr hi, ?_, ?_⟩
  · rw [hl.getKey hi (by omega)]
    rfl
  · rw [hl.getVal hi (by omega)]
    rfl

/-! ## Single steps of the builder -/

/-- Appending one entry with `nodeAppendKV` to a node under construction. -/
theorem Written.appendKV {node : BNode} {N m : Nat} {ent : Nat → Nat × List Byte × List Byte}
    (h : Written node N m ent) (hmN : m < N) (ptr : Nat) (key val : List Byte)
    (hptr : ptr < 2 ^ 64)
    (hfit : 4 + 16 * N + rawOff node.data N m + 4 + key.length + val.length
      ≤ node.data.size)
    (hsm : 4 + 16 * N + rawOff node.data N m + 4 + key.length + val.length < 65536) :
    ∃ node', nodeAppendKV node m ptr key val = .ok node' ∧
      node'.data.size = node.data.size ∧
      rawOff node'.data N (m + 1) = rawOff node.data N m + 4 + key.length + val.length ∧
      Written node' N (m + 1) (Function.update ent m (ptr, key, val)) := by
  obtain ⟨node', hr, hsz, hp, ho, he, hfr⟩ :=
    nodeAppendKV_spec node m ptr N key val h.nkeys_eq hmN hptr hfit hsm
  have hw := h.extend hmN node' ptr key val (Function.update ent m (ptr, key, val)) hsz
    (fun j hj => hfr j (by omega) (by omega) (by omega)) hp ho he hfit hsm
    (fun i hi => Function.update_noteq (by omega) _ _) (Function.update_same _ _ _)
  refine ⟨node', hr, hsz, ?_, hw⟩
  unfold rawOff
  rw [if_neg (by omega), Nat.add_sub_cancel]
  exact ho

/-- Copying one entry of a well-formed node with `nodeAppendRange` to a node under
construction. -/
theorem Written.appendOne {node : BNode} {N m : Nat} {ent : Nat → Nat × List Byte × List Byte}
    (h : Written node N m ent) (hmN : m < N) (old : BNode) (no src : Nat)
    (hl : Layout old no (rawOff old.data no))
    (hstep : ∀ i, i < no → rawOff old.data no (i + 1) =
      rawOff old.data no i + 4 + rawKlen old.data no i + rawVlen old.data no i)
    (hsrc : src < no)
    (hfit : 4 + 16 * N + rawOff node.data N m + 4 + rawKlen old.data no src
      + rawVlen old.data no src ≤ node.data.size)
    (hsm : 4 + 16 * N + rawOff node.data N m + 4 + rawKlen old.data no src
      + rawVlen old.data no src < 65536) :
    ∃ node', nodeAppendRange node old m src 1 = .ok node' ∧
      node'.data.size = node.data.size ∧
      rawOff node'.data N (m + 1)
        = rawOff node.data N m + 4 + rawKlen old.data no src + rawVlen old.data no src ∧
      Written node' N (m + 1) (Function.update ent m (rawEntry old.data no src)) := by
  have hs := hstep src hsrc
  obtain ⟨node', hr, hsz, hp, ho, hk, hfr⟩ :=
    nodeAppendRange_spec node old m src 1 N no _ hl (by omega) (le_refl 1) (by omega)
      h.nkeys_eq (by omega) (by omega)
  have hmin : min (node.data.size - (4 + 16 * N + rawOff node.data N m))
      (rawOff old.data no (src + 1) - rawOff old.data no src)
      = 4 + rawKlen old.data no src + rawVlen old.data no src := by
    omega
  rw [hmin] at hk hfr
  have hoff : node'.data.leRead (4 + 8 * N + 8 * m) 2
      = rawOff node.data N m + 4 + (rawEntry old.data no src).2.1.length
        + (rawEntry old.data no src).2.2.length := by
    have h1 := ho 1 (le_refl 1) (le_refl 1)
    rw [Nat.add_sub_cancel] at h1
    have hlt := rawOff_lt old.data no (src + 1)
    have h2 : sub16 (u16 (rawOff node.data N m + rawOff old.data no (src + 1)))
        (rawOff old.data no src)
        = rawOff node.data N m + rawOff old.data no (src + 1) - rawOff old.data no src := by
      unfold sub16 u16
      omega
    rw [h1, rawEntry_key_length, rawEntry_val_length, h2]
    omega
  have hent : EntryAt node'.data (4 + 16 * N + rawOff node.data N m)
      (rawEntry old.data no src).2.1 (rawEntry old.data no src).2.2 := by
    refine (rawEntry_entryAt old.data no src).transfer ?_
    intro t ht
    rw [rawEntry_key_length, rawEntry_val_length] at ht
    rw [hk _ (by omega) (by omega)]
    congr 1
    omega
  have hw := h.extend hmN node' (rawEntry old.data no src).1 (rawEntry old.data no src).2.1
    (rawEntry old.data no src).2.2 (Function.update ent m (rawEntry old.data no src)) hsz
    (fun j hj => hfr j (by omega) (by omega) (by omega))
    (by
      have := hp 0 (by omega)
      rw [Nat.add_zero, Nat.add_zero] at this
      exact this)
    hoff hent
    (by rw [rawEntry_key_length, rawEntry_val_length]; omega)
    (by rw [rawEntry_key_length, rawEntry_val_length]; omega)
    (fun i hi => Function.update_noteq (by omega) _ _) (Function.update_same _ _ _)
  refine ⟨node', hr, hsz, ?_, hw⟩
  unfold rawOff
  rw [if_neg (by omega), Nat.add_sub_cancel, hoff, rawEntry_key_length, rawEntry_val_length]
  rfl

/-! ## Decoding a finished node -/

theorem Written.entriesFrom {node : BNode} {N : Nat} {ent : Nat → Nat × List Byte × List Byte}
    (h : Written node N N ent) :
    ∀ rem i, i + rem = N → node.entriesFrom rem i = .ok ((List.range' i rem).map ent) := by
  intro rem
  induction rem with
  | zero => intro i _; rfl
  | succ rem ih =>
    intro i hi
    obtain ⟨h1, h2, h3⟩ := h.decode (show i < N by omega)
    simp only [BNode.entriesFrom, h1, h2, h3, Res.ok_bind, ih (i + 1) (by omega), Res.pure_eq,
      List.range'_succ, List.map_cons]

theorem Written.entries {node : BNode} {N : Nat} {ent : Nat → Nat × List Byte × List Byte}
    (h : Written node N N ent) : node.entries = .ok ((List.range N).map ent) := by
  unfold BNode.entries
  rw [h.layout.nkeys]
  simp only [Res.ok_bind]
  rw [h.entriesFrom N 0 (by omega), List.range_eq_range']

theorem Written.keys {node : BNode} {N : Nat} {ent : Nat → Nat × List Byte × List Byte}
    (h : Written node N N ent) :
    node.keys = .ok ((List.range N).map fun i => (ent i).2.1) := by
  unfold BNode.keys
  rw [h.entries]
  simp only [Res.ok_bind, Res.pure_eq, List.map_map]
  rfl

/-! ## Insertion into a small leaf -/

/-- What `leafInsert` builds at index `1` from a well-formed node of one or two
entries that fits a page: the first entry of `old`, the new entry, and the second
entry of `old` when there is one. -/
theorem leafInsert_small (old : BNode) (n : Nat) (key val : List Byte)
    (hl : Layout old n (rawOff old.data n))
    (hstep : ∀ i, i < n → rawOff old.data n (i + 1) =
      rawOff old.data n i + 4 + rawKlen old.data n i + rawVlen old.data n i)
    (h1 : 1 ≤ n) (h2 : n ≤ 2) (hpage : 4 + 16 * n + rawOff old.data n n ≤ 4096)
    (hkey : key.length ≤ 1000) (hval : val.length ≤ 3000) :
    ∃ new' ent, leafInsert ⟨Buf.make (2 * BTREE_PAGE_SIZE)⟩ old key val 1 = .ok new' ∧
      Written new' (n + 1) (n + 1) ent ∧
      ent 0 = rawEntry old.data n 0 ∧ ent 1 = (0, key, val) ∧
      (n = 2 → ent 2 = rawEntry old.data n 1) := by
  have hoff0 : rawOff old.data n 0 = 0 := hl.off_zero
  have hs0 := hstep 0 (by omega)
  rw [hoff0, Nat.zero_add] at hs0
  have hm1 : rawOff old.data n 1 ≤ rawOff old.data n n := hl.off_le h1 (le_refl _)
  -- header
  have W0 : Written ⟨((Buf.make (2 * BTREE_PAGE_SIZE)).leWrite 0 2 BNODE_LEAF).leWrite 2 2 (n + 1)⟩
      (n + 1) 0 (fun _ => (0, [], [])) :=
    Written.start _ _ _ (by simp [BTREE_PAGE_SIZE]; omega) (by omega) _
  have hr0 : rawOff (((Buf.make (2 * BTREE_PAGE_SIZE)).leWrite 0 2 BNODE_LEAF).leWrite 2 2 (n + 1))
      (n + 1) 0 = 0 := by simp [rawOff]
  have hsz0 : (((Buf.make (2 * BTREE_PAGE_SIZE)).leWrite 0 2 BNODE_LEAF).leWrite 2 2 (n + 1)).size
      = 8192 := by simp [BTREE_PAGE_SIZE]
  -- first entry of `old`
  obtain ⟨new1, hrun1, hsz1, ho1, W1⟩ := W0.appendOne (by omega) old n 0 hl hstep (by omega)
    (by rw [hr0]; show _ ≤ Buf.size _; rw [hsz0]; omega) (by rw [hr0]; omega)
  rw [hr0] at ho1
  change new1.data.size = Buf.size _ at hsz1
  rw [hsz0] at hsz1
  -- the new entry
  obtain ⟨new2, hrun2, hsz2, ho2, W2⟩ := W1.appendKV (by omega) 0 key val (by decide)
    (by rw [ho1, hsz1]; omega) (by rw [ho1]; omega)
  rw [ho1] at ho2
  rw [hsz1] at hsz2
  have hhead : leafInsert ⟨Buf.make (2 * BTREE_PAGE_SIZE)⟩ old key val 1
      = nodeAppendRange new2 old 2 1 (n - 1) := by
    unfold leafInsert
    rw [hl.nkeys]
    simp only [Res.ok_bind]
    rw [u16_of_lt (show n + 1 < 65536 by omega),
      setHeader_ok _ _ _ (by simp [BTREE_PAGE_SIZE])]
    simp only [Res.ok_bind]
    rw [hrun1]
    simp only [Res.ok_bind]
    rw [hrun2]
    simp only [Res.ok_bind]
    rw [u16_of_lt (show 1 + 1 < 65536 by omega), sub16_of_le (by omega) h1]
  by_cases hn1 : n = 1
  · subst hn1
    refine ⟨new2, _, ?_, W2, ?_, ?_, fun h => by omega⟩
    · rw [hhead]
      rfl
    · rw [Function.update_noteq (by omega), Function.update_same]
    · rw [Function.update_same]
  · have hn2 : n = 2 := by omega
    subst hn2
    have hs1 : rawOff old.data 2 2
        = rawOff old.data 2 1 + 4 + rawKlen old.data 2 1 + rawVlen old.data 2 1 :=
      hstep 1 (by omega)
    obtain ⟨new3, hrun3, _, _, W3⟩ := W2.appendOne (by omega) old 2 1 hl hstep (by omega)
      (by rw [ho2, hsz2]; omega) (by rw [ho2]; omega)
    refine ⟨new3, _, ?_, W3, ?_, ?_, fun _ => ?_⟩
    · rw [hhead]
      exact hrun3
    · rw [Function.update_noteq (by omega), Function.update_noteq (by omega),
        Function.update_same]
    · rw [Function.update_noteq (by omega), Function.update_same]
    · rw [Function.update_same]

/-- C3, amended: for a well-formed leaf of one or two entries that fits a page and
has strictly ascending keys, and a key of at most `BTREE_MAX_KEY_SIZE` bytes (value
of at most `BTREE_MAX_VAL_SIZE` bytes) with `getKey(0) ≤ key`, for which
`nodeLookupLE` gives index `0` and which differs from `getKey(0)`, `treeInsert`
builds a leaf of `nkeys + 1` entries whose keys are `getKey(0)`, `key` and then the
second key of the node when there is one, in strictly ascending order. -/
theorem treeInsert_small_leaf_ascending {σ : Type} (tree : BTree σ) (node : BNode)
    (key val : List Byte) (n nb : Nat) (k : Nat → List Byte)
    (hwf : node.wellFormed = true) (hleaf : node.btype = .ok BNODE_LEAF)
    (hn : node.nkeys = .ok n) (h1 : 1 ≤ n) (h2 : n ≤ 2)
    (hnb : node.nbytes = .ok nb) (hpage : nb ≤ BTREE_PAGE_SIZE)
    (hk : ∀ i, i < n → node.getKey i = .ok (k i))
    (hasc : ∀ j, j < n → ∀ i, i < j → bytesCompare (k i) (k j) = .lt)
    (hidx : nodeLookupLE node key = .ok 0)
    (hle : bytesCompare (k 0) key ≠ .gt) (hne : key ≠ k 0)
    (hkey : key.length ≤ BTREE_MAX_KEY_SIZE) (hval : val.length ≤ BTREE_MAX_VAL_SIZE) :
    ∃ new', treeInsert tree node key val = .ok new' ∧ new'.nkeys = .ok (n + 1) ∧
      new'.keys = .ok (k 0 :: key :: (List.range (n - 1)).map fun i => k (i + 1)) ∧
      List.Pairwise (fun a b => bytesCompare a b = .lt)
        (k 0 :: key :: (List.range (n - 1)).map fun i => k (i + 1)) := by
  obtain ⟨n', hl, hstep⟩ := wellFormed_unpack node hwf
  have hnn : n' = n := by
    have := hl.nkeys
    rw [hn] at this
    injection this with this
    exact this.symm
  subst hnn
  have hnbv := hl.nbytes
  rw [hnb] at hnbv
  injection hnbv with hnbv
  simp only [BTREE_PAGE_SIZE, BTREE_MAX_KEY_SIZE, BTREE_MAX_VAL_SIZE] at hpage hkey hval
  obtain ⟨new', ent, hrun, W, e0, e1, e2⟩ :=
    leafInsert_small node n' key val hl hstep h1 h2 (by omega) hkey hval
  have hkraw : ∀ i, i < n' → k i = (rawEntry node.data n' i).2.1 := by
    intro i hi
    have := (wellFormed_decode node n' hl hstep hi).2.1
    rw [hk i hi] at this
    injection this
  have hlt0 : bytesCompare (k 0) key = .lt := by
    cases hc : bytesCompare (k 0) key with
    | lt => rfl
    | eq => exact absurd (bytesCompare_eq _ _ hc).symm hne
    | gt => exact absurd hc hle
  have hrun' : treeInsert tree node key val = .ok new' := by
    unfold treeInsert
    rw [hidx]
    simp only [Res.ok_bind]
    rw [hleaf]
    simp only [Res.ok_bind, if_true]
    rw [hk 0 (by omega)]
    simp only [Res.ok_bind, if_neg hne]
    rw [u16_of_lt (show 0 + 1 < 65536 by omega)]
    exact hrun
  refine ⟨new', hrun', W.layout.nkeys, ?_, ?_⟩
  · rw [W.keys]
    by_cases hn1 : n' = 1
    · subst hn1
      have : List.range (1 + 1) = [0, 1] := by decide
      rw [this]
      simp only [List.map_cons, List.map_nil, e0, e1, Nat.sub_self, List.range_zero,
        hkraw 0 (by omega)]
    · have hn2 : n' = 2 := by omega
      subst hn2
      have : List.range (2 + 1) = [0, 1, 2] := by decide
      have hr1 : List.range (2 - 1) = [0] := by decide
      rw [this, hr1]
      simp only [List.map_cons, List.map_nil, e0, e1, e2 rfl, hkraw 0 (by omega),
        hkraw 1 (by omega)]
  · by_cases hn1 : n' = 1
    · subst hn1
      simp only [Nat.sub_self, List.range_zero, List.map_nil]
      simp [hlt0]
    · have hn2 : n' = 2 := by omega
      subst hn2
      have hr1 : List.range (2 - 1) = [0] := by decide
      rw [hr1]
      obtain ⟨r, hr, hE, _⟩ := nodeLookupLE_spec node key 2 k hn hk hasc
      rw [hidx] at hr
      injection hr with hr
      have hgt1 : bytesCompare (k 1) key = .gt := by
        by_contra hc
        have := (hE ⟨0, by omega, hle⟩).2.2 1 (by omega) hc
        omega
      have hlt1 : bytesCompare key (k 1) = .lt := by
        rw [bytesCompare_swap (k 1) key, hgt1]
        rfl
      have h01 := hasc 1 (by omega) 0 (by omega)
      simp [hlt0, hlt1, h01]

/-- C3, amended, at the leaf `samplePage` (keys `"a"`, `"b"`) and the key `"aa"`. -/
theorem treeInsert_small_leaf_ascending_witness :
    ∃ new', treeInsert countingTree samplePage [97, 97] [9] = .ok new' ∧
      new'.nkeys = .ok (2 + 1) ∧
      new'.keys = .ok (sampleLeaf2Keys 0 :: [97, 97] ::
        (List.range (2 - 1)).map fun i => sampleLeaf2Keys (i + 1)) ∧
      List.Pairwise (fun a b => bytesCompare a b = .lt)
        (sampleLeaf2Keys 0 :: [97, 97] ::
          (List.range (2 - 1)).map fun i => sampleLeaf2Keys (i + 1)) :=
  treeInsert_small_leaf_ascending countingTree samplePage [97, 97] [9] 2 48 sampleLeaf2Keys
    (by decide!) (by decide!) (by decide!) (by decide) (by decide) (by decide!) (by decide)
    (by decide!) (by decide) (by decide!) (by decide) (by decide) (by decide) (by decide)

/-! ## The builder and the splitter on sample nodes -/

/-- C2: on the well-formed two-entry leaf `sampleLeaf2`, `leafInsert` of `("c", 0x09)`
at `idx = 2` into a zeroed two-page buffer leaves a leaf that decodes as
`("a", 0x01), ("c", 0x09), ("c", 0x09)`: the entry `("b", 0x02)` is lost, because
`nodeAppendRange` stores `getOffset(srcOld+1)` in every offset slot. -/
theorem leafInsert_sampleLeaf2_at_end :
    sampleLeaf2.wellFormed = true ∧
    sampleLeaf2.entries = .ok [(0, [97], [1]), (0, [98], [2])] ∧
    (leafInsert ⟨Buf.make (2 * BTREE_PAGE_SIZE)⟩ sampleLeaf2 [99] [9] 2).bind BNode.entries
      = .ok [(0, [97], [1]), (0, [99], [9]), (0, [99], [9])] := by
  decide!

/-- C3, as stated, fails: `sampleLeaf1` is a non-empty leaf with the single key
`"b"`; for the key `"a"` the lookup gives index `0`, whose key differs from `"a"`,
and `treeInsert` builds a leaf with the keys `"b", "a"`, which are not ascending. -/
theorem treeInsert_sampleLeaf1_smaller_key :
    sampleLeaf1.btype = .ok BNODE_LEAF ∧
    sampleLeaf1.keys = .ok [[98]] ∧
    nodeLookupLE sampleLeaf1 [97] = .ok 0 ∧
    sampleLeaf1.getKey 0 ≠ .ok [97] ∧
    (treeInsert countingTree sampleLeaf1 [97] [9]).bind BNode.keys = .ok [[98], [97]] ∧
    bytesCompare [98] [97] = .gt := by
  decide!

/-- C4: on the empty leaf page, `treeInsert` of `("a", 0x09)` does not complete: it
ends in a run-time panic (`leafInsert` is called with `idx = 1` and its second
`nodeAppendRange` copies `0 - 1 = 65535` entries). -/
theorem treeInsert_emptyLeaf_panics :
    emptyLeaf.btype = .ok BNODE_LEAF ∧ emptyLeaf.nkeys = .ok 0 ∧
    emptyLeaf.data.size = BTREE_PAGE_SIZE ∧
    (treeInsert countingTree emptyLeaf [97] [9]).void = .panic := by
  decide!

/-- C5: on `sampleLeaf2`, whose entry `0` has the key `"a"`, `treeInsert` of
`("a", 0x09)` takes the update branch, which is empty: the scratch buffer stays
zeroed and decodes as a node of type `0` with no entry. -/
theorem treeInsert_sampleLeaf2_update_builds_nothing :
    nodeLookupLE sampleLeaf2 [97] = .ok 0 ∧ sampleLeaf2.getKey 0 = .ok [97] ∧
    sampleLeaf2.nkeys = .ok 2 ∧
    (treeInsert countingTree sampleLeaf2 [97] [9]).bind BNode.btype = .ok 0 ∧
    (treeInsert countingTree sampleLeaf2 [97] [9]).bind BNode.entries = .ok [] := by
  decide!

/-- C7: `sampleBig` is well formed, within the size caps, of encoded size `4300`
and has the keys `"a" .. "f"`; `nodeSplit3` returns two nodes whose keys decode as
`"a", "b", "b"` and `"d", "e", "e"`, so the entries `"c"` and `"f"` are lost. -/
theorem nodeSplit3_sampleBig_keys :
    sampleBig.wellFormed = true ∧ sampleBig.withinCaps = true ∧
    sampleBig.nbytes = .ok 4300 ∧
    sampleBig.keys = .ok [[97], [98], [99], [100], [101], [102]] ∧
    (nodeSplit3 sampleBig).bind (fun r => (r.2.take r.1).mapM BNode.keys)
      = .ok [[[97], [98], [98]], [[100], [101], [101]]] := by
  decide!

/-- C10: on the well-formed internal node `sampleInner3`, `nodeReplaceKidN` at
`idx = 2` with the single kid `sampleLeaf2` (first key `"a"`, page id `7`) leaves a
node that decodes as `("", 11), ("a", 12), ("a", 7)`: the key `"b"` of entry `1` is
overwritten. -/
theorem nodeReplaceKidN_sampleInner3_last :
    sampleInner3.wellFormed = true ∧ sampleInner3.btype = .ok BNODE_NODE ∧
    sampleInner3.entries = .ok [(11, [], []), (12, [98], []), (13, [99], [])] ∧
    sampleLeaf2.getKey 0 = .ok [97] ∧
    (nodeReplaceKidN countingTree 0 ⟨Buf.make (2 * BTREE_PAGE_SIZE)⟩ sampleInner3 2
        [sampleLeaf2]).bind (fun r => r.2.entries)
      = .ok [(11, [], []), (12, [97], []), (7, [97], [])] := by
  decide!

/-! ## Round trip and frame of `nodeAppendKV` -/

/-- Reading back an entry whose bytes are in place. -/
theorem getKeyVal_of_entryAt (node : BNode) (N i o : Nat) (key val : List Byte)
    (hn : node.nkeys = .ok N) (ho : node.getOffset i = .ok o)
    (he : EntryAt node.data (4 + 16 * N + o) key val)
    (hfit : 4 + 16 * N + o + 4 + key.length + val.length ≤ node.data.size)
    (hsm : 4 + 16 * N + o + 4 + key.length + val.length < 65536) :
    node.getKey i = .ok key ∧ node.getVal i = .ok val := by
  obtain ⟨e1, e2, e3, e4⟩ := he
  have hkv := kvPos_val node N i o hn ho (by omega)
  have u0 : u16 (4 + 16 * N + o) = 4 + 16 * N + o := u16_of_lt (by omega)
  have u2 : u16 (4 + 16 * N + o + 2) = 4 + 16 * N + o + 2 := u16_of_lt (by omega)
  have u4 : u16 (4 + 16 * N + o + 4) = 4 + 16 * N + o + 4 := u16_of_lt (by omega)
  have u5 : u16 (4 + 16 * N + o + 4 + key.length) = 4 + 16 * N + o + 4 + key.length :=
    u16_of_lt (by omega)
  have c0 : 4 + 16 * N + o + 2 ≤ node.data.size := by omega
  have c2 : 4 + 16 * N + o + 2 + 2 ≤ node.data.size := by omega
  constructor
  · unfold BNode.getKey
    rw [hkv]
    simp only [Res.ok_bind, leUint16, HEADER_KV, c0, if_true, e1, u4]
    unfold sliceLen
    rw [if_pos (by omega)]
    simp only [Res.ok_bind, Res.pure_eq]
    exact congrArg Res.ok (Buf.toList_slice_eq _ _ _ e3)
  · unfold BNode.getVal
    rw [hkv]
    simp only [Res.ok_bind, leUint16, HEADER_KV, Nat.add_zero, u0, u2, u4, c0, c2, if_true, e1,
      e2, u5]
    unfold sliceLen
    rw [if_pos (by omega)]
    simp only [Res.ok_bind, Res.pure_eq]
    exact congrArg Res.ok (Buf.toList_slice_eq _ _ _ e4)

/-- C12, amended: in a node whose header is set, at an index `idx < nkeys`, with a
pointer below `2^64` and with room for the entry both in the buffer and in `uint16`
(`4 + 16*nkeys + getOffset(idx) + 4 + len(key) + len(val)` is at most the buffer
length and below `2^16`), `nodeAppendKV` completes and afterwards `getPtr(idx)`,
`getKey(idx)`, `getVal(idx)` return `ptr`, `key`, `val`, and
`getOffset(idx+1) = getOffset(idx) + 4 + len(key) + len(val)`. -/
theorem nodeAppendKV_roundtrip (new : BNode) (idx ptr N o : Nat) (key val : List Byte)
    (hn : new.nkeys = .ok N) (hidx : idx < N) (ho : new.getOffset idx = .ok o)
    (hptr : ptr < 2 ^ 64)
    (hfit : 4 + 16 * N + o + 4 + key.length + val.length ≤ new.data.size)
    (hsm : 4 + 16 * N + o + 4 + key.length + val.length < 65536) :
    ∃ new', nodeAppendKV new idx ptr key val = .ok new' ∧
      new'.getPtr idx = .ok ptr ∧ new'.getKey idx = .ok key ∧ new'.getVal idx = .ok val ∧
      new'.getOffset idx = .ok o ∧
      new'.getOffset (idx + 1) = .ok (o + 4 + key.length + val.length) := by
  obtain ⟨h4, hN, _⟩ := nkeys_ok hn
  have hraw : rawOff new.data N idx = o := by
    have := getOffset_read new N idx hn (by omega) (by omega) (by omega)
    rw [ho] at this
    injection this with this
    exact this.symm
  rw [← hraw] at hfit hsm ⊢
  obtain ⟨new', hrun, hsz, hp, hoff, he, hfr⟩ :=
    nodeAppendKV_spec new idx ptr N key val hN hidx hptr hfit hsm
  have hn' : new'.nkeys = .ok N := by
    rw [nkeys_read, if_pos (by omega), ← hN]
    exact congrArg Res.ok (Buf.leRead_congr _ _ _ _ (fun j h1 h2 =>
      hfr j (by omega) (by omega) (by omega)))
  have hraw' : rawOff new'.data N idx = rawOff new.data N idx :=
    rawOff_congr _ _ _ _ (fun j h1 h2 => hfr j (by omega) (by omega) (by omega))
  have ho' : new'.getOffset idx = .ok (rawOff new.data N idx) := by
    rw [getOffset_read new' N idx hn' (by omega) (by omega) (by omega), hraw']
  have ho1 : new'.getOffset (idx + 1)
      = .ok (rawOff new.data N idx + 4 + key.length + val.length) := by
    rw [getOffset_read new' N (idx + 1) hn' (by simp; omega) (by omega) (by simp; omega)]
    have hr1 : rawOff new'.data N (idx + 1) = new'.data.leRead (4 + 8 * N + 8 * idx) 2 := by
      simp [rawOff]
    rw [hr1, hoff]
  obtain ⟨hk, hv⟩ := getKeyVal_of_entryAt new' N idx _ key val hn' ho' he (by omega) hsm
  refine ⟨new', hrun, ?_, hk, hv, ho', ho1⟩
  rw [getPtr_read new' idx (by omega), if_pos (by omega), hp]

/-- C12, amended, at `samplePage` with its second entry written again. -/
theorem nodeAppendKV_roundtrip_witness :
    ∃ new', nodeAppendKV samplePage 1 7 [99] [3, 4] = .ok new' ∧
      new'.getPtr 1 = .ok 7 ∧ new'.getKey 1 = .ok [99] ∧ new'.getVal 1 = .ok [3, 4] ∧
      new'.getOffset 1 = .ok 6 ∧
      new'.getOffset (1 + 1) = .ok (6 + 4 + [99].length + [3, 4].length) :=
  nodeAppendKV_roundtrip samplePage 1 7 2 6 [99] [3, 4] (by decide!) (by decide) (by decide!)
    (by decide) (by decide) (by decide)

/-- C14: for a key of at most `BTREE_MAX_KEY_SIZE` bytes and a value of at most
`BTREE_MAX_VAL_SIZE` bytes, `setHeader(t, 1)` followed by
`nodeAppendKV(node, 0, ptr, key, val)` on a buffer of at least one page builds a node
with `nbytes() = 4 + 16 + 4 + len(key) + len(val) ≤ BTREE_PAGE_SIZE`. -/
theorem single_entry_fits_page (node : BNode) (t ptr : Nat) (key val : List Byte)
    (hptr : ptr < 2 ^ 64) (hkey : key.length ≤ BTREE_MAX_KEY_SIZE)
    (hval : val.length ≤ BTREE_MAX_VAL_SIZE) (hsize : BTREE_PAGE_SIZE ≤ node.data.size) :
    ∃ n1 n2 nb, node.setHeader t 1 = .ok n1 ∧ nodeAppendKV n1 0 ptr key val = .ok n2 ∧
      n2.nbytes = .ok nb ∧ nb = 4 + 16 + 4 + key.length + val.length ∧
      nb ≤ BTREE_PAGE_SIZE := by
  simp only [BTREE_MAX_KEY_SIZE, BTREE_MAX_VAL_SIZE, BTREE_PAGE_SIZE] at hkey hval hsize ⊢
  have W0 : Written ⟨(node.data.leWrite 0 2 t).leWrite 2 2 1⟩ 1 0 (fun _ => (0, [], [])) :=
    Written.start _ _ _ (by omega) (by omega) _
  have hr0 : rawOff ((node.data.leWrite 0 2 t).leWrite 2 2 1) 1 0 = 0 := by simp [rawOff]
  have hs0 : ((node.data.leWrite 0 2 t).leWrite 2 2 1).size = node.data.size := by simp
  obtain ⟨n2, hrun, _, ho, W1⟩ := W0.appendKV (by omega) ptr key val hptr
    (by rw [hr0]; show _ ≤ Buf.size _; rw [hs0]; omega) (by rw [hr0]; omega)
  rw [hr0] at ho
  refine ⟨_, n2, _, setHeader_ok node t 1 (by omega), hrun, W1.layout.nbytes, ?_, ?_⟩
  · show 4 + 16 * 1 + rawOff n2.data 1 (0 + 1) = _
    rw [ho]
    omega
  · show 4 + 16 * 1 + rawOff n2.data 1 (0 + 1) ≤ 4096
    rw [ho]
    omega

/-- C14 at a zeroed page, with the key `"a"` and the value `0x01`. -/
theorem single_entry_fits_page_witness :
    ∃ n1 n2 nb, (⟨Buf.make BTREE_PAGE_SIZE⟩ : BNode).setHeader BNODE_LEAF 1 = .ok n1 ∧
      nodeAppendKV n1 0 0 [97] [1] = .ok n2 ∧
      n2.nbytes = .ok nb ∧ nb = 4 + 16 + 4 + [97].length + [1].length ∧
      nb ≤ BTREE_PAGE_SIZE :=
  single_entry_fits_page ⟨Buf.make BTREE_PAGE_SIZE⟩ BNODE_LEAF 0 [97] [1] (by decide)
    (by decide) (by decide) (by decide)

/-- The written part of a node under construction decodes as the entries `ent`. -/
theorem Written.decodeAt {node : BNode} {N m : Nat} {ent : Nat → Nat × List Byte × List Byte}
    (h : Written node N m ent) {j : Nat} (hj : j < m) :
    node.nkeys = .ok N ∧ node.getPtr j = .ok (ent j).1 ∧ node.getKey j = .ok (ent j).2.1 ∧
      node.getVal j = .ok (ent j).2.2 ∧
      node.getOffset (j + 1) = .ok (rawOff node.data N (j + 1)) := by
  have hm := h.m_le
  have hf := h.fits
  have hs := h.small
  have he := h.entry_end_le hj
  have hn : node.nkeys = .ok N := by
    rw [nkeys_read, if_pos (by omega), h.nkeys_eq]
  have ho : node.getOffset j = .ok (rawOff node.data N j) :=
    getOffset_read node N j hn (by omega) (by omega) (by omega)
  obtain ⟨hk, hv⟩ := getKeyVal_of_entryAt node N j _ _ _ hn ho (h.entry j hj) (by omega)
    (by omega)
  refine ⟨hn, ?_, hk, hv, ?_⟩
  · rw [getPtr_read node j (by omega), if_pos (by omega), h.ptr j hj]
  · exact getOffset_read node N (j + 1) hn (by simp; omega) (by omega) (by simp; omega)

/-- C20, amended: in a node whose header is set and whose entries `0 .. idx-1` are
written, with `idx < nkeys`, a pointer below `2^64` and room for the entry in the buffer
and in `uint16` (`4 + 16*nkeys + getOffset(idx) + 4 + len(key) + len(val)` is at most
the buffer length and below `2^16`), `nodeAppendKV` completes, leaves `btype` and
`nkeys` unchanged and, for every `j < idx`, leaves `getPtr(j)`, `getKey(j)`,
`getVal(j)` and `getOffset(j+1)` unchanged. -/
theorem nodeAppendKV_keeps_earlier (new : BNode) (N idx ptr o : Nat)
    (ent : Nat → Nat × List Byte × List Byte) (key val : List Byte)
    (hw : Written new N idx ent) (hidx : idx < N) (ho : new.getOffset idx = .ok o)
    (hptr : ptr < 2 ^ 64)
    (hfit : 4 + 16 * N + o + 4 + key.length + val.length ≤ new.data.size)
    (hsm : 4 + 16 * N + o + 4 + key.length + val.length < 65536) :
    ∃ new', nodeAppendKV new idx ptr key val = .ok new' ∧
      (∃ t, new.btype = .ok t ∧ new'.btype = .ok t) ∧
      new.nkeys = .ok N ∧ new'.nkeys = .ok N ∧
      ∀ j, j < idx →
        new.getPtr j = .ok (ent j).1 ∧ new'.getPtr j = .ok (ent j).1 ∧
        new.getKey j = .ok (ent j).2.1 ∧ new'.getKey j = .ok (ent j).2.1 ∧
        new.getVal j = .ok (ent j).2.2 ∧ new'.getVal j = .ok (ent j).2.2 ∧
        ∃ o', new.getOffset (j + 1) = .ok o' ∧ new'.getOffset (j + 1) = .ok o' := by
  have hf := hw.fits
  have hn : new.nkeys = .ok N := by
    rw [nkeys_read, if_pos (by omega), hw.nkeys_eq]
  have hraw : rawOff new.data N idx = o := by
    have := getOffset_read new N idx hn (by omega) (by omega) (by omega)
    rw [ho] at this
    injection this with this
    exact this.symm
  rw [← hraw] at hfit hsm
  obtain ⟨new', hrun, hsz, _, _, _, hfr⟩ :=
    nodeAppendKV_spec new idx ptr N key val hw.nkeys_eq hidx hptr hfit hsm
  have hw' : Written new' N idx ent :=
    hw.frame new' hsz (fun j hj => hfr j (by omega) (by omega) (by omega))
  have hn' : new'.nkeys = .ok N := by
    rw [nkeys_read, if_pos (by omega), hw'.nkeys_eq]
  refine ⟨new', hrun, ⟨new.data.leRead 0 2, ?_, ?_⟩, hn, hn', ?_⟩
  · rw [btype_read, if_pos (by omega)]
  · rw [btype_read, if_pos (by omega)]
    exact congrArg Res.ok (Buf.leRead_congr _ _ _ _ (fun j h1 h2 =>
      hfr j (by omega) (by omega) (by omega)))
  · intro j hj
    obtain ⟨_, a1, a2, a3, a4⟩ := hw.decodeAt hj
    obtain ⟨_, b1, b2, b3, b4⟩ := hw'.decodeAt hj
    refine ⟨a1, b1, a2, b2, a3, b3, _, a4, ?_⟩
    rw [b4]
    exact congrArg Res.ok (rawOff_congr _ _ _ _ (fun t h1 h2 =>
      hfr t (by omega) (by omega) (by omega)))

/-- The first entry of `samplePage`, seen as a node under construction with the
second entry still to be written. -/
theorem samplePage_written : Written samplePage 2 1 (fun _ => (0, [97], [1])) :=
  { nkeys_eq := by decide!
    m_le := by decide
    step := by
      intro i hi
      obtain rfl : i = 0 := by omega
      decide!
    fits := by decide!
    small := by decide!
    ptr := by
      intro i hi
      obtain rfl : i = 0 := by omega
      decide!
    entry := by
      intro i hi
      obtain rfl : i = 0 := by omega
      refine ⟨by decide!, by decide!, ?_, ?_⟩
      · intro t ht
        obtain rfl : t = 0 := by simpa using ht
        decide!
      · intro t ht
        obtain rfl : t = 0 := by simpa using ht
        decide! }

/-- C20, amended, at `samplePage` with its second entry written again. -/
theorem nodeAppendKV_keeps_earlier_witness :
    ∃ new', nodeAppendKV samplePage 1 7 [99] [3, 4] = .ok new' ∧
      (∃ t, samplePage.btype = .ok t ∧ new'.btype = .ok t) ∧
      samplePage.nkeys = .ok 2 ∧ new'.nkeys = .ok 2 ∧
      ∀ j, j < 1 →
        samplePage.getPtr j = .ok 0 ∧ new'.getPtr j = .ok 0 ∧
        samplePage.getKey j = .ok [97] ∧ new'.getKey j = .ok [97] ∧
        samplePage.getVal j = .ok [1] ∧ new'.getVal j = .ok [1] ∧
        ∃ o', samplePage.getOffset (j + 1) = .ok o' ∧ new'.getOffset (j + 1) = .ok o' :=
  nodeAppendKV_keeps_earlier samplePage 2 1 7 6 (fun _ => (0, [97], [1])) [99] [3, 4]
    samplePage_written (by decide) (by decide!) (by decide) (by decide) (by decide)

/-! ## The first key of the nodes that the splitter returns -/

/-- With the `klen` field of the first entry slot in range, `getKey(0)` returns a key
of that length. -/
theorem FirstKey.getKey_ok {nd : BNode} {N kl : Nat} (h : FirstKey nd N kl) :
    ∃ k, nd.getKey 0 = .ok k ∧ k.length ≤ BTREE_MAX_KEY_SIZE := by
  obtain ⟨hN, hk, hc, hf, hs⟩ := h
  have hn : nd.nkeys = .ok N := by
    rw [nkeys_read, if_pos (by omega), hN]
  have ho : nd.getOffset 0 = .ok 0 := rfl
  have hkv := kvPos_val nd N 0 0 hn ho (by omega)
  refine ⟨(nd.data.slice (4 + 16 * N + 4) kl).toList, ?_, ?_⟩
  · unfold BNode.getKey
    rw [hkv]
    simp only [Res.ok_bind, leUint16, HEADER_KV, Nat.add_zero]
    rw [if_pos (by omega), hk]
    simp only [Res.ok_bind]
    rw [u16_of_lt (by omega)]
    unfold sliceLen
    rw [if_pos (by omega)]
    rfl
  · rw [Buf.toList_length]
    exact hc

/-- Cutting the buffer behind the first key keeps it. -/
theorem FirstKey.cut_page {nd : BNode} {N kl : Nat} (h : FirstKey nd N kl) (k : Nat)
    (hk : 4 + 16 * N + 4 + kl ≤ k) : FirstKey ⟨nd.data.slice 0 k⟩ N kl := by
  obtain ⟨hN, hkl, hc, hf, hs⟩ := h
  refine ⟨?_, ?_, hc, ?_, hs⟩
  · rw [Buf.leRead_slice, Nat.zero_add]; exact hN
  · rw [Buf.leRead_slice, Nat.zero_add]; exact hkl
  · simp only [Buf.slice_size]; exact hk

/-- Two zero bytes read as zero. -/
theorem Buf.leRead_two_zero (d : Buf) (p : Nat) (h0 : d.byte p = 0) (h1 : d.byte (p + 1) = 0) :
    d.leRead p 2 = 0 := by
  simp [Buf.leRead, h0, h1]

/-- The first key of the node that `setHeader(t, N)` and
`nodeAppendRange(new, old, 0, src, N)` build in a zeroed buffer: its `klen` field is
that of entry `src` of `old` when the bytes copied cover it, and zero when nothing is
copied. -/
theorem build_first_key (new old : BNode) (t N no src kl : Nat) (off : Nat → Nat)
    (hl : Layout old no off) (hsrc : src + N ≤ no)
    (hroom : 4 + 16 * N + 4 ≤ new.data.size)
    (hzero : ∀ j, 4 ≤ j → new.data.byte j = 0)
    (hcase : off (src + N) = off src ∨
      (old.data.leRead (4 + 16 * no + off src) 2 = kl ∧ 4 + kl ≤ off (src + N) - off src ∧
        4 + 16 * N + 4 + kl ≤ new.data.size))
    (hkl : kl ≤ 1000) (new' : BNode)
    (hrun : nodeAppendRange ⟨(new.data.leWrite 0 2 t).leWrite 2 2 N⟩ old 0 src N = .ok new') :
    ∃ a, FirstKey new' N a ∧ (a = 0 ∨ a = kl) := by
  have hos := hl.small
  have hN : N < 4096 := by omega
  have hr0 : rawOff ((new.data.leWrite 0 2 t).leWrite 2 2 N) N 0 = 0 := by simp [rawOff]
  have hs1 : ((new.data.leWrite 0 2 t).leWrite 2 2 N).size = new.data.size := by simp
  have hz1 : ∀ j, 4 ≤ j → ((new.data.leWrite 0 2 t).leWrite 2 2 N).byte j = 0 := by
    intro j hj
    rw [setHeader_byte _ _ _ _ hj]
    exact hzero j hj
  by_cases hN0 : N = 0
  · subst hN0
    have : new' = ⟨(new.data.leWrite 0 2 t).leWrite 2 2 0⟩ := by
      simp only [nodeAppendRange, if_true, Res.pure_eq, Res.ok.injEq] at hrun
      exact hrun.symm
    subst this
    refine ⟨0, ⟨setHeader_nkeys _ _ _ (by omega), ?_, by omega, by rw [hs1]; omega, by omega⟩,
      Or.inl rfl⟩
    exact Buf.leRead_two_zero _ _ (hz1 _ (by omega)) (hz1 _ (by omega))
  · obtain ⟨new'', hrun', hsize, _, _, hK, hfr⟩ :=
      nodeAppendRange_spec ⟨(new.data.leWrite 0 2 t).leWrite 2 2 N⟩ old 0 src N N no off hl
        hsrc (by omega) (by omega) (setHeader_nkeys _ _ _ (by omega))
        (by rw [hr0, hs1]; omega) (by rw [hr0]; omega)
    rw [hrun] at hrun'
    injection hrun' with hrun'
    subst hrun'
    rw [hr0, hs1] at hK hfr
    simp only [Nat.add_zero] at hK hfr
    have hNr : new'.data.leRead 2 2 = N := by
      rw [← setHeader_nkeys new.data t N (by omega)]
      exact Buf.leRead_congr _ _ _ _ (fun j h1 h2 => hfr j (by omega) (by omega) (by omega))
    rcases hcase with hc | ⟨hc1, hc2, hc3⟩
    · refine ⟨0, ⟨hNr, ?_, by omega, by rw [hsize, hs1]; omega, by omega⟩, Or.inl rfl⟩
      have hb : ∀ j, 4 + 16 * N ≤ j → new'.data.byte j = 0 := by
        intro j hj
        rw [hfr j (by omega) (by omega) (by rw [hc]; simp)]
        exact hz1 j (by omega)
      exact Buf.leRead_two_zero _ _ (hb _ (by omega)) (hb _ (by omega))
    · have hm2 : off (src + N) ≤ off no := hl.off_le hsrc (le_refl no)
      refine ⟨kl, ⟨hNr, ?_, hkl, by rw [hsize, hs1]; omega, by omega⟩, Or.inr rfl⟩
      rw [← hc1]
      apply Buf.leRead_congr_shift
      intro u hu
      rw [hK (4 + 16 * N + u) (by omega) (by
        have : 4 + kl ≤ min (new.data.size - (4 + 16 * N)) (off (src + N) - off src) := by
          apply Nat.le_min.mpr
          constructor <;> omega
        omega)]
      congr 1
      omega

/-- The first keys of the two nodes that `nodeSplit2` builds in zeroed buffers. -/
theorem nodeSplit2_first_keys (left right old : BNode) (n L kl0 klL : Nat) (off : Nat → Nat)
    (hl : Layout old n off) (hidx : nodeSplit2.index old = .ok L) (hL : L ≤ n)
    (hzl : ∀ j, 4 ≤ j → left.data.byte j = 0) (hzr : ∀ j, 4 ≤ j → right.data.byte j = 0)
    (hroomL : 4 + 16 * L + 4 ≤ left.data.size)
    (hroomR : 4 + 16 * (n - L) + 4 ≤ right.data.size)
    (hcaseL : off L = off 0 ∨
      (old.data.leRead (4 + 16 * n + off 0) 2 = kl0 ∧ 4 + kl0 ≤ off L - off 0 ∧
        4 + 16 * L + 4 + kl0 ≤ left.data.size))
    (hkl0 : kl0 ≤ 1000)
    (hcaseR : off n = off L ∨
      (old.data.leRead (4 + 16 * n + off L) 2 = klL ∧ 4 + klL ≤ off n - off L ∧
        4 + 16 * (n - L) + 4 + klL ≤ right.data.size))
    (hklL : klL ≤ 1000) (l r : BNode) (hsplit : nodeSplit2 left right old = .ok (l, r)) :
    (∃ a, FirstKey l L a ∧ (a = 0 ∨ a = kl0)) ∧
      (∃ b, FirstKey r (n - L) b ∧ (b = 0 ∨ b = klL)) := by
  unfold nodeSplit2 at hsplit
  rw [hidx] at hsplit
  simp only [Res.ok_bind] at hsplit
  rw [hl.nkeys] at hsplit
  simp only [Res.ok_bind] at hsplit
  rw [hl.btype] at hsplit
  simp only [Res.ok_bind] at hsplit
  rw [setHeader_ok left _ _ (by omega), sub16_of_le (by have := hl.small; omega) hL] at hsplit
  simp only [Res.ok_bind] at hsplit
  rw [setHeader_ok right _ _ (by omega)] at hsplit
  simp only [Res.ok_bind] at hsplit
  obtain ⟨l', hrunL, hsplit⟩ := Res.bind_eq_ok.mp hsplit
  obtain ⟨r', hrunR, hsplit⟩ := Res.bind_eq_ok.mp hsplit
  simp only [Res.pure_eq, Res.ok.injEq, Prod.mk.injEq] at hsplit
  obtain ⟨rfl, rfl⟩ := hsplit
  have eR : L + (n - L) = n := by omega
  constructor
  · exact build_first_key left old _ L n 0 kl0 off hl (by omega) hroomL hzl
      (by rw [Nat.zero_add]; exact hcaseL) hkl0 l' hrunL
  · exact build_first_key right old _ (n - L) n L klL off hl (by omega) hroomR hzr
      (by rw [eR]; exact hcaseR) hklL r' hrunR

/-- The first key of every node that `nodeSplit3` returns for a well-formed node with at
least one entry, within the size caps, of encoded size at most two pages and in a
buffer of at least one page: `nodeSplit3` completes and `getKey(0)` of each returned
node is readable and within the key cap. -/
theorem nodeSplit3_first_keys (old : BNode) (n nb : Nat) (hwf : old.wellFormed = true)
    (hcaps : old.withinCaps = true) (hn : old.nkeys = .ok n) (hn1 : 1 ≤ n)
    (hnb : old.nbytes = .ok nb) (hle : nb ≤ 2 * BTREE_PAGE_SIZE)
    (hsize : BTREE_PAGE_SIZE ≤ old.data.size) :
    ∃ k nodes, nodeSplit3 old = .ok (k, nodes) ∧
      ∀ nd, nd ∈ nodes.take k → ∃ key, nd.getKey 0 = .ok key ∧
        key.length ≤ BTREE_MAX_KEY_SIZE := by
  obtain ⟨n', hl, hstep⟩ := wellFormed_unpack old hwf
  have hn' := hl.nkeys
  rw [hn] at hn'
  injection hn' with hn'
  subst hn'
  have hcap := withinCaps_unpack old n _ hl hcaps
  have hnbv := hl.nbytes
  rw [hnb] at hnbv
  injection hnbv with hnbv
  simp only [BTREE_PAGE_SIZE] at hle hsize ⊢
  have hoff0 : rawOff old.data n 0 = 0 := hl.off_zero
  have hgrow := wellFormed_off_growth old n hstep
  have hs1n : rawOff old.data n 1 ≤ rawOff old.data n n := hl.off_le hn1 (le_refl _)
  -- the first entry of `old`
  obtain ⟨kl0, hkl0⟩ : ∃ kl0, kl0 = old.data.leRead (4 + 16 * n) 2 := ⟨_, rfl⟩
  have hst0 := hstep 0 hn1
  have hcp0 := (hcap 0 hn1).1
  have hcv0 := (hcap 0 hn1).2
  unfold rawKlen rawVlen at hst0
  rw [hoff0] at hst0 hcp0 hcv0
  simp only [Nat.add_zero, Nat.zero_add] at hst0 hcp0 hcv0
  rw [← hkl0] at hst0 hcp0
  have hs1 : rawOff old.data n 1 ≤ 4004 := by omega
  have hfk : FirstKey old n kl0 :=
    ⟨hl.nkeys_eq, hkl0.symm, hcp0, by have := hl.fits; omega, by have := hl.small; omega⟩
  by_cases hfit : nb ≤ 4096
  · -- one node
    refine ⟨1, [⟨old.data.slice 0 4096⟩, BNode.zero, BNode.zero], ?_, ?_⟩
    · unfold nodeSplit3
      rw [hnb]
      simp only [Res.ok_bind, BTREE_PAGE_SIZE, if_pos hfit, sliceRange]
      rw [if_pos ⟨Nat.zero_le _, hsize⟩]
      rfl
    · intro nd hnd
      simp only [List.take_succ_cons, List.take_zero, List.mem_singleton] at hnd
      subst hnd
      exact (hfk.cut_page 4096 (by omega)).getKey_ok
  · have hn6 : 6 * n + 4 ≤ 4096 := by
      have hg0 := hgrow 0 n (Nat.zero_le _) (le_refl _)
      omega
    -- first split
    obtain ⟨l1, L, hidx, hl1n, hl1L, hLn, hA1, _, hA2, hA3⟩ := hl.index hn6
    have hLoff : rawOff old.data n L ≤ rawOff old.data n n := hl.off_le hLn (le_refl _)
    have hleft : 4 + 16 * L + (if L = 0 then 0 else rawOff old.data n 1)
        ≤ (⟨Buf.make (2 * BTREE_PAGE_SIZE)⟩ : BNode).data.size := by
      simp only [Buf.make_size, BTREE_PAGE_SIZE]
      split_ifs <;> omega
    have hright : 4 + 16 * (n - L)
        + (if n - L = 0 then 0 else rawOff old.data n (L + 1) - rawOff old.data n L)
        ≤ (⟨Buf.make BTREE_PAGE_SIZE⟩ : BNode).data.size := by
      simp only [Buf.make_size, BTREE_PAGE_SIZE]
      split_ifs with h0
      · omega
      · have := hl.off_le (show L + 1 ≤ n by omega) (le_refl n)
        omega
    obtain ⟨l, r, hsplit, hlsz, hrsz, hll, hrl⟩ :=
      nodeSplit2_layout _ _ old n L _ hl hidx hLn hleft hright
    -- the first keys of the two nodes
    obtain ⟨klL, hklLc, hklL⟩ : ∃ klL, klL ≤ 1000 ∧
        (L ≠ n → klL = old.data.leRead (4 + 16 * n + rawOff old.data n L) 2) := by
      by_cases h : L = n
      · exact ⟨0, by omega, fun h' => absurd h h'⟩
      · exact ⟨_, (hcap L (by omega)).1, fun _ => rfl⟩
    have hcaseL : rawOff old.data n L = rawOff old.data n 0 ∨
        (old.data.leRead (4 + 16 * n + rawOff old.data n 0) 2 = kl0 ∧
          4 + kl0 ≤ rawOff old.data n L - rawOff old.data n 0 ∧
          4 + 16 * L + 4 + kl0 ≤ (⟨Buf.make (2 * BTREE_PAGE_SIZE)⟩ : BNode).data.size) := by
      by_cases hL0 : L = 0
      · left
        rw [hL0]
      · right
        have := hl.off_le (show 1 ≤ L by omega) hLn
        refine ⟨?_, ?_, ?_⟩
        · rw [hoff0, Nat.add_zero, ← hkl0]
        · omega
        · simp only [Buf.make_size, BTREE_PAGE_SIZE]
          omega
    have hcaseR : rawOff old.data n n = rawOff old.data n L ∨
        (old.data.leRead (4 + 16 * n + rawOff old.data n L) 2 = klL ∧
          4 + klL ≤ rawOff old.data n n - rawOff old.data n L ∧
          4 + 16 * (n - L) + 4 + klL ≤ (⟨Buf.make BTREE_PAGE_SIZE⟩ : BNode).data.size) := by
      by_cases hLn' : L = n
      · left
        rw [hLn']
      · right
        have hstL := hstep L (by omega)
        unfold rawKlen rawVlen at hstL
        rw [← hklL hLn'] at hstL
        have := hl.off_le (show L + 1 ≤ n by omega) (le_refl n)
        have e0 : n - L ≠ 0 := by omega
        simp only [Buf.make_size, BTREE_PAGE_SIZE, e0, if_false] at hright ⊢
        exact ⟨(hklL hLn').symm, by omega, by omega⟩
    obtain ⟨⟨a, hfa, ha⟩, ⟨b, hfb, _⟩⟩ :=
      nodeSplit2_first_keys _ _ old n L kl0 klL _ hl hidx hLn (fun _ _ => rfl) (fun _ _ => rfl)
        (by simp only [Buf.make_size, BTREE_PAGE_SIZE]; omega)
        (by
          simp only [Buf.make_size, BTREE_PAGE_SIZE] at hright ⊢
          omega)
        hcaseL hcp0 hcaseR hklLc l r hsplit
    have hale : a ≤ kl0 := by
      rcases ha with h | h <;> omega
    simp only [Buf.make_size, BTREE_PAGE_SIZE] at hlsz hrsz hsplit
    have hlnb := hll.nbytes
    by_cases hlfit : 4 + 16 * L + (if L = 0 then 0 else rawOff old.data n 1) ≤ 4096
    · -- two nodes
      refine ⟨2, [⟨l.data.slice 0 4096⟩, r, BNode.zero], ?_, ?_⟩
      · unfold nodeSplit3
        rw [hnb]
        simp only [Res.ok_bind, BTREE_PAGE_SIZE, if_neg hfit]
        rw [hsplit]
        simp only [Res.ok_bind]
        rw [hlnb]
        simp only [Res.ok_bind, if_pos hlfit, sliceRange]
        rw [if_pos ⟨Nat.zero_le _, by omega⟩]
        rfl
      · intro nd hnd
        simp only [List.take_succ_cons, List.take_zero, List.mem_cons, List.mem_singleton,
          List.not_mem_nil, or_false] at hnd
        rcases hnd with hnd | hnd
        · subst hnd
          refine (hfa.cut_page 4096 ?_).getKey_ok
          by_cases hL0 : L = 0
          · omega
          · rw [if_neg hL0] at hlfit
            omega
        · subst hnd
          exact hfb.getKey_ok
    · -- three nodes
      have hL0 : L ≠ 0 := by
        intro h0
        simp [h0] at hlfit
      simp only [hL0, if_false] at hlfit
      have hL6 : 6 ≤ L := by omega
      have hgL := hgrow 1 L (by omega) hLn
      have hgL1 := hgrow 1 (L - 1) (by omega) (by omega)
      have hbound : 14 * L + rawOff old.data n 1 ≤ 4113 := by
        by_cases hLl : L = l1
        · rw [← hLl] at hA1
          omega
        · have := hA3 (L - 1) (by omega) (by omega)
          omega
      -- second split
      obtain ⟨x1, x, hidx2, hx1L, hx1x, hxL, hB1, hB2, hB3, hB4⟩ :=
        hll.index (by omega)
      have hx1 : 1 ≤ x1 := by
        by_contra hc
        have := hB2 1 (by omega) (by omega)
        simp only [one_ne_zero, if_false] at this
        omega
      have hx0 : x ≠ 0 := by omega
      have hleft2 : 4 + 16 * x + (if x = 0 then 0 else
          (if (1 : Nat) = 0 then 0 else rawOff old.data n 1))
          ≤ (⟨Buf.make BTREE_PAGE_SIZE⟩ : BNode).data.size := by
        simp only [Buf.make_size, BTREE_PAGE_SIZE, hx0, one_ne_zero, if_false]
        by_cases hxx : x = x1
        · omega
        · have := hB4 (x - 1) (by omega) (by omega)
          have e1 : x - 1 ≠ 0 := by omega
          simp only [hL0, e1, if_false] at this
          omega
      have hright2 : 4 + 16 * (L - x) + (if L - x = 0 then 0 else
          (if x + 1 = 0 then 0 else rawOff old.data n 1)
            - (if x = 0 then 0 else rawOff old.data n 1))
          ≤ (⟨Buf.make BTREE_PAGE_SIZE⟩ : BNode).data.size := by
        simp only [Buf.make_size, BTREE_PAGE_SIZE, hx0, if_false, Nat.succ_ne_zero,
          Nat.sub_self, ite_self, Nat.add_zero]
        simp only [hL0, hx0, if_false] at hB3
        omega
      obtain ⟨ll, m, hsplit2, hllsz, hmsz, hlll, hml⟩ :=
        nodeSplit2_layout _ _ l L x _ hll hidx2 hxL hleft2 hright2
      obtain ⟨hfa1, hfa2, hfa3, hfa4, hfa5⟩ := hfa
      obtain ⟨⟨a', hfa', _⟩, ⟨b', hfb', _⟩⟩ :=
        nodeSplit2_first_keys _ _ l L x a 0 _ hll hidx2 hxL (fun _ _ => rfl) (fun _ _ => rfl)
          (by
            simp only [Buf.make_size, BTREE_PAGE_SIZE, hx0, one_ne_zero, if_false] at hleft2 ⊢
            omega)
          (by
            simp only [Buf.make_size, BTREE_PAGE_SIZE] at hright2 ⊢
            omega)
          (Or.inr (by
            simp only [Buf.make_size, BTREE_PAGE_SIZE, hx0, one_ne_zero, if_false, if_true,
              Nat.add_zero, Nat.sub_zero] at hleft2 ⊢
            exact ⟨hfa2, by omega, by omega⟩))
          (by omega)
          (Or.inl (by simp only [hL0, hx0, if_false]))
          (by omega) ll m hsplit2
      simp only [Buf.make_size, BTREE_PAGE_SIZE] at hllsz hmsz hsplit2
      refine ⟨3, [ll, m, r], ?_, ?_⟩
      · unfold nodeSplit3
        rw [hnb]
        simp only [Res.ok_bind, BTREE_PAGE_SIZE, if_neg hfit]
        rw [hsplit]
        simp only [Res.ok_bind]
        rw [hlnb]
        simp only [Res.ok_bind, hL0, if_false, if_neg hlfit]
        rw [hsplit2]
        rfl
      · intro nd hnd
        simp only [List.take_succ_cons, List.take_zero, List.mem_cons, List.mem_singleton,
          List.not_mem_nil, or_false] at hnd
        rcases hnd with hnd | hnd | hnd
        · subst hnd
          exact hfa'.getKey_ok
        · subst hnd
          exact hfb'.getKey_ok
        · subst hnd
          exact hfb.getKey_ok

/-! ## Replacing a child link: header, size and running offset -/

/-- A call of `nodeAppendRange` on a node under construction completes, keeps the buffer
length and the header, and leaves in slot `dst + n` the value the offsets loop stores. -/
theorem nodeAppendRange_keep (new old : BNode) (dst src n N no : Nat) (off : Nat → Nat)
    (hl : Layout old no off) (hsrc : src + n ≤ no) (hdst : dst + n ≤ N)
    (hNr : new.data.leRead 2 2 = N)
    (hsz : 4 + 16 * N + rawOff new.data N dst ≤ new.data.size)
    (hsm : 4 + 16 * N + rawOff new.data N dst < 65536) :
    ∃ new', nodeAppendRange new old dst src n = .ok new' ∧
      new'.data.size = new.data.size ∧ new'.data.leRead 2 2 = N ∧
      rawOff new'.data N (dst + n) = if n = 0 then rawOff new.data N dst
        else sub16 (u16 (rawOff new.data N dst + off (src + 1))) (off src) := by
  by_cases hn : n = 0
  · subst hn
    exact ⟨new, by simp [nodeAppendRange], rfl, hNr, by simp⟩
  · obtain ⟨new', hrun, hsize, _, hoffs, _, hfr⟩ :=
      nodeAppendRange_spec new old dst src n N no off hl hsrc (by omega) hdst hNr hsz hsm
    refine ⟨new', hrun, hsize, ?_, ?_⟩
    · rw [← hNr]
      exact Buf.leRead_congr _ _ _ _ (fun j h1 h2 => hfr j (by omega) (by omega) (by omega))
    · rw [if_neg hn, ← hoffs n (by omega) (le_refl _)]
      unfold rawOff
      rw [if_neg (by omega)]

/-- The loop over the replacement kids: each kid is allocated with `tree.new`, in
order, and its first key is appended; the header and the buffer length are kept. -/
theorem nodeReplaceKidN_kids_spec {σ : Type} (tree : BTree σ) (idx N B : Nat)
    (hid : ∀ s kid, (tree.new s kid).2 < 2 ^ 64) (hB2 : B < 65536) :
    ∀ (kids : List BNode) (i : Nat) (s : σ) (cur : BNode),
      (∀ kid, kid ∈ kids → ∃ k, kid.getKey 0 = .ok k ∧ k.length ≤ 1000) →
      cur.data.leRead 2 2 = N → idx + i + kids.length ≤ N →
      4 + 16 * N + rawOff cur.data N (idx + i) + 1004 * kids.length ≤ B →
      B ≤ cur.data.size →
      ∃ cur', nodeReplaceKidN.kids tree idx kids i s cur
          = .ok (kids.foldl (fun st kid => (tree.new st kid).1) s, cur') ∧
        cur'.data.size = cur.data.size ∧ cur'.data.leRead 2 2 = N ∧
        4 + 16 * N + rawOff cur'.data N (idx + i + kids.length) ≤ B := by
  intro kids
  induction kids with
  | nil =>
    intro i s cur _ hNr _ hb _
    exact ⟨cur, rfl, rfl, hNr, by simpa using hb⟩
  | cons kid rest ih =>
    intro i s cur hkeys hNr hi hb hB
    simp only [List.length_cons] at hi hb
    obtain ⟨k, hk, hkl⟩ := hkeys kid (List.mem_cons_self _ _)
    have hu : u16 (idx + u16 i) = idx + i := by
      rw [u16_of_lt (show i < 65536 by omega), u16_of_lt (by omega)]
    obtain ⟨cur1, hrun, hsz1, _, ho1, _, hfr⟩ :=
      nodeAppendKV_spec cur (idx + i) (tree.new s kid).2 N k [] hNr (by omega)
        (hid s kid) (by simp only [List.length_nil]; omega)
        (by simp only [List.length_nil]; omega)
    have hN1 : cur1.data.leRead 2 2 = N := by
      rw [← hNr]
      exact Buf.leRead_congr _ _ _ _ (fun j h1 h2 => hfr j (by omega) (by omega) (by omega))
    have hr1 : rawOff cur1.data N (idx + (i + 1)) = rawOff cur.data N (idx + i) + 4 + k.length := by
      have : rawOff cur1.data N (idx + (i + 1))
          = cur1.data.leRead (4 + 8 * N + 8 * (idx + i)) 2 := by
        simp [rawOff, ← Nat.add_assoc]
      rw [this, ho1]
      simp
    obtain ⟨cur', hrun', hsz', hN', hb'⟩ := ih (i + 1) (tree.new s kid).1 cur1
      (fun kid' h' => hkeys kid' (List.mem_cons_of_mem _ h')) hN1 (by omega)
      (by rw [hr1]; omega) (by rw [hsz1]; exact hB)
    refine ⟨cur', ?_, by rw [hsz', hsz1], hN', ?_⟩
    · simp only [nodeReplaceKidN.kids, hk, Res.ok_bind, hu, hrun, List.foldl_cons]
      exact hrun'
    · have e : idx + i + (rest.length + 1) = idx + (i + 1) + rest.length := by omega
      simp only [List.length_cons]
      rw [e]
      exact hb'

/-- The shape of what `nodeSplit3` returns: a count between 1 and 3 and an array of
three nodes. -/
theorem nodeSplit3_shape (old : BNode) (k : Nat) (nodes : List BNode)
    (h : nodeSplit3 old = .ok (k, nodes)) : 1 ≤ k ∧ k ≤ 3 ∧ nodes.length = 3 := by
  unfold nodeSplit3 at h
  obtain ⟨nb, _, h⟩ := Res.bind_eq_ok.mp h
  by_cases c1 : nb ≤ BTREE_PAGE_SIZE
  · rw [if_pos c1] at h
    obtain ⟨d, _, h⟩ := Res.bind_eq_ok.mp h
    simp only [Res.pure_eq, Res.ok.injEq, Prod.mk.injEq] at h
    obtain ⟨rfl, rfl⟩ := h
    simp
  · rw [if_neg c1] at h
    obtain ⟨⟨left, right⟩, _, h⟩ := Res.bind_eq_ok.mp h
    obtain ⟨nb2, _, h⟩ := Res.bind_eq_ok.mp h
    by_cases c2 : nb2 ≤ BTREE_PAGE_SIZE
    · rw [if_pos c2] at h
      obtain ⟨d, _, h⟩ := Res.bind_eq_ok.mp h
      simp only [Res.pure_eq, Res.ok.injEq, Prod.mk.injEq] at h
      obtain ⟨rfl, rfl⟩ := h
      simp
    · rw [if_neg c2] at h
      obtain ⟨⟨ll, mid⟩, _, h⟩ := Res.bind_eq_ok.mp h
      simp only [Res.pure_eq, Res.ok.injEq, Prod.mk.injEq] at h
      obtain ⟨rfl, rfl⟩ := h
      simp

/-- The call `nodeReplaceKidN(tree, new, old, idx, kids...)` for one to three kids whose
first keys are within the key cap, on a page-sized `old` and a scratch buffer of two
pages: it completes, allocates the kids in order and leaves `nkeys + len(kids) - 1` in
the header. -/
theorem nodeReplaceKidN_spec {σ : Type} (tree : BTree σ) (s : σ) (new old : BNode)
    (idx n : Nat) (off : Nat → Nat) (kids : List BNode)
    (hl : Layout old n off) (hidx : idx < n) (hpage : 4 + 16 * n + off n ≤ 4096)
    (hnew : 8192 ≤ new.data.size) (hk1 : 1 ≤ kids.length) (hk3 : kids.length ≤ 3)
    (hkeys : ∀ kid, kid ∈ kids → ∃ k, kid.getKey 0 = .ok k ∧ k.length ≤ 1000)
    (hid : ∀ s kid, (tree.new s kid).2 < 2 ^ 64) :
    ∃ new', nodeReplaceKidN tree s new old idx kids
        = .ok (kids.foldl (fun st kid => (tree.new st kid).1) s, new') ∧
      new'.nkeys = .ok (n + kids.length - 1) := by
  obtain ⟨N, hNdef⟩ : ∃ N, N = n + kids.length - 1 := ⟨_, rfl⟩
  have hoff0 := hl.off_zero
  have hoff1 : off 1 ≤ off n := hl.off_le (by omega) (le_refl _)
  have e1 : u16 kids.length = kids.length := u16_of_lt (by omega)
  have e2 : sub16 (u16 (n + kids.length)) 1 = N := by
    rw [u16_of_lt (by omega), sub16_of_le (by omega) (by omega), hNdef]
  have e3 : u16 (idx + kids.length) = idx + kids.length := u16_of_lt (by omega)
  have e4 : u16 (idx + 1) = idx + 1 := u16_of_lt (by omega)
  have e5 : sub16 n (idx + 1) = n - (idx + 1) := sub16_of_le (by omega) (by omega)
  -- the header
  obtain ⟨new0, hnew0⟩ : ∃ new0 : BNode,
      new0 = ⟨(new.data.leWrite 0 2 BNODE_NODE).leWrite 2 2 N⟩ := ⟨_, rfl⟩
  have hh : new.setHeader BNODE_NODE N = .ok new0 := by
    rw [hnew0]
    exact setHeader_ok new BNODE_NODE N (by omega)
  have hs0 : new0.data.size = new.data.size := by rw [hnew0]; simp
  have hN0 : new0.data.leRead 2 2 = N := by
    rw [hnew0]
    exact setHeader_nkeys _ _ _ (by omega)
  have hr0 : rawOff new0.data N 0 = 0 := by simp [rawOff]
  -- the entries before `idx`
  obtain ⟨new1, hrun1, hs1, hN1, hr1⟩ :=
    nodeAppendRange_keep new0 old 0 0 idx N n off hl (by omega) (by omega) hN0
      (by rw [hr0, hs0]; omega) (by rw [hr0]; omega)
  have hb1 : rawOff new1.data N (idx + 0) ≤ off n := by
    rw [Nat.add_zero, ← Nat.zero_add idx, hr1]
    by_cases h0 : idx = 0
    · rw [if_pos h0, hr0]
      exact Nat.zero_le _
    · rw [if_neg h0, hr0, hoff0, Nat.zero_add, Nat.zero_add, u16_of_lt (by omega),
        sub16_of_le (by omega) (Nat.zero_le _)]
      exact hoff1
  -- the kids
  obtain ⟨new2, hrun2, hs2, hN2, hb2⟩ :=
    nodeReplaceKidN_kids_spec tree idx N 8192 hid (by omega) kids 0 s new1 hkeys hN1
      (by omega) (by omega) (by rw [hs1, hs0]; exact hnew)
  rw [Nat.add_zero] at hb2
  -- the entries after `idx`
  obtain ⟨new3, hrun3, hs3, hN3, _⟩ :=
    nodeAppendRange_keep new2 old (idx + kids.length) (idx + 1) (n - (idx + 1)) N n off hl
      (by omega) (by omega) hN2 (by rw [hs2, hs1, hs0]; omega) (by omega)
  refine ⟨new3, ?_, ?_⟩
  · unfold nodeReplaceKidN
    simp only [hl.nkeys, Res.ok_bind, e1, e2, e3, e4, e5, hh, hrun1, hrun2, hrun3, Res.pure_eq]
  · rw [nkeys_read, if_pos (by rw [hs3, hs2, hs1, hs0]; omega), hN3, hNdef]

/-- One step at an internal node, given what `nodeSplit3` returns for the child and
that the first keys of the returned nodes are within the key cap. -/
theorem nodeInsert_spec {σ : Type} (tree : BTree σ) (s : σ) (new node : BNode)
    (key val : List Byte) (idx n nb kptr nsplit : Nat) (splited : List BNode)
    (hwf : node.wellFormed = true) (hn : node.nkeys = .ok n) (hidx : idx < n)
    (hnb : node.nbytes = .ok nb) (hpage : nb ≤ BTREE_PAGE_SIZE)
    (hnew : 2 * BTREE_PAGE_SIZE ≤ new.data.size)
    (hptr : node.getPtr idx = .ok kptr)
    (hsplit : nodeSplit3 (tree.get s kptr).2 = .ok (nsplit, splited))
    (hkeys : ∀ kid, kid ∈ splited.take nsplit →
      ∃ k, kid.getKey 0 = .ok k ∧ k.length ≤ BTREE_MAX_KEY_SIZE)
    (hid : ∀ s kid, (tree.new s kid).2 < 2 ^ 64) :
    1 ≤ nsplit ∧ nsplit ≤ 3 ∧
    ∃ new', nodeInsert tree s new node key val idx
        = .ok ((splited.take nsplit).foldl (fun st kid => (tree.new st kid).1)
            (tree.del (tree.get s kptr).1 kptr), new') ∧
      new'.nkeys = .ok (n + nsplit - 1) := by
  obtain ⟨n', hl, _⟩ := wellFormed_unpack node hwf
  have hn' := hl.nkeys
  rw [hn] at hn'
  injection hn' with hn'
  subst hn'
  have hnb' := hl.nbytes
  rw [hnb] at hnb'
  injection hnb' with hnb'
  obtain ⟨h1, h3, hlen⟩ := nodeSplit3_shape _ _ _ hsplit
  have hlt : (splited.take nsplit).length = nsplit := by
    rw [List.length_take, hlen]
    omega
  simp only [BTREE_PAGE_SIZE, BTREE_MAX_KEY_SIZE] at hpage hnew hkeys
  obtain ⟨new', hrun, hnk⟩ := nodeReplaceKidN_spec tree (tree.del (tree.get s kptr).1 kptr) new
    node idx n _ (splited.take nsplit) hl hidx (by omega) hnew (by omega) (by omega) hkeys hid
  rw [hlt] at hnk
  refine ⟨h1, h3, new', ?_, hnk⟩
  unfold nodeInsert
  simp only [hptr, Res.ok_bind, hsplit]
  exact hrun

/-- C17: one step at an internal node over an explicit page-store state. For a
well-formed `node` that fits one page, `idx < nkeys`, a scratch buffer of two pages,
page ids below `2^64`, and a child page (the node `tree.get` returns for
`node.getPtr(idx)`) that is well formed, within the size caps, has at least one entry,
an encoded size of at most two pages and a buffer of at least one page:
`nodeSplit3` returns `nsplit` nodes for the child, with `nsplit` between 1 and 3, and
`nodeInsert` completes; the final store state is the one reached by `tree.get` on
`node.getPtr(idx)`, then `tree.del` on the same id, then `tree.new` on each of the
`nsplit` returned nodes in order, and nothing else; the node built has
`node.nkeys() + nsplit - 1` entries. -/
theorem nodeInsert_store_calls {σ : Type} (tree : BTree σ) (s : σ) (new node : BNode)
    (key val : List Byte) (idx n nb kptr cn cnb : Nat)
    (hwf : node.wellFormed = true) (hn : node.nkeys = .ok n) (hidx : idx < n)
    (hnb : node.nbytes = .ok nb) (hpage : nb ≤ BTREE_PAGE_SIZE)
    (hnew : 2 * BTREE_PAGE_SIZE ≤ new.data.size)
    (hptr : node.getPtr idx = .ok kptr)
    (hcwf : (tree.get s kptr).2.wellFormed = true)
    (hccaps : (tree.get s kptr).2.withinCaps = true)
    (hcn : (tree.get s kptr).2.nkeys = .ok cn) (hcn1 : 1 ≤ cn)
    (hcnb : (tree.get s kptr).2.nbytes = .ok cnb) (hcle : cnb ≤ 2 * BTREE_PAGE_SIZE)
    (hcsize : BTREE_PAGE_SIZE ≤ (tree.get s kptr).2.data.size)
    (hid : ∀ s kid, (tree.new s kid).2 < 2 ^ 64) :
    ∃ nsplit splited new', nodeSplit3 (tree.get s kptr).2 = .ok (nsplit, splited) ∧
      1 ≤ nsplit ∧ nsplit ≤ 3 ∧
      nodeInsert tree s new node key val idx
        = .ok ((splited.take nsplit).foldl (fun st kid => (tree.new st kid).1)
            (tree.del (tree.get s kptr).1 kptr), new') ∧
      new'.nkeys = .ok (n + nsplit - 1) := by
  obtain ⟨nsplit, splited, hsplit, hkeys⟩ :=
    nodeSplit3_first_keys _ cn cnb hcwf hccaps hcn hcn1 hcnb hcle hcsize
  obtain ⟨h1, h3, new', hrun, hnk⟩ := nodeInsert_spec tree s new node key val idx n nb kptr
    nsplit splited hwf hn hidx hnb hpage hnew hptr hsplit hkeys hid
  exact ⟨nsplit, splited, new', hsplit, h1, h3, hrun, hnk⟩

/-- C17 on the recording page store: the internal node `sampleInner3` at index `1`;
the child fetched is `samplePage`. -/
theorem nodeInsert_store_calls_witness :
    ∃ nsplit splited new', nodeSplit3 samplePage = .ok (nsplit, splited) ∧
      1 ≤ nsplit ∧ nsplit ≤ 3 ∧
      nodeInsert recordingTree [] ⟨Buf.make (2 * BTREE_PAGE_SIZE)⟩ sampleInner3 [122] [9] 1
        = .ok ((splited.take nsplit).foldl (fun st kid => (recordingTree.new st kid).1)
            [StoreCall.get 12, StoreCall.del 12], new') ∧
      new'.nkeys = .ok (3 + nsplit - 1) :=
  nodeInsert_store_calls recordingTree [] ⟨Buf.make (2 * BTREE_PAGE_SIZE)⟩ sampleInner3 [122] [9]
    1 3 66 12 2 48 (by decide!) (by decide!) (by decide) (by decide!) (by decide) (by decide)
    (by decide!) (by decide!) (by decide!) (by decide!) (by decide) (by decide!) (by decide)
    (by decide) (fun s kid => Nat.mod_lt _ (by decide))

/-! ## The key/value facade -/

/-- C15: for every database and every database state, `Set`, `Get` and `Delete` with a
nil or empty key return the error `"key is invalid"` and the state they were given
(the database is not invoked); `Set` with a non-empty key and a nil or empty value
returns `"value is invalid"` in the same way; with a non-empty key (and, for `Set`, a
non-empty value) the state and the result are exactly those of `db.Update` on
`txn.Set` / `txn.Delete`, respectively of `db.View` on the transaction function of
`Get` (no data when it returns an error). -/
theorem storageFSM_validation {σ τ ι ε : Type} (sf : StorageFSM σ τ ι ε) (s : σ)
    (key value : Bytes) :
    ((key = none ∨ key = some []) →
      sf.Set s key value = (s, some (.new "key is invalid")) ∧
      sf.Get s key = (s, none, some (.new "key is invalid")) ∧
      sf.Delete s key = (s, some (.new "key is invalid"))) ∧
    ((∃ k, key = some k ∧ k ≠ []) → (value = none ∨ value = some []) →
      sf.Set s key value = (s, some (.new "value is invalid"))) ∧
    ((∃ k, key = some k ∧ k ≠ []) → (∃ v, value = some v ∧ v ≠ []) →
      sf.Set s key value =
        ((sf.db.update s (fun txn => sf.db.txnSet txn key value)).1,
         (sf.db.update s (fun txn => sf.db.txnSet txn key value)).2.map .db)) ∧
    ((∃ k, key = some k ∧ k ≠ []) →
      sf.Delete s key =
        ((sf.db.update s (fun txn => sf.db.txnDelete txn key)).1,
         (sf.db.update s (fun txn => sf.db.txnDelete txn key)).2.map .db) ∧
      sf.Get s key =
        ((sf.db.view s none (StorageFSM.Get.body sf key)).1,
         (match (sf.db.view s none (StorageFSM.Get.body sf key)).2.2 with
          | some _ => none
          | none => (sf.db.view s none (StorageFSM.Get.body sf key)).2.1),
         (sf.db.view s none (StorageFSM.Get.body sf key)).2.2.map .db)) := by
  have hbad : ∀ b : Bytes, (b = none ∨ b = some []) → (b = none ∨ b.len = 0) := by
    intro b hb
    rcases hb with h | h
    · exact Or.inl h
    · exact Or.inr (by rw [h]; rfl)
  have hgood : ∀ b : Bytes, (∃ l, b = some l ∧ l ≠ []) → ¬ (b = none ∨ b.len = 0) := by
    rintro b ⟨l, rfl, hl⟩ h
    rcases h with h | h
    · cases h
    · exact hl (List.length_eq_zero.mp h)
  refine ⟨?_, ?_, ?_, ?_⟩
  · intro hk
    have := hbad key hk
    exact ⟨by unfold StorageFSM.Set; rw [if_pos this],
      by unfold StorageFSM.Get; rw [if_pos this],
      by unfold StorageFSM.Delete; rw [if_pos this]⟩
  · intro hk hv
    unfold StorageFSM.Set
    rw [if_neg (hgood key hk), if_pos (hbad value hv)]
  · intro hk hv
    unfold StorageFSM.Set
    rw [if_neg (hgood key hk), if_neg (hgood value hv)]
  · intro hk
    constructor
    · unfold StorageFSM.Delete
      rw [if_neg (hgood key hk)]
    · unfold StorageFSM.Get
      rw [if_neg (hgood key hk)]
      rcases sf.db.view s none (StorageFSM.Get.body sf key) with ⟨s', data, _ | err⟩
      · rfl
      · rfl

/-- C15 on the sample database holding `("a", 0x01)`: an empty key, a nil value, and
a stored key. -/
theorem storageFSM_validation_witness :
    (StorageFSM.Set ⟨sampleDB⟩ [(some [97], some [1])] (some []) (some [2])
        = ([(some [97], some [1])], some (.new "key is invalid")) ∧
      StorageFSM.Get ⟨sampleDB⟩ [(some [97], some [1])] (some [])
        = ([(some [97], some [1])], none, some (.new "key is invalid")) ∧
      StorageFSM.Delete ⟨sampleDB⟩ [(some [97], some [1])] (some [])
        = ([(some [97], some [1])], some (.new "key is invalid"))) ∧
    StorageFSM.Set ⟨sampleDB⟩ [(some [97], some [1])] (some [98]) none
      = ([(some [97], some [1])], some (.new "value is invalid")) ∧
    StorageFSM.Set ⟨sampleDB⟩ [(some [97], some [1])] (some [98]) (some [2])
      = ([(some [98], some [2]), (some [97], some [1])], none) ∧
    StorageFSM.Delete ⟨sampleDB⟩ [(some [97], some [1])] (some [97]) = ([], none) ∧
    StorageFSM.Get ⟨sampleDB⟩ [(some [97], some [1])] (some [97])
      = ([(some [97], some [1])], some [1], none) :=
  ⟨(storageFSM_validation ⟨sampleDB⟩ [(some [97], some [1])] (some []) (some [2])).1
      (Or.inr rfl),
    (storageFSM_validation ⟨sampleDB⟩ [(some [97], some [1])] (some [98]) none).2.1
      ⟨[98], rfl, by decide⟩ (Or.inl rfl),
    (storageFSM_validation ⟨sampleDB⟩ [(some [97], some [1])] (some [98]) (some [2])).2.2.1
      ⟨[98], rfl, by decide⟩ ⟨[2], rfl, by decide⟩,
    ((storageFSM_validation ⟨sampleDB⟩ [(some [97], some [1])] (some [97]) none).2.2.2
      ⟨[97], rfl, by decide⟩).1,
    ((storageFSM_validation ⟨sampleDB⟩ [(some [97], some [1])] (some [97]) none).2.2.2
      ⟨[97], rfl, by decide⟩).2⟩

/-! ## The builder, the splitter and the internal-node step on sample nodes -/

/-- C11: copying the three entries of the well-formed node `sampleInner3` with
`nodeAppendRange(new, old, 0, 0, 3)` into a zeroed two-page buffer whose header says
three keys leaves `getKey(2) = "b"` where `old.getKey(2) = "c"`, and the offsets
`4, 4, 4` where `old` has `4, 9, 14`: the offsets loop stores
`old.getOffset(srcOld+1)` for every `i`. -/
theorem nodeAppendRange_sampleInner3_offsets :
    sampleInner3.wellFormed = true ∧
    sampleInner3.entries = .ok [(11, [], []), (12, [98], []), (13, [99], [])] ∧
    sampleInner3.getOffset 2 = .ok 9 ∧ sampleInner3.getOffset 3 = .ok 14 ∧
    (sampleInner3Copy.bind BNode.entries)
      = .ok [(11, [], []), (12, [98], []), (13, [98], [])] ∧
    sampleInner3Copy.bind (fun new' => new'.getOffset 2) = .ok 4 ∧
    sampleInner3Copy.bind (fun new' => new'.getOffset 3) = .ok 4 := by
  decide!

/-- C12, as stated, fails: in a buffer of 70000 bytes whose header says
`nkeys = 4096`, `nodeAppendKV(new, 0, 7, "a", "b")` completes, but `kvPos(0)` wraps
around to `4`, the entry is stored over the pointer slot, and `getPtr(0)` is not `7`. -/
theorem nodeAppendKV_sampleWide4096_ptr :
    sampleWide4096.nkeys = .ok 4096 ∧ sampleWide4096.data.size = 70000 ∧
    sampleWide4096.kvPos 0 = .ok 4 ∧
    (nodeAppendKV sampleWide4096 0 7 [97] [98]).bind BNode.nkeys = .ok 4096 ∧
    (nodeAppendKV sampleWide4096 0 7 [97] [98]).bind (fun new' => new'.getPtr 0)
      = .ok 108168751415297 := by
  decide!

/-- C13: in `sampleLeaf2` (`nkeys = 2`, offsets `6` and `12`) the slot of offset `2`
is at byte `28 = 4 + 8*2 + 8*1`, entry `0` starts at `kvPos(0) = 36 = 4 + 8*2 + 8*2`,
entry `1` at `42`, and `nbytes() = 48 = 4 + 16*2 + 12`: the offsets array takes
`OFFSET_SIZE = 8` bytes per entry, not two. -/
theorem layout_sampleLeaf2_offset_size :
    sampleLeaf2.nkeys = .ok 2 ∧ sampleLeaf2.getOffset 1 = .ok 6 ∧
    sampleLeaf2.getOffset 2 = .ok 12 ∧
    offsetPos sampleLeaf2 2 = .ok 28 ∧
    sampleLeaf2.kvPos 0 = .ok 36 ∧ sampleLeaf2.kvPos 1 = .ok 42 ∧
    sampleLeaf2.nbytes = .ok 48 ∧ OFFSET_SIZE = 8 := by
  decide!

/-- C16: `nodeInsert` at index `0` of the internal node `sampleInner1`, whose child
page `5` is the leaf `("a", 0x01), ("b", 0x02)`, with the key `"z"` and the value
`0x09`: the page store sees `get 5`, `del 5` and one `new`, of the child as it was;
the pair `("z", 0x09)` is in no node handed to `new`. -/
theorem nodeInsert_sampleInner1_child_unchanged :
    sampleInner1.wellFormed = true ∧ sampleInner1.btype = .ok BNODE_NODE ∧
    sampleInner1.getPtr 0 = .ok 5 ∧
    samplePage.entries = .ok [(0, [97], [1]), (0, [98], [2])] ∧
    (nodeInsert recordingTree [] ⟨Buf.make (2 * BTREE_PAGE_SIZE)⟩ sampleInner1 [122] [9] 0).bind
      (fun r => .ok r.1)
      = .ok [StoreCall.get 5, StoreCall.del 5,
          StoreCall.new (.ok [(0, [97], [1]), (0, [98], [2])])] := by
  decide!

/-- C18: on `sampleBig` the loops of `nodeSplit2` stop at `nleft = 3` with
`leftBytes() = 2134` and `rightBytes() = 2170`, while the two nodes built have
`nbytes() = 752` each. -/
theorem nodeSplit2_sampleBig_sizes :
    sampleBig.wellFormed = true ∧ nodeSplit2.index sampleBig = .ok 3 ∧
    nodeSplit2.leftBytes sampleBig 3 = .ok 2134 ∧
    nodeSplit2.rightBytes sampleBig 3 = .ok 2170 ∧
    (nodeSplit2 ⟨Buf.make (2 * BTREE_PAGE_SIZE)⟩ ⟨Buf.make BTREE_PAGE_SIZE⟩ sampleBig).bind
      (fun r => .ok (r.1.nkeys, r.1.nbytes, r.2.nkeys, r.2.nbytes))
      = .ok (.ok 3, .ok 752, .ok 3, .ok 752) := by
  decide!

/-- C19: `sampleSkew` is well formed, within the size caps, has 14 entries and the
encoded size `4297`; `nodeSplit3` returns two nodes, the first with all 14 keys and
the second with none. -/
theorem nodeSplit3_sampleSkew_empty_right :
    sampleSkew.wellFormed = true ∧ sampleSkew.withinCaps = true ∧
    sampleSkew.nkeys = .ok 14 ∧ sampleSkew.nbytes = .ok 4297 ∧
    (nodeSplit3 sampleSkew).bind (fun r => .ok (r.1, (r.2.take r.1).map BNode.nkeys))
      = .ok (2, [.ok 14, .ok 0]) := by
  decide!

/-- C20, as stated, fails: in a buffer of 70000 bytes whose header says type `2` and
`nkeys = 4095`, `nodeAppendKV(new, 0, 7, key, val)` with a key of eight bytes stores
the value at position `65536` wrapped to `0`, over the header: `btype()` becomes
`2313`. -/
theorem nodeAppendKV_sampleWide4095_header :
    sampleWide4095.btype = .ok 2 ∧ sampleWide4095.nkeys = .ok 4095 ∧
    sampleWide4095.kvPos 0 = .ok 65524 ∧
    (nodeAppendKV sampleWide4095 0 7 [1, 2, 3, 4, 5, 6, 7, 8] [9, 9]).bind BNode.btype
      = .ok 2313 := by
  decide!

end Zendb
